import Mathlib

/-!
# Verification of a cache-oblivious B-tree (PMA + vEB index tree)

Shallow embedding of the repository `cpcs/cache-oblivious-btree`:

* `src/segment.rs`        — local slot-window operations (shift-insert, remove,
  compact, redistribute);
* `src/packed_memory_array.rs` — the Packed Memory Array with density-threshold
  rebalancing;
* `src/memory_packed_array.rs` — the standalone `veb_index` position function;
* `src/cache_oblivious.rs` — `make_tree` (van Emde Boas layout) and the
  `BTreeMap` container (`find_index`, `insert`, `remove`, `get`,
  `populate_changes`, `rebuild`).

Slots are modelled as `List (Option (K × V))`; machine integers as `Nat`
(no overflow is reachable in the modelled arithmetic since all quantities are
bounded by list lengths); panics/asserts as `Option` results; the exact
rational density comparison of `num_rational::Ratio` as comparison in `ℚ`.

The `BTreeMap` facade of `cache_oblivious.rs` consumes a `PackedMemoryArray`
variant (returning the old value, with `get_key_values` / `data_len`) whose
source is not part of `src/`; those missing pieces are modelled from the
specification, and are marked `Modelled from the spec:` in their doc comments.
-/

namespace COBT

/-! ## Slot lists and occupancy -/

/-- Occupied cells of a slot list, in order (`filter_map` over the slots). -/
def occ {A : Type} (l : List (Option A)) : List A :=
  l.filterMap id

/-- Number of occupied cells, as counted by `Segment::new(_, None)`. -/
def countOcc {A : Type} (l : List (Option A)) : Nat :=
  (occ l).length

/-- Slot at index `i`, empty when out of range. -/
def slotGet {A : Type} (l : List (Option A)) (i : Nat) : Option A :=
  l.getD i none

@[simp] theorem occ_nil {A : Type} : occ ([] : List (Option A)) = [] := rfl

@[simp] theorem occ_cons_none {A : Type} (l : List (Option A)) :
    occ (none :: l) = occ l := rfl

@[simp] theorem occ_cons_some {A : Type} (a : A) (l : List (Option A)) :
    occ (some a :: l) = a :: occ l := rfl

@[simp] theorem occ_append {A : Type} (l m : List (Option A)) :
    occ (l ++ m) = occ l ++ occ m := by
  simp [occ, List.filterMap_append]

@[simp] theorem occ_replicate_none {A : Type} (n : Nat) :
    occ (List.replicate n (none : Option A)) = [] := by
  induction n with
  | zero => rfl
  | succ n ih => simpa [List.replicate_succ] using ih

@[simp] theorem occ_map_some {A : Type} (l : List A) :
    occ (l.map some) = l := by
  induction l with
  | nil => rfl
  | cons a l ih => simpa using ih

/-! ## Density thresholds (`packed_memory_array.rs` lines 31–41)

The source compares `num_rational::Ratio` values built with `Ratio::new_raw`;
for positive denominators that comparison is the exact comparison of the
corresponding rational numbers, which we express in `ℚ`. -/

/-- Model of `PackedMemoryArray::insert_density_ok`:
`Ratio::new_raw(count, size) <= Ratio::new_raw(height * 3 + depth, height << 2)`;
`mkRat` builds the exact rational value the `Ratio` comparison decides. -/
def insert_density_ok (height depth count size : Nat) : Bool :=
  decide (mkRat (Int.ofNat count) size ≤
    mkRat (Int.ofNat (height * 3 + depth)) (height * 4))

/-- Model of `PackedMemoryArray::remove_density_ok`:
`Ratio::new_raw(count, size) >= Ratio::new_raw((height << 1) - depth, height << 2)`. -/
def remove_density_ok (height depth count size : Nat) : Bool :=
  decide (mkRat (Int.ofNat (height * 2 - depth)) (height * 4) ≤
    mkRat (Int.ofNat count) size)

theorem insert_density_ok_iff (height depth count size : Nat)
    (hh : 1 ≤ height) (hs : 1 ≤ size) :
    insert_density_ok height depth count size = true ↔
      count * (height * 4) ≤ size * (height * 3 + depth) := by
  have hs' : (0 : ℚ) < (size : ℚ) := by exact_mod_cast hs
  have hh' : (0 : ℚ) < ((height * 4 : Nat) : ℚ) := by
    have : 0 < height * 4 := by omega
    exact_mod_cast this
  rw [insert_density_ok, decide_eq_true_iff, Rat.mkRat_eq_div,
    Rat.mkRat_eq_div]
  rw [show ((Int.ofNat count : Int) : ℚ) = ((count : Nat) : ℚ) from by
    simp]
  rw [show ((Int.ofNat (height * 3 + depth) : Int) : ℚ) =
    ((height * 3 + depth : Nat) : ℚ) from by simp]
  rw [div_le_div_iff₀ hs' hh']
  rw [show size * (height * 3 + depth) = (height * 3 + depth) * size from
    Nat.mul_comm _ _]
  constructor
  · intro h
    exact_mod_cast h
  · intro h
    exact_mod_cast h

theorem remove_density_ok_iff (height depth count size : Nat)
    (hh : 1 ≤ height) (hs : 1 ≤ size) :
    remove_density_ok height depth count size = true ↔
      size * (height * 2 - depth) ≤ count * (height * 4) := by
  have hs' : (0 : ℚ) < (size : ℚ) := by exact_mod_cast hs
  have hh' : (0 : ℚ) < ((height * 4 : Nat) : ℚ) := by
    have : 0 < height * 4 := by omega
    exact_mod_cast this
  rw [remove_density_ok, decide_eq_true_iff, Rat.mkRat_eq_div,
    Rat.mkRat_eq_div]
  rw [show ((Int.ofNat count : Int) : ℚ) = ((count : Nat) : ℚ) from by
    simp]
  rw [show ((Int.ofNat (height * 2 - depth) : Int) : ℚ) =
    ((height * 2 - depth : Nat) : ℚ) from by simp]
  rw [div_le_div_iff₀ hh' hs']
  rw [show size * (height * 2 - depth) = (height * 2 - depth) * size from
    Nat.mul_comm _ _]
  constructor
  · intro h
    exact_mod_cast h
  · intro h
    exact_mod_cast h

/-- C7: for every `pma_height H ≥ 1`, depth `d ∈ [0, H-1]`, `count`, and
`size ≥ 1`, the rational density test `insert_density_ok` holds exactly when
`count·4H ≤ size·(3H + d)`, and `remove_density_ok` exactly when
`count·4H ≥ size·(2H − d)`: the `Ratio` comparisons are decided by exact
integer cross-multiplication, with no floating point involved. -/
theorem C7_density_thresholds_integer (H d count size : Nat)
    (hH : 1 ≤ H) (hd : d ≤ H - 1) (hs : 1 ≤ size) :
    (insert_density_ok H d count size = true ↔
      count * (4 * H) ≤ size * (3 * H + d)) ∧
    (remove_density_ok H d count size = true ↔
      size * (2 * H - d) ≤ count * (4 * H)) := by
  constructor
  · rw [insert_density_ok_iff H d count size hH hs, Nat.mul_comm H 4,
      Nat.mul_comm H 3]
  · rw [remove_density_ok_iff H d count size hH hs, Nat.mul_comm H 4,
      Nat.mul_comm H 2]

/-- Witness for C7 at `H = 2`, `d = 1`, `count = 3`, `size = 4`. -/
theorem C7_witness :
    (insert_density_ok 2 1 3 4 = true ↔ 3 * (4 * 2) ≤ 4 * (3 * 2 + 1)) ∧
    (remove_density_ok 2 1 3 4 = true ↔ 4 * (2 * 2 - 1) ≤ 3 * (4 * 2)) :=
  C7_density_thresholds_integer 2 1 3 4 (by decide) (by decide) (by decide)

/-! ## `veb_index` (`memory_packed_array.rs`) -/

/-- Iteration core of `usize::next_power_of_two`: smallest power of two that
is at least `n`, computed by doubling an accumulator (`n` is enough fuel). -/
def nextPow2Go (n : Nat) : Nat → Nat → Nat
  | 0, acc => acc
  | fuel + 1, acc => if n ≤ acc then acc else nextPow2Go n fuel (acc * 2)

/-- Model of Rust `usize::next_power_of_two` (with `0 ↦ 1`). -/
def nextPow2 (n : Nat) : Nat := nextPow2Go n n 1

/-- Fueled recursion for `veb_index`; the recursive calls use strictly smaller
heights, so `fuel = height` always suffices. -/
def veb_indexF : Nat → Nat → Nat → Nat
  | 0, n, _ => n
  | fuel + 1, n, height =>
    if height ≤ 1 then n
    else
      let bottom_height := nextPow2 (height >>> 1)
      let top_height := height - bottom_height
      let top_num := n >>> bottom_height
      let bottom_num := n &&& ((1 <<< bottom_height) - 1)
      if bottom_num = 0 then veb_indexF fuel top_num top_height
      else
        let top_size := (1 <<< top_height) - 1
        let subtree_size := (1 <<< bottom_height) - 1
        let top_address := top_num * subtree_size + top_size
        let bot_address := veb_indexF fuel bottom_num bottom_height
        top_address + bot_address

/-- Model of `veb_index` from `memory_packed_array.rs`. -/
def veb_index (n height : Nat) : Nat := veb_indexF height n height

/-! ## `make_tree` (`cache_oblivious.rs` lines 127–162)

`make_tree` pushes nodes into a growing vector; a node's array position is the
vector index at push time.  We mirror the construction as a binary tree
carrying each node's array position, threading the vector length as a
counter.  The Rust code first builds the top subtree, then, for each of its
leaves in left-to-right order, builds the two bottom subtrees and connects
them; `graftInto` performs exactly that leaf-order replacement. -/

/-- Logical shape of the node graph built by `make_tree`, with each node
labelled by its position in the `nodes` vector. -/
inductive BTree where
  | leaf (pos : Nat)
  | node (pos : Nat) (left : BTree) (right : BTree)
deriving DecidableEq, Repr

/-- Array position carried by the root of a subtree. -/
def BTree.pos : BTree → Nat
  | .leaf p => p
  | .node p _ _ => p

/-- Replace every leaf of `t`, in left-to-right order, by a branch keeping the
leaf's position whose children are two freshly built subtrees (`mk`),
threading the node counter: the `connect_nodes` loop of `make_tree`. -/
def graftInto (mk : Nat → BTree × Nat) : BTree → Nat → BTree × Nat
  | .leaf p, c =>
    let bl := mk c
    let br := mk bl.2
    (.node p bl.1 br.1, br.2)
  | .node p l r, c =>
    let l' := graftInto mk l c
    let r' := graftInto mk r l'.2
    (.node p l'.1 r'.1, r'.2)

/-- Fueled `make_tree`: builds the tree of the given height starting at node
counter `c`; recursive heights are strictly smaller, so `fuel = height`
suffices. -/
def makeTreeF : Nat → Nat → Nat → BTree × Nat
  | 0, _, c => (.leaf c, c + 1)
  | fuel + 1, height, c =>
    if height ≤ 1 then (.leaf c, c + 1)
    else
      let bottom_height := nextPow2 ((height + 1) >>> 1)
      let top_height := height - bottom_height
      let top := makeTreeF fuel top_height c
      graftInto (fun c' => makeTreeF fuel bottom_height c') top.1 top.2

/-- Model of `make_tree height` starting from an empty node vector. -/
def makeTree (height : Nat) : BTree := (makeTreeF height height 0).1

/-- Positions of the roots of a frontier of subtrees. -/
def layerPos (ts : List BTree) : List Nat := ts.map BTree.pos

/-- Children of a frontier, left to right. -/
def nextFrontier (ts : List BTree) : List BTree :=
  (ts.map fun t => match t with | .leaf _ => [] | .node _ l r => [l, r]).flatten

/-- Positions grouped by depth, top down, mirroring the `traverse` test
helper of `cache_oblivious.rs`. -/
def layersF : Nat → List BTree → List (List Nat)
  | 0, _ => []
  | d + 1, ts => layerPos ts :: layersF d (nextFrontier ts)

/-- Array positions of the tree's nodes grouped by depth. -/
def treeLayers (t : BTree) (depth : Nat) : List (List Nat) :=
  layersF depth [t]

/-- Root-to-node path of the node with breadth-first id `n`: its binary
digits below the most significant bit, most significant first
(`false` = left). -/
def pathBitsF : Nat → Nat → List Bool
  | 0, _ => []
  | fuel + 1, n => if n ≤ 1 then [] else pathBitsF fuel (n / 2) ++ [decide (n % 2 = 1)]

/-- Walk a path from the root; `none` if the path leaves the tree. -/
def navigate : BTree → List Bool → Option Nat
  | t, [] => some t.pos
  | .leaf _, _ :: _ => none
  | .node _ l r, b :: bs => navigate (if b then r else l) bs

/-- Array position at which `make_tree` placed the node of breadth-first
id `n` (root = 1, children of `m` are `2m` and `2m+1`). -/
def bfsArrayPos (t : BTree) (n : Nat) : Option Nat :=
  if n = 0 then none else navigate t (pathBitsF n n)

/-! ## Segment primitive over slot lists (`segment.rs`) -/

/-- Model of `Segment::move_key_value`: take the slot at `src` and put it at
`dst` (no-op when `src = dst`). -/
def moveKV {A : Type} (l : List (Option A)) (src dst : Nat) : List (Option A) :=
  if src = dst then l else (l.set dst (slotGet l src)).set src none

/-- First index holding an empty slot, scanning left to right. -/
def firstNoneIdx {A : Type} : List (Option A) → Option Nat
  | [] => none
  | none :: _ => some 0
  | some _ :: t => (firstNoneIdx t).map (· + 1)

/-- Scan of `insert_key_value`'s first loop: first empty slot at
index `≥ pos`. -/
def findEmptyRight {A : Type} (l : List (Option A)) (pos : Nat) : Option Nat :=
  (firstNoneIdx (l.drop pos)).map (· + pos)

/-- Scan of `insert_key_value`'s second loop: first empty slot strictly left
of `pos`, scanning right to left. -/
def findEmptyLeft {A : Type} (l : List (Option A)) (pos : Nat) : Option Nat :=
  (firstNoneIdx ((l.take pos).reverse)).map (fun k => pos - 1 - k)

/-- Shift loop `for j in (pos..i).rev() { move(j, j+1) }` with
`c = i - pos` moves. -/
def shiftRightF {A : Type} (l : List (Option A)) (pos : Nat) :
    Nat → List (Option A)
  | 0 => l
  | c + 1 => shiftRightF (moveKV l (pos + c) (pos + c + 1)) pos c

/-- Shift loop `for j in i+1..pos { move(j, j-1) }` with
`c = pos - 1 - i` moves. -/
def shiftLeftF {A : Type} (l : List (Option A)) (i : Nat) :
    Nat → List (Option A)
  | 0 => l
  | c + 1 => shiftLeftF (moveKV l (i + 1) i) (i + 1) c

/-- Model of `Segment::set_key_value` including its `assert!(kv.is_none())`:
`none` models the assertion failure. -/
def set_key_value {A : Type} (l : List (Option A)) (idx : Nat) (kv : A) :
    Option (List (Option A)) :=
  if (slotGet l idx).isNone then some (l.set idx (some kv)) else none

/-- Model of `Segment::insert_key_value` (`segment.rs` lines 102–128):
scan right from `pos` for an empty slot, shifting right and placing at `pos`;
otherwise scan left, shifting left and placing at `pos - 1`; `none` models
the `panic!("No space to insert")` abort. -/
def insert_key_value {A : Type} (l : List (Option A)) (pos : Nat) (kv : A) :
    Option (List (Option A)) :=
  match findEmptyRight l pos with
  | some i => set_key_value (shiftRightF l pos (i - pos)) pos kv
  | none =>
    match findEmptyLeft l pos with
    | some i => set_key_value (shiftLeftF l i (pos - 1 - i)) (pos - 1) kv
    | none => none

/-! ## C6: vEB placement of `make_tree` versus `veb_index` -/

/-- C6 (counterexample): the claim fails already at height 5 on the node with
breadth-first id 2 (the root's left child): `make_tree` places it at array
position 1, while `veb_index(2, 5) = 8` — neither `8` (read 0-based) nor
`8 - 1 = 7` (read 1-based, as the spec's "subtract 1" convention) equals 1,
so the position `make_tree` uses is not computed by `veb_index`. -/
theorem C6_counterexample :
    bfsArrayPos (makeTree 5) 2 = some 1 ∧ veb_index 2 5 = 8 ∧
      ¬(veb_index 2 5 = 1 ∨ veb_index 2 5 - 1 = 1) := by
  decide

/-- C6 (amended): at height 5 the traversal of the tree built by `make_tree`
by depth yields the array positions
`[[0],[1,16],[2,3,17,18],[4,7,10,13,19,22,25,28],
  [5,6,8,9,11,12,14,15,20,21,23,24,26,27,29,30]]`;
the placement is given by `make_tree`'s own recursion and does not agree with
`veb_index`. -/
theorem C6_make_tree_layers :
    treeLayers (makeTree 5) 5 =
      [[0], [1, 16], [2, 3, 17, 18], [4, 7, 10, 13, 19, 22, 25, 28],
        [5, 6, 8, 9, 11, 12, 14, 15, 20, 21, 23, 24, 26, 27, 29, 30]] := by
  decide

/-! ## Compaction and redistribution

`packed_memory_array.rs` consumes a `Segment` over `*mut Option<(K, V)>`
slots (with `get_count`, `insert_key_value`, `remove_key_value`,
`shuffle_key_values(need_compact)`, `move_all_key_values_to_front`) whose
source file is not under `src/`; only the Node-based `segment.rs` variant is.
The pieces that differ are modelled from the spec below. -/

/-- Modelled from the spec: `move_all_key_values_to_front` of the missing
`Option<(K,V)>`-slot `Segment`.  Spec §4.1 `compact_to_front()`: "stable
left-compaction.  After the call, occupants fill the first `count()` slots in
their original relative order; remaining slots are empty." -/
def compactKV {A : Type} (l : List (Option A)) : List (Option A) :=
  (occ l).map some ++ List.replicate (l.length - countOcc l) none

/-- Redistribution loop, iterating the remaining count `r` down to 0 with the
write cursor `j`: "iterate from `i = count−1` down to 0 and from `j = len−1`
downward, placing occupant `i` at `j`, decreasing `j` by `len / count`,
decreasing `j` by an extra 1 whenever `i < len mod count` and `j > 0`"
(spec §4.1; the loop body of `shuffle_key_values` in `segment.rs`). -/
def sLoop {A : Type} (s rem : Nat) : Nat → List (Option A) → Nat → List (Option A)
  | 0, a, _ => a
  | i + 1, a, j =>
    let a' := moveKV a i j
    let j1 := j - s
    let j2 := if i < rem ∧ 0 < j1 then j1 - 1 else j1
    sLoop s rem i a' j2

/-- Modelled from the spec: `shuffle_key_values(need_compact)` of the missing
`Option<(K,V)>`-slot `Segment` (spec §4.1 `redistribute(need_compact)`): if
`need_compact`, compact first; a zero count is a no-op; then run the
redistribution loop with `sub_len = len / count` and `rem = len % count`. -/
def shuffleKV {A : Type} (need_compact : Bool) (l : List (Option A))
    (count : Nat) : List (Option A) :=
  if count = 0 then l
  else
    sLoop (l.length / count) (l.length % count) count
      (if need_compact then compactKV l else l) (l.length - 1)

/-- Model of `Segment::remove_key_value`: clear the slot (the count cache is
recomputed where needed in this embedding). -/
def remove_key_value {A : Type} (l : List (Option A)) (idx : Nat) :
    List (Option A) :=
  l.set idx none

/-! ## Window plumbing for the PMA -/

/-- Rust slice `l[a..b]`. -/
def sliceL {A : Type} (l : List A) (a b : Nat) : List A :=
  (l.drop a).take (b - a)

/-- Write a window back: replace `l[a..b]` by `m`. -/
def setRange {A : Type} (l : List A) (a b : Nat) (m : List A) : List A :=
  l.take a ++ m ++ l.drop b

/-- Model of `Vec::resize(n, None)`: truncate or extend with empty slots. -/
def resizeL {A : Type} (l : List (Option A)) (n : Nat) : List (Option A) :=
  l.take n ++ List.replicate (n - l.length) none

/-- Occupancy of the window `l[a..b]`. -/
def countRange {A : Type} (l : List (Option A)) (a b : Nat) : Nat :=
  countOcc (sliceL l a b)

/-! ## Effect of the segment shift loops -/

theorem set_append_len {A : Type} (Y : List A) (b v : A) (T : List A) :
    (Y ++ b :: T).set Y.length v = Y ++ v :: T := by
  induction Y with
  | nil => rfl
  | cons y Y ih => simpa [List.set] using ih

theorem getD_append_len {A : Type} (Y : List A) (b d : A) (T : List A) :
    (Y ++ b :: T).getD Y.length d = b := by
  induction Y with
  | nil => rfl
  | cons y Y ih => simpa using ih

theorem slotGet_append_len {A : Type} (Y : List (Option A)) (b : Option A)
    (T : List (Option A)) : slotGet (Y ++ b :: T) Y.length = b :=
  getD_append_len Y b none T

theorem moveKV_adj_right {A : Type} (Y : List (Option A)) (a : Option A)
    (S : List (Option A)) :
    moveKV (Y ++ a :: none :: S) Y.length (Y.length + 1) =
      Y ++ none :: a :: S := by
  have hne : Y.length ≠ Y.length + 1 := by omega
  rw [moveKV, if_neg hne, slotGet_append_len]
  have h1 : (Y ++ a :: none :: S).set (Y.length + 1) a =
      Y ++ a :: a :: S := by
    have := set_append_len (Y ++ [a]) (none : Option A) a S
    simpa using this
  rw [h1]
  exact set_append_len Y a none (a :: S)

theorem moveKV_adj_left {A : Type} (Y : List (Option A)) (a : Option A)
    (S : List (Option A)) :
    moveKV (Y ++ none :: a :: S) (Y.length + 1) Y.length =
      Y ++ a :: none :: S := by
  have hne : Y.length + 1 ≠ Y.length := by omega
  rw [moveKV, if_neg hne]
  have hget : slotGet (Y ++ none :: a :: S) (Y.length + 1) = a := by
    have := slotGet_append_len (Y ++ [(none : Option A)]) a S
    simpa using this
  rw [hget]
  have h1 : (Y ++ none :: a :: S).set Y.length a = Y ++ a :: a :: S :=
    set_append_len Y none a (a :: S)
  rw [h1]
  have := set_append_len (Y ++ [a]) a (none : Option A) S
  simpa using this

theorem shiftRightF_spec {A : Type} :
    ∀ (c : Nat) (M P S : List (Option A)), M.length = c →
      shiftRightF (P ++ M ++ none :: S) P.length c = P ++ none :: (M ++ S) := by
  intro c
  induction c with
  | zero =>
    intro M P S hM
    have : M = [] := List.length_eq_zero.mp hM
    subst this
    simp [shiftRightF]
  | succ c ih =>
    intro M P S hM
    rcases M.eq_nil_or_concat with rfl | ⟨M₀, m, rfl⟩
    · simp at hM
    · have hM₀ : M₀.length = c := by
        simpa [List.concat_eq_append] using hM
      rw [shiftRightF]
      have hmv : moveKV (P ++ (M₀.concat m) ++ none :: S)
          (P.length + c) (P.length + c + 1) = P ++ M₀ ++ none :: m :: S := by
        have := moveKV_adj_right (P ++ M₀) m S
        simpa [List.concat_eq_append, hM₀, Nat.add_comm, Nat.add_assoc,
          Nat.add_left_comm] using this
      rw [hmv]
      have := ih M₀ P (m :: S) hM₀
      simpa [List.concat_eq_append, List.append_assoc] using this

theorem shiftLeftF_spec {A : Type} :
    ∀ (c : Nat) (M P S : List (Option A)), M.length = c →
      shiftLeftF (P ++ none :: M ++ S) P.length c = P ++ M ++ none :: S := by
  intro c
  induction c with
  | zero =>
    intro M P S hM
    have : M = [] := List.length_eq_zero.mp hM
    subst this
    simp [shiftLeftF]
  | succ c ih =>
    intro M P S hM
    rcases M with _ | ⟨m, M₁⟩
    · simp at hM
    · have hM₁ : M₁.length = c := by simpa using hM
      rw [shiftLeftF]
      have hmv : moveKV (P ++ none :: (m :: M₁) ++ S) (P.length + 1) P.length =
          P ++ m :: none :: M₁ ++ S := by
        simpa using moveKV_adj_left P m (M₁ ++ S)
      rw [hmv]
      have := ih M₁ (P ++ [m]) S hM₁
      simpa [List.append_assoc] using this

/-! ## The redistribution loop preserves the occupants in order -/

theorem length_moveKV {A : Type} (l : List (Option A)) (src dst : Nat) :
    (moveKV l src dst).length = l.length := by
  rw [moveKV]
  split
  · rfl
  · simp

theorem take_succ_elem {A : Type} (L : List A) (i : Nat) (h : i < L.length) :
    L.take (i + 1) = L.take i ++ [L.get ⟨i, h⟩] := by
  rw [List.take_succ]
  congr 1
  rw [List.getElem?_eq_getElem h]
  rfl

/-- Numeric invariant of the redistribution loop: the write cursor stays at
or to the right of position `(i-1)·sub_len + min (i-1) rem` when stepping
from index `i` to `i - 1`. -/
theorem sLoop_numeric (s rem i j : Nat) (hs : 1 ≤ s) (hi : 1 ≤ i)
    (h : i * s + min i rem ≤ j) :
    (i - 1) * s + min (i - 1) rem ≤
      if i < rem ∧ 0 < j - s then j - s - 1 else j - s := by
  have hmul : i * s = (i - 1) * s + s := by
    conv_lhs => rw [show i = (i - 1) + 1 by omega]
    rw [Nat.succ_mul]
  rw [hmul] at h
  by_cases h1 : i < rem
  · by_cases h2 : 0 < j - s
    · rw [if_pos ⟨h1, h2⟩]
      omega
    · rw [if_neg (by tauto)]
      omega
  · rw [if_neg (by tauto)]
    omega

/-- Invariant-carrying correctness of the redistribution loop: starting from
a front-compacted prefix of `r` occupants, an all-empty gap ending at the
write cursor `j`, and an already-placed tail, the loop preserves the
occupants (with their order) and the length. -/
theorem sLoop_occ {A : Type} (s rem : Nat) (hs : 1 ≤ s) (L : List A) :
    ∀ (r j : Nat) (a : List (Option A)),
      r ≤ L.length →
      (1 ≤ r → ∃ T, a = (L.take r).map some ++
        List.replicate (j + 1 - r) none ++ T) →
      (1 ≤ r → (r - 1) * s + min (r - 1) rem ≤ j) →
      occ (sLoop s rem r a j) = occ a ∧
        (sLoop s rem r a j).length = a.length := by
  intro r
  induction r with
  | zero => intro j a _ _ _; exact ⟨rfl, rfl⟩
  | succ i ih =>
    intro j a hr hshape hnum
    obtain ⟨T, ha⟩ := hshape (by omega)
    have hnum' : i * s + min i rem ≤ j := by
      simpa using hnum (by omega)
    have hiL : i < L.length := hr
    have hjge : i ≤ j := by
      have h1 : i ≤ i * s := Nat.le_mul_of_pos_right i hs
      omega
    have hPlen : ((L.take i).map some).length = i := by
      simp [List.length_take]
      omega
    have htk := take_succ_elem L i hiL
    -- the new tail and cursor after one step
    have hstep : sLoop s rem (i + 1) a j =
        sLoop s rem i (moveKV a i j)
          (if i < rem ∧ 0 < j - s then j - s - 1 else j - s) := rfl
    by_cases hji : j = i
    · -- degenerate gap: the move is a no-op
      have hmv : moveKV a i j = a := by
        rw [moveKV, if_pos (by omega)]
      rw [hstep, hmv]
      rcases Nat.eq_zero_or_pos i with hi0 | hi1
      · subst hi0
        exact ⟨rfl, rfl⟩
      · -- from the numeric invariant, s = 1 and rem = 0 here
        have hs1 : s = 1 ∧ min i rem = 0 := by
          have h1 : i ≤ i * s := Nat.le_mul_of_pos_right i hs
          have h2 : i * s = (i - 1) * s + s := by
            conv_lhs => rw [show i = (i - 1) + 1 by omega]
            rw [Nat.succ_mul]
          have h3 : i - 1 ≤ (i - 1) * s := Nat.le_mul_of_pos_right _ hs
          have h4 := hnum'
          revert h1 h2 h3 h4
          generalize (i - 1) * s = q
          generalize i * s = p
          intro h1 h2 h3 h4
          omega
        have hrem : rem = 0 := by
          rcases hs1 with ⟨_, hmin⟩
          rcases Nat.le_total i rem with h | h
          · have h' := Nat.min_eq_left h
            omega
          · have h' := Nat.min_eq_right h
            omega
        have hj2 : (if i < rem ∧ 0 < j - s then j - s - 1 else j - s) = i - 1 := by
          rw [if_neg (by omega), hs1.1]
          omega
        rw [hj2]
        have e0 : j + 1 - (i + 1) = 0 := by omega
        have e1 : (i - 1) + 1 - i = 0 := by omega
        have hshape' : a = (L.take i).map some ++
            List.replicate ((i - 1) + 1 - i) none ++
              (some (L.get ⟨i, hiL⟩) :: T) := by
          rw [ha, e0, e1, htk, List.map_append]
          simp only [List.replicate, List.map_cons, List.map_nil,
            List.nil_append, List.append_nil, List.append_assoc,
            List.cons_append, List.singleton_append]
        exact ih (i - 1) a (by omega) (fun _ => ⟨_, hshape'⟩)
          (fun h1 => by
            rw [hs1.1, hrem]
            simp)
    · -- real move into the gap
      have hji' : i < j := by omega
      have hgap : j + 1 - (i + 1) = (j - i - 1) + 1 := by omega
      -- explicit form of a for the two `set`s
      have ha1 : a = (L.take i).map some ++
          some (L.get ⟨i, hiL⟩) ::
            (List.replicate (j - i - 1) none ++ none :: T) := by
        rw [ha, hgap, htk, List.map_append, List.replicate_succ']
        simp only [List.map_cons, List.map_nil, List.append_assoc,
          List.cons_append, List.nil_append, List.singleton_append]
      have hslot : slotGet a i = some (L.get ⟨i, hiL⟩) := by
        rw [ha1]
        have h := slotGet_append_len ((L.take i).map some)
          (some (L.get ⟨i, hiL⟩))
          (List.replicate (j - i - 1) none ++ none :: T)
        rwa [hPlen] at h
      have hY2len : ((L.take (i + 1)).map some ++
          List.replicate (j - i - 1) none).length = j := by
        simp [List.length_take]
        omega
      have ha2 : a = ((L.take (i + 1)).map some ++
          List.replicate (j - i - 1) none) ++ none :: T := by
        rw [ha, hgap, List.replicate_succ']
        simp only [List.append_assoc, List.cons_append, List.nil_append,
          List.singleton_append]
      have hset1 : a.set j (some (L.get ⟨i, hiL⟩)) =
          ((L.take (i + 1)).map some ++ List.replicate (j - i - 1) none) ++
            some (L.get ⟨i, hiL⟩) :: T := by
        have h := set_append_len
          ((L.take (i + 1)).map some ++ List.replicate (j - i - 1) none)
          (none : Option A) (some (L.get ⟨i, hiL⟩)) T
        rw [hY2len] at h
        rw [ha2]
        exact h
      have hset1' : a.set j (some (L.get ⟨i, hiL⟩)) =
          (L.take i).map some ++ some (L.get ⟨i, hiL⟩) ::
            (List.replicate (j - i - 1) none ++
              some (L.get ⟨i, hiL⟩) :: T) := by
        rw [hset1, htk, List.map_append]
        simp only [List.map_cons, List.map_nil, List.append_assoc,
          List.cons_append, List.nil_append, List.singleton_append]
      have hmv : moveKV a i j = (L.take i).map some ++
          none :: (List.replicate (j - i - 1) none ++
            some (L.get ⟨i, hiL⟩) :: T) := by
        rw [moveKV, if_neg (by omega), hslot, hset1']
        have h := set_append_len ((L.take i).map some)
          (some (L.get ⟨i, hiL⟩)) (none : Option A)
          (List.replicate (j - i - 1) none ++ some (L.get ⟨i, hiL⟩) :: T)
        rwa [hPlen] at h
      -- occupants are unchanged by the move
      have hocc : occ (moveKV a i j) = occ a := by
        rw [hmv, ha1]
        simp [occ_append]
      have hlen : (moveKV a i j).length = a.length := length_moveKV a i j
      rw [hstep]
      rcases Nat.eq_zero_or_pos i with hi0 | hi1
      · subst hi0
        refine ⟨?_, ?_⟩
        · rw [show sLoop s rem 0 (moveKV a 0 j)
            (if 0 < rem ∧ 0 < j - s then j - s - 1 else j - s) =
              moveKV a 0 j from rfl]
          exact hocc
        · rw [show sLoop s rem 0 (moveKV a 0 j)
            (if 0 < rem ∧ 0 < j - s then j - s - 1 else j - s) =
              moveKV a 0 j from rfl]
          exact hlen
      · -- invoke the induction hypothesis with the rebuilt shape
        obtain ⟨j2, hj2⟩ : ∃ j2, (if i < rem ∧ 0 < j - s then j - s - 1 else j - s)
            = j2 := ⟨_, rfl⟩
        rw [hj2]
        have hnum2 : (i - 1) * s + min (i - 1) rem ≤ j2 := by
          rw [← hj2]
          exact sLoop_numeric s rem i j hs hi1 hnum'
        have hj2s : j2 ≤ j - s := by
          rw [← hj2]
          split <;> omega
        have hj2i : i - 1 ≤ j2 := by
          have h3 : i - 1 ≤ (i - 1) * s := Nat.le_mul_of_pos_right _ hs
          revert hnum2 h3
          generalize (i - 1) * s = q
          intro hnum2 h3
          omega
        have hj2j : j2 ≤ j - 1 := by omega
        have hsplitrep : (j - i - 1) + 1 = (j2 + 1 - i) + (j - 1 - j2) := by
          omega
        have hshape' : moveKV a i j = (L.take i).map some ++
            List.replicate (j2 + 1 - i) none ++
              (List.replicate (j - 1 - j2) none ++
                some (L.get ⟨i, hiL⟩) :: T) := by
          rw [hmv]
          have hrepl : (none : Option A) :: (List.replicate (j - i - 1) none ++
              some (L.get ⟨i, hiL⟩) :: T) =
              List.replicate (j2 + 1 - i) none ++
                (List.replicate (j - 1 - j2) none ++
                  some (L.get ⟨i, hiL⟩) :: T) := by
            rw [← List.cons_append, ← List.replicate_succ]
            rw [show (j - i - 1) + 1 = (j2 + 1 - i) + (j - 1 - j2) from hsplitrep]
            rw [List.replicate_add, List.append_assoc]
          rw [hrepl, ← List.append_assoc]
        have hres := ih j2 (moveKV a i j) (by omega)
          (fun _ => ⟨_, hshape'⟩) (fun _ => hnum2)
        refine ⟨?_, ?_⟩
        · rw [hres.1, hocc]
        · rw [hres.2, hlen]

theorem countOcc_le_length {A : Type} (l : List (Option A)) :
    countOcc l ≤ l.length := by
  rw [countOcc, occ]
  exact List.length_filterMap_le id l

theorem compactKV_length {A : Type} (l : List (Option A)) :
    (compactKV l).length = l.length := by
  have h := countOcc_le_length l
  rw [compactKV, List.length_append, List.length_map, List.length_replicate]
  rw [countOcc] at h ⊢
  omega

theorem occ_compactKV {A : Type} (l : List (Option A)) :
    occ (compactKV l) = occ l := by
  rw [compactKV]
  simp

/-- The spec-modelled `shuffle_key_values` preserves the occupants (with
their order) and the window length, whenever the supplied count is the true
occupancy and, for `need_compact = false`, the window is already compacted
to the front. -/
theorem shuffleKV_occ {A : Type} (nc : Bool) (l : List (Option A))
    (count : Nat) (hc : count = countOcc l)
    (hcomp : nc = false → l = compactKV l) :
    occ (shuffleKV nc l count) = occ l ∧
      (shuffleKV nc l count).length = l.length := by
  by_cases h0 : count = 0
  · simp [shuffleKV, h0]
  · have hle : count ≤ l.length := hc ▸ countOcc_le_length l
    have hpos : 1 ≤ count := Nat.one_le_iff_ne_zero.mpr h0
    have hlenpos : 1 ≤ l.length := le_trans hpos hle
    have hbase : (if nc then compactKV l else l) = compactKV l := by
      cases nc with
      | false => simpa using hcomp rfl
      | true => simp
    rw [shuffleKV, if_neg h0, hbase]
    have hs : 1 ≤ l.length / count := (Nat.one_le_div_iff (by omega)).mpr hle
    have hLlen : (occ l).length = count := by rw [hc, countOcc]
    have hshape : compactKV l = ((occ l).take count).map some ++
        List.replicate ((l.length - 1) + 1 - count) none ++ [] := by
      rw [compactKV]
      have h1 : (occ l).take count = occ l := by
        rw [List.take_of_length_le (le_of_eq hLlen)]
      have h2 : (l.length - 1) + 1 - count = l.length - countOcc l := by
        rw [← hc]
        omega
      rw [h1, h2, List.append_nil]
    have hnum : 1 ≤ count →
        (count - 1) * (l.length / count) + min (count - 1) (l.length % count)
          ≤ l.length - 1 := by
      intro _
      obtain ⟨s', hs'⟩ : ∃ x, l.length / count = x := ⟨_, rfl⟩
      obtain ⟨r', hr'⟩ : ∃ x, l.length % count = x := ⟨_, rfl⟩
      have hdm := Nat.div_add_mod l.length count
      rw [hs'] at hs ⊢
      rw [hs', hr'] at hdm
      rw [hr']
      have hmul : count * s' = (count - 1) * s' + s' := by
        conv_lhs => rw [show count = (count - 1) + 1 by omega]
        rw [Nat.succ_mul]
      have hminle : min (count - 1) r' ≤ r' := Nat.min_le_right _ _
      revert hdm hmul hminle hs
      generalize (count - 1) * s' = q
      generalize count * s' = p
      intro hdm hmul hminle hs
      omega
    have h := sLoop_occ (l.length / count) (l.length % count) hs (occ l)
      count (l.length - 1) (compactKV l) (le_of_eq hLlen.symm)
      (fun _ => ⟨[], hshape⟩) hnum
    rcases h with ⟨h1, h2⟩
    rw [h1, h2, occ_compactKV, compactKV_length]
    exact ⟨rfl, rfl⟩

/-- Clearing slot `i` splits the occupants around it. -/
theorem set_none_decomp {A : Type} (l : List (Option A)) (i : Nat)
    (h : i < l.length) :
    l.set i none = l.take i ++ none :: l.drop (i + 1) := by
  have hd : l.drop i = l.getD i (l.get ⟨i, h⟩) :: l.drop (i + 1) := by
    rw [List.getD_eq_getElem l _ h]
    exact List.drop_eq_getElem_cons h
  have hsplit : l = l.take i ++ l.getD i (l.get ⟨i, h⟩) :: l.drop (i + 1) := by
    conv_lhs => rw [← List.take_append_drop i l]
    rw [hd]
  have hlen : (l.take i).length = i := List.length_take_of_le (le_of_lt h)
  conv_lhs => rw [hsplit]
  have hset := set_append_len (l.take i) (l.getD i (l.get ⟨i, h⟩))
    (none : Option A) (l.drop (i + 1))
  rw [hlen] at hset
  exact hset

/-! ## Window algebra -/

theorem sliceL_length {A : Type} (l : List A) (a b : Nat)
    (hab : a ≤ b) (hb : b ≤ l.length) : (sliceL l a b).length = b - a := by
  rw [sliceL, List.length_take, List.length_drop]
  omega

theorem sliceL_split {A : Type} (l : List A) (a b c : Nat)
    (hab : a ≤ b) (hbc : b ≤ c) :
    sliceL l a c = sliceL l a b ++ sliceL l b c := by
  rw [sliceL, sliceL, sliceL]
  have hdrop : l.drop b = (l.drop a).drop (b - a) := by
    rw [List.drop_drop]
    congr 1
    omega
  rw [hdrop]
  have h1 : c - a = (b - a) + (c - b) := by omega
  rw [h1, List.take_add]

theorem countRange_split {K V : Type} (l : List (Option (K × V))) (a b c : Nat)
    (hab : a ≤ b) (hbc : b ≤ c) :
    countRange l a c = countRange l a b + countRange l b c := by
  rw [countRange, countRange, countRange, sliceL_split l a b c hab hbc,
    countOcc, countOcc, countOcc, occ_append, List.length_append]

theorem take_split_slice {A : Type} (l : List A) (lo idx hi : Nat)
    (h1 : lo ≤ idx) (h2 : idx ≤ hi) :
    l.take idx = l.take lo ++ (sliceL l lo hi).take (idx - lo) := by
  rw [sliceL, List.take_take]
  have h3 : min (idx - lo) (hi - lo) = idx - lo := by omega
  rw [h3]
  have h4 : idx = lo + (idx - lo) := by omega
  conv_lhs => rw [h4]
  exact List.take_add l lo (idx - lo)

theorem drop_split_slice {A : Type} (l : List A) (lo idx hi : Nat)
    (h1 : lo ≤ idx) (h2 : idx ≤ hi) (h3 : hi ≤ l.length) :
    l.drop idx = (sliceL l lo hi).drop (idx - lo) ++ l.drop hi := by
  rw [sliceL, List.drop_take]
  have e1 : (l.drop lo).drop (idx - lo) = l.drop idx := by
    rw [List.drop_drop]
    congr 1
    omega
  have e2 : hi - lo - (idx - lo) = hi - idx := by omega
  rw [e1, e2]
  have e3 : (l.drop idx).drop (hi - idx) = l.drop hi := by
    rw [List.drop_drop]
    congr 1
    omega
  conv_lhs => rw [← List.take_append_drop (hi - idx) (l.drop idx)]
  rw [e3]

theorem occ_setRange {A : Type} (l m : List (Option A)) (a b : Nat) :
    occ (setRange l a b m) = occ (l.take a) ++ occ m ++ occ (l.drop b) := by
  rw [setRange, occ_append, occ_append]

theorem setRange_length {A : Type} (l m : List A) (a b : Nat)
    (hab : a ≤ b) (hb : b ≤ l.length) (hm : m.length = b - a) :
    (setRange l a b m).length = l.length := by
  rw [setRange, List.length_append, List.length_append, List.length_take,
    List.length_drop, hm]
  omega

theorem take_setRange {A : Type} (l m : List A) (a b : Nat)
    (ha : a ≤ l.length) :
    (setRange l a b m).take a = l.take a := by
  rw [setRange]
  have h : (l.take a).length = a := List.length_take_of_le ha
  rw [List.append_assoc]
  rw [List.take_left' h]

theorem drop_setRange {A : Type} (l m : List A) (a b : Nat)
    (hab : a ≤ b) (hb : b ≤ l.length) (hm : m.length = b - a) :
    (setRange l a b m).drop b = l.drop b := by
  rw [setRange]
  have h : (l.take a ++ m).length = b := by
    rw [List.length_append, List.length_take_of_le (le_trans hab hb), hm]
    omega
  exact List.drop_left' h

theorem sliceL_setRange {A : Type} (l m : List A) (a b : Nat)
    (hab : a ≤ b) (hb : b ≤ l.length) (hm : m.length = b - a) :
    sliceL (setRange l a b m) a b = m := by
  rw [sliceL]
  have h : (l.take a).length = a := List.length_take_of_le (le_trans hab hb)
  have hdrop : (setRange l a b m).drop a = m ++ l.drop b := by
    rw [setRange, List.append_assoc]
    exact List.drop_left' h
  rw [hdrop]
  exact List.take_left' hm

/-! ## Alignment arithmetic for the window climb -/

theorem align_odd_step (lo size : Nat) (h0 : 0 < size) (hal : lo % size = 0)
    (hodd : (lo / size) % 2 = 1) :
    size ≤ lo ∧ (lo - size) % (size * 2) = 0 := by
  have he : size * (lo / size) = lo :=
    Nat.mul_div_cancel' (Nat.dvd_of_mod_eq_zero hal)
  obtain ⟨f, hf⟩ : ∃ f, lo / size = 2 * f + 1 := ⟨lo / size / 2, by omega⟩
  have hlo : lo = size * 2 * f + size := by
    rw [← he, hf]
    ring
  constructor
  · omega
  · have h2 : lo - size = size * 2 * f := by omega
    rw [h2]
    exact Nat.mul_mod_right _ _

theorem align_even_step (lo size : Nat) (h0 : 0 < size) (hal : lo % size = 0)
    (heven : (lo / size) % 2 = 0) : lo % (size * 2) = 0 := by
  have he : size * (lo / size) = lo :=
    Nat.mul_div_cancel' (Nat.dvd_of_mod_eq_zero hal)
  obtain ⟨f, hf⟩ : ∃ f, lo / size = 2 * f := ⟨lo / size / 2, by omega⟩
  have h2 : lo = size * 2 * f := by
    rw [← he, hf]
    ring
  rw [h2]
  exact Nat.mul_mod_right _ _

theorem aligned_lt_imp_add_le (lo size2 cap : Nat) (h0 : 0 < size2)
    (hal : lo % size2 = 0) (hdvd : size2 ∣ cap) (hlt : lo < cap) :
    lo + size2 ≤ cap := by
  obtain ⟨q, hq⟩ := hdvd
  have he : size2 * (lo / size2) = lo :=
    Nat.mul_div_cancel' (Nat.dvd_of_mod_eq_zero hal)
  have hmq : lo / size2 < q := by
    by_contra h
    push_neg at h
    have hc : cap ≤ lo := by
      rw [hq, ← he]
      exact Nat.mul_le_mul_left _ h
    omega
  have h3 : lo + size2 = size2 * (lo / size2 + 1) := by
    rw [Nat.mul_succ, he]
  rw [h3, hq]
  exact Nat.mul_le_mul_left _ hmq

/-! ## The Packed Memory Array (`packed_memory_array.rs`) -/

/-- State of `PackedMemoryArray` (the `data` pointer vector always mirrors
`v`, so only the slot list is kept). -/
structure PackedMemoryArray (K V : Type) where
  v : List (Option (K × V))
  height : Nat
  segment_size_log2 : Nat
  segment_size : Nat
deriving Repr, DecidableEq

/-- Model of `PackedMemoryArray::new`: one empty slot, height 1,
segment size 1. -/
def PackedMemoryArray.new {K V : Type} : PackedMemoryArray K V :=
  ⟨[none], 1, 0, 1⟩

/-- Result of the upward window-extension loop of `insert`. -/
structure ClimbOut where
  found : Bool
  density : Bool
  lo : Nat
  hi : Nat
  size : Nat
  count : Nat
  segPos : Nat
deriving Repr

/-- The `for depth in (0..self.height - 1).rev()` loop of
`PackedMemoryArray::insert`: extend the window by its sibling half, double
the size, claim the insertion slot the first time the window has a gap, and
stop at the first depth whose density ceiling accepts the window.  `r` is
the number of remaining iterations, so the current depth is `r - 1`. -/
def climbIns {K V : Type} (l : List (Option (K × V))) (H : Nat) :
    Nat → Nat → Nat → Nat → Nat → Nat → Bool → ClimbOut
  | 0, lo, hi, size, count, segPos, found =>
    ⟨found, false, lo, hi, size, count, segPos⟩
  | r + 1, lo, hi, size, count, segPos, found =>
    let ext :=
      if (lo / size) % 2 = 1 then
        (lo - size, hi, segPos + size, count + countRange l (lo - size) lo)
      else
        (lo, hi + size, segPos, count + countRange l hi (hi + size))
    let size' := size * 2
    let fc := if ¬found ∧ ext.2.2.2 < size' then (true, ext.2.2.2 + 1)
      else (found, ext.2.2.2)
    if fc.1 ∧ insert_density_ok H r fc.2 size' then
      ⟨true, true, ext.1, ext.2.1, size', fc.2, ext.2.2.1⟩
    else
      climbIns l H r ext.1 ext.2.1 size' fc.2 ext.2.2.1 fc.1

/-- Model of `PackedMemoryArray::insert` (`packed_memory_array.rs` lines
44–112).  `none` models the `assert!(found_segment)` panic and the segment
insertion abort; the returned range is `Some (lo, hi)` for a window rewrite
and `None` after a growing resize. -/
def PackedMemoryArray.insert {K V : Type} (p : PackedMemoryArray K V)
    (index : Nat) (kv : K × V) :
    Option (PackedMemoryArray K V × Option (Nat × Nat)) :=
  let l := p.v
  let ss := p.segment_size
  let ssl := p.segment_size_log2
  let H := p.height
  let segment_id := (index >>> ssl) - (if l.length = index then 1 else 0)
  let segPos0 := if l.length = index then ss else index &&& (ss - 1)
  let lo0 := segment_id <<< ssl
  let hi0 := lo0 + ss
  let count0 := countRange l lo0 hi0
  let init := if count0 < ss then
      (true, count0 + 1, insert_density_ok H (H - 1) (count0 + 1) ss)
    else (false, count0, false)
  let res := if ¬init.1 ∨ ¬init.2.2 then
      climbIns l H (H - 1) lo0 hi0 ss init.2.1 segPos0 init.1
    else ⟨true, true, lo0, hi0, ss, init.2.1, segPos0⟩
  if ¬res.found then none
  else if res.density then
    match insert_key_value (sliceL l res.lo res.hi) res.segPos kv with
    | none => none
    | some m =>
      some ({ p with v := setRange l res.lo res.hi (shuffleKV true m res.count) },
        some (res.lo, res.hi))
  else
    let l2 := resizeL l (res.size * 2)
    let hs := if H - 1 = ssl then (H + 1, ssl, ss) else (H, ssl + 1, ss * 2)
    match insert_key_value l2 res.segPos kv with
    | none => none
    | some m =>
      some (⟨shuffleKV true m res.count, hs.1, hs.2.1, hs.2.2⟩, none)

/-- Result of the upward window-extension loop of `remove`. -/
structure ClimbRemOut where
  stopped : Bool
  lo : Nat
  hi : Nat
  size : Nat
  count : Nat
deriving Repr

/-- The `for depth in (0..self.height - 1).rev()` loop of
`PackedMemoryArray::remove`: extend by the sibling half, double the size,
stop at the first depth whose density floor accepts the window. -/
def climbRem {K V : Type} (l : List (Option (K × V))) (H : Nat) :
    Nat → Nat → Nat → Nat → Nat → ClimbRemOut
  | 0, lo, hi, size, count => ⟨false, lo, hi, size, count⟩
  | r + 1, lo, hi, size, count =>
    let ext :=
      if (lo / size) % 2 = 1 then
        (lo - size, hi, count + countRange l (lo - size) lo)
      else
        (lo, hi + size, count + countRange l hi (hi + size))
    let size' := size * 2
    if remove_density_ok H r ext.2.2 size' then
      ⟨true, ext.1, ext.2.1, size', ext.2.2⟩
    else
      climbRem l H r ext.1 ext.2.1 size' ext.2.2

/-- Model of `PackedMemoryArray::remove` (`packed_memory_array.rs` lines
115–164).  `none` in the outer option models the
`assert!(self.data.len() == size)` panic; the returned range is
`Some (lo, hi)` for a window rewrite and `None` after a shrinking resize or
the reset to the fresh state. -/
def PackedMemoryArray.remove {K V : Type} (p : PackedMemoryArray K V)
    (index : Nat) :
    Option (PackedMemoryArray K V × Option (Nat × Nat)) :=
  let ss := p.segment_size
  let ssl := p.segment_size_log2
  let H := p.height
  let segment_id := index >>> ssl
  let segPos := index &&& (ss - 1)
  let lo0 := ss * segment_id
  let hi0 := lo0 + ss
  let w1 := remove_key_value (sliceL p.v lo0 hi0) segPos
  let l1 := setRange p.v lo0 hi0 w1
  let count0 := countOcc w1
  if remove_density_ok H (H - 1) count0 ss then
    some ({ p with
      v := setRange l1 lo0 hi0 (shuffleKV true (sliceL l1 lo0 hi0) count0) },
      some (lo0, hi0))
  else
    let res := climbRem l1 H (H - 1) lo0 hi0 ss count0
    if res.stopped then
      some ({ p with
        v := setRange l1 res.lo res.hi
          (shuffleKV true (sliceL l1 res.lo res.hi) res.count) },
        some (res.lo, res.hi))
    else if l1.length ≠ res.size then none
    else if res.count = 0 then some (PackedMemoryArray.new, none)
    else
      let l2 := resizeL (compactKV l1) (res.size / 2)
      let l3 := shuffleKV false l2 res.count
      let hs := if H - 1 = ssl then (H, ssl - 1, ss / 2) else (H - 1, ssl, ss)
      some (⟨l3, hs.1, hs.2.1, hs.2.2⟩, none)

/-! ## Specification-side predicates for the PMA -/

/-- Keys of the occupied slots, left to right. -/
def keysOf {K V : Type} (l : List (Option (K × V))) : List K :=
  (occ l).map Prod.fst

/-- All occupied slots hold keys in strictly ascending order. -/
def SortedSlots {K V : Type} [LinearOrder K] (l : List (Option (K × V))) : Prop :=
  (keysOf l).Pairwise (· < ·)

/-- The scalar-field invariant of the PMA: `capacity = segment_size ·
2^(pma_height − 1)`, `segment_size = 2^segment_size_log2`, and the
upper-tree height `pma_height − 1 − segment_size_log2` is 0 or 1. -/
def ScalarInv {K V : Type} (p : PackedMemoryArray K V) : Prop :=
  1 ≤ p.height ∧
  p.segment_size = 2 ^ p.segment_size_log2 ∧
  p.v.length = p.segment_size * 2 ^ (p.height - 1) ∧
  p.segment_size_log2 ≤ p.height - 1 ∧
  p.height - 1 ≤ p.segment_size_log2 + 1

/-- The index handed to `PackedMemoryArray::insert` is the correct sorted
position for the key: every occupied slot before it is strictly smaller and
every occupied slot at or after it is strictly larger. -/
def ValidInsertIdx {K V : Type} [LinearOrder K] (p : PackedMemoryArray K V)
    (idx : Nat) (k : K) : Prop :=
  idx ≤ p.v.length ∧
  (∀ kv ∈ occ (p.v.take idx), kv.1 < k) ∧
  (∀ kv ∈ occ (p.v.drop idx), k < kv.1)

/-! ## Invariant of the insert climb -/

theorem climbIns_spec {K V : Type} (l : List (Option (K × V))) (H idx : Nat) :
    ∀ (r lo hi size count segPos : Nat) (found : Bool),
      hi = lo + size →
      lo % size = 0 →
      hi ≤ l.length →
      lo ≤ idx →
      idx ≤ hi →
      segPos = idx - lo →
      0 < size →
      size * 2 ^ r = l.length →
      count = countRange l lo hi + (if found then 1 else 0) →
      (found = false → size ≤ count) →
      1 ≤ H →
      r ≤ H →
      (let out := climbIns l H r lo hi size count segPos found
       out.hi = out.lo + out.size ∧ out.lo % out.size = 0 ∧
       out.hi ≤ l.length ∧ out.lo ≤ idx ∧ idx ≤ out.hi ∧
       out.segPos = idx - out.lo ∧ 0 < out.size ∧
       out.count = countRange l out.lo out.hi +
         (if out.found then 1 else 0) ∧
       (out.density = false → out.lo = 0 ∧ out.hi = l.length ∧
         out.size = l.length) ∧
       (out.found = false → out.size ≤ out.count) ∧
       (out.density = true → out.count < out.size) ∧
       (out.density = true → out.found = true)) := by
  intro r
  induction r with
  | zero =>
    intro lo hi size count segPos found hhi hal hcap hloi hihi hsp hpos hsz
      hcount hfull hH hr
    simp only [climbIns]
    have hsize : size = l.length := by simpa using hsz
    refine ⟨hhi, hal, hcap, hloi, hihi, hsp, hpos, hcount, ?_, hfull,
      by intro hx; simp at hx, by intro hx; simp at hx⟩
    intro _
    omega
  | succ r ih =>
    intro lo hi size count segPos found hhi hal hcap hloi hihi hsp hpos hsz
      hcount hfull hH hr
    have hle34 : ∀ c : Nat, insert_density_ok H r c (size * 2) = true →
        c < size * 2 := by
      intro c hdok
      have hiff := (insert_density_ok_iff H r c (size * 2) hH
        (by omega)).mp hdok
      by_contra hge
      push_neg at hge
      have h2 : size * 2 * (H * 4) ≤ c * (H * 4) :=
        Nat.mul_le_mul_right _ hge
      have h4 : H * 4 ≤ H * 3 + r :=
        Nat.le_of_mul_le_mul_left (le_trans h2 hiff) (by omega)
      omega
    have hsz' : (size * 2) * 2 ^ r = l.length := by
      rw [← hsz, pow_succ]
      ring
    have hdvd : (size * 2) ∣ l.length := ⟨2 ^ r, hsz'.symm⟩
    by_cases hpar : (lo / size) % 2 = 1
    · -- extend to the left sibling
      obtain ⟨hsle, hal'⟩ := align_odd_step lo size hpos hal hpar
      have hcsplit : countRange l (lo - size) lo + countRange l lo hi =
          countRange l (lo - size) hi :=
        (countRange_split l (lo - size) lo hi (by omega) (by omega)).symm
      have hbase : hi = (lo - size) + size * 2 := by omega
      have hloi' : lo - size ≤ idx := by omega
      have hsp' : segPos + size = idx - (lo - size) := by omega
      by_cases hfc : ¬(found = true) ∧
          count + countRange l (lo - size) lo < size * 2
      · have hfoundF : found = false := by
          rcases hfc with ⟨h1, _⟩
          simpa using h1
        have hcnt'' : count + countRange l (lo - size) lo + 1 =
            countRange l (lo - size) hi + 1 := by
          rw [hfoundF] at hcount
          simp at hcount
          omega
        by_cases hdens : insert_density_ok H r
            (count + countRange l (lo - size) lo + 1) (size * 2) = true
        · have hstep2 : climbIns l H (r + 1) lo hi size count segPos found =
              ⟨true, true, lo - size, hi, size * 2,
                count + countRange l (lo - size) lo + 1, segPos + size⟩ := by
            simp only [climbIns, if_pos hpar, if_pos hfc]
            simp [hdens]
          rw [hstep2]
          dsimp only
          exact ⟨hbase, hal', hcap, hloi', by omega, hsp', by omega,
            by simpa using hcnt'', by intro h; simp at h,
            by intro h; simp at h, fun _ => hle34 _ hdens, fun _ => rfl⟩
        · have hstep2 : climbIns l H (r + 1) lo hi size count segPos found =
              climbIns l H r (lo - size) hi (size * 2)
                (count + countRange l (lo - size) lo + 1) (segPos + size)
                true := by
            simp only [climbIns, if_pos hpar, if_pos hfc]
            simp [hdens]
          rw [hstep2]
          exact ih (lo - size) hi (size * 2)
            (count + countRange l (lo - size) lo + 1) (segPos + size) true
            hbase hal' hcap hloi' (by omega) hsp' (by omega) hsz'
            (by simpa using hcnt'') (by simp) hH (by omega)
      · have hcnt' : count + countRange l (lo - size) lo =
            countRange l (lo - size) hi + (if found then 1 else 0) := by
          rw [hcount]
          omega
        by_cases hdens : found = true ∧ insert_density_ok H r
            (count + countRange l (lo - size) lo) (size * 2) = true
        · have hstep2 : climbIns l H (r + 1) lo hi size count segPos found =
              ⟨true, true, lo - size, hi, size * 2,
                count + countRange l (lo - size) lo, segPos + size⟩ := by
            simp only [climbIns, if_pos hpar, if_neg hfc]
            simp [hdens.1, hdens.2]
          rw [hstep2]
          dsimp only
          refine ⟨hbase, hal', hcap, hloi', by omega, hsp', by omega, ?_,
            by intro h; simp at h, by intro h; simp at h,
            fun _ => hle34 _ hdens.2, fun _ => rfl⟩
          rw [hdens.1] at hcnt'
          simpa using hcnt'
        · have hstep2 : climbIns l H (r + 1) lo hi size count segPos found =
              climbIns l H r (lo - size) hi (size * 2)
                (count + countRange l (lo - size) lo) (segPos + size)
                found := by
            simp only [climbIns, if_pos hpar, if_neg hfc]
            by_cases hf : found = true
            · rw [hf] at hdens ⊢
              simp at hdens
              simp [hdens]
            · have hf' : found = false := by simpa using hf
              rw [hf']
              simp
          rw [hstep2]
          exact ih (lo - size) hi (size * 2)
            (count + countRange l (lo - size) lo) (segPos + size) found
            hbase hal' hcap hloi' (by omega) hsp' (by omega) hsz' hcnt'
            (by intro hf; rw [hf] at hfc; simp at hfc; omega) hH (by omega)
    · -- extend to the right sibling
      have hpar' : (lo / size) % 2 = 0 := by omega
      have hal' : lo % (size * 2) = 0 := align_even_step lo size hpos hal hpar'
      have hlt : lo < l.length := by omega
      have hcap' : hi + size ≤ l.length := by
        have := aligned_lt_imp_add_le lo (size * 2) l.length (by omega) hal'
          hdvd hlt
        omega
      have hcsplit : countRange l lo hi + countRange l hi (hi + size) =
          countRange l lo (hi + size) :=
        (countRange_split l lo hi (hi + size) (by omega) (by omega)).symm
      have hbase : hi + size = lo + size * 2 := by omega
      by_cases hfc : ¬(found = true) ∧
          count + countRange l hi (hi + size) < size * 2
      · have hfoundF : found = false := by
          rcases hfc with ⟨h1, _⟩
          simpa using h1
        have hcnt'' : count + countRange l hi (hi + size) + 1 =
            countRange l lo (hi + size) + 1 := by
          rw [hfoundF] at hcount
          simp at hcount
          omega
        by_cases hdens : insert_density_ok H r
            (count + countRange l hi (hi + size) + 1) (size * 2) = true
        · have hstep2 : climbIns l H (r + 1) lo hi size count segPos found =
              ⟨true, true, lo, hi + size, size * 2,
                count + countRange l hi (hi + size) + 1, segPos⟩ := by
            simp only [climbIns, if_neg hpar, if_pos hfc]
            simp [hdens]
          rw [hstep2]
          dsimp only
          exact ⟨hbase, hal', hcap', hloi, by omega, hsp, by omega,
            by simpa using hcnt'', by intro h; simp at h,
            by intro h; simp at h, fun _ => hle34 _ hdens, fun _ => rfl⟩
        · have hstep2 : climbIns l H (r + 1) lo hi size count segPos found =
              climbIns l H r lo (hi + size) (size * 2)
                (count + countRange l hi (hi + size) + 1) segPos true := by
            simp only [climbIns, if_neg hpar, if_pos hfc]
            simp [hdens]
          rw [hstep2]
          exact ih lo (hi + size) (size * 2)
            (count + countRange l hi (hi + size) + 1) segPos true
            hbase hal' hcap' hloi (by omega) hsp (by omega) hsz'
            (by simpa using hcnt'') (by simp) hH (by omega)
      · have hcnt' : count + countRange l hi (hi + size) =
            countRange l lo (hi + size) + (if found then 1 else 0) := by
          rw [hcount]
          omega
        by_cases hdens : found = true ∧ insert_density_ok H r
            (count + countRange l hi (hi + size)) (size * 2) = true
        · have hstep2 : climbIns l H (r + 1) lo hi size count segPos found =
              ⟨true, true, lo, hi + size, size * 2,
                count + countRange l hi (hi + size), segPos⟩ := by
            simp only [climbIns, if_neg hpar, if_neg hfc]
            simp [hdens.1, hdens.2]
          rw [hstep2]
          dsimp only
          refine ⟨hbase, hal', hcap', hloi, by omega, hsp, by omega, ?_,
            by intro h; simp at h, by intro h; simp at h,
            fun _ => hle34 _ hdens.2, fun _ => rfl⟩
          rw [hdens.1] at hcnt'
          simpa using hcnt'
        · have hstep2 : climbIns l H (r + 1) lo hi size count segPos found =
              climbIns l H r lo (hi + size) (size * 2)
                (count + countRange l hi (hi + size)) segPos found := by
            simp only [climbIns, if_neg hpar, if_neg hfc]
            by_cases hf : found = true
            · rw [hf] at hdens ⊢
              simp at hdens
              simp [hdens]
            · have hf' : found = false := by simpa using hf
              rw [hf']
              simp
          rw [hstep2]
          exact ih lo (hi + size) (size * 2)
            (count + countRange l hi (hi + size)) segPos found
            hbase hal' hcap' hloi (by omega) hsp (by omega) hsz' hcnt'
            (by intro hf; rw [hf] at hfc; simp at hfc; omega) hH (by omega)

/-! ## Scans -/

theorem firstNoneIdx_eq_none_iff {A : Type} (xs : List (Option A)) :
    firstNoneIdx xs = none ↔ none ∉ xs := by
  induction xs with
  | nil => simp [firstNoneIdx]
  | cons x t ih =>
    cases x with
    | none => simp [firstNoneIdx]
    | some a => simpa [firstNoneIdx] using ih

theorem firstNoneIdx_append_none {A : Type} (M S : List (Option A))
    (hM : none ∉ M) :
    firstNoneIdx (M ++ none :: S) = some M.length := by
  induction M with
  | nil => simp [firstNoneIdx]
  | cons m M ih =>
    cases m with
    | none => simp at hM
    | some a =>
      have hM' : none ∉ M := fun h => hM (List.mem_cons_of_mem _ h)
      simp [firstNoneIdx, ih hM']

theorem firstNoneIdx_decomp {A : Type} :
    ∀ (xs : List (Option A)) (k : Nat), firstNoneIdx xs = some k →
      ∃ M S, xs = M ++ none :: S ∧ M.length = k ∧ none ∉ M := by
  intro xs
  induction xs with
  | nil => intro k h; simp [firstNoneIdx] at h
  | cons x t ih =>
    intro k h
    cases x with
    | none =>
      have hk : k = 0 := by
        simp [firstNoneIdx] at h
        omega
      exact ⟨[], t, by simp, by simp [hk], by simp⟩
    | some a =>
      simp only [firstNoneIdx, Option.map_eq_some'] at h
      obtain ⟨k₀, hk₀, rfl⟩ := h
      obtain ⟨M, S, rfl, hlen, hni⟩ := ih k₀ hk₀
      exact ⟨some a :: M, S, by simp, by simp [hlen], by
        intro hmem
        rcases List.mem_cons.mp hmem with h | h
        · exact Option.noConfusion h
        · exact hni h⟩

/-! ## `insert_key_value`: both branches, in decomposed form -/

theorem insert_key_value_right {A : Type} (P M S : List (Option A)) (kv : A)
    (hM : none ∉ M) :
    insert_key_value (P ++ M ++ none :: S) P.length kv =
      some (P ++ some kv :: (M ++ S)) := by
  have hdrop : (P ++ M ++ none :: S).drop P.length = M ++ none :: S := by
    rw [List.append_assoc]
    exact List.drop_left P (M ++ none :: S)
  have hfind : findEmptyRight (P ++ M ++ none :: S) P.length =
      some (M.length + P.length) := by
    rw [findEmptyRight, hdrop, firstNoneIdx_append_none M S hM]
    rfl
  have hsub : M.length + P.length - P.length = M.length := by omega
  simp only [insert_key_value, hfind, hsub]
  rw [shiftRightF_spec M.length M P S rfl, set_key_value]
  have hslot : slotGet (P ++ none :: (M ++ S)) P.length = none :=
    slotGet_append_len P none (M ++ S)
  rw [hslot]
  simp [set_append_len P (none : Option A) (some kv) (M ++ S)]

theorem insert_key_value_left {A : Type} (P M S : List (Option A)) (kv : A)
    (hM : none ∉ M) (hS : none ∉ S) :
    insert_key_value (P ++ none :: M ++ S) (P.length + 1 + M.length) kv =
      some (P ++ M ++ some kv :: S) := by
  have hPM : (P ++ none :: M).length = P.length + 1 + M.length := by
    simp only [List.length_append, List.length_cons]
    omega
  have hdrop : (P ++ none :: M ++ S).drop (P.length + 1 + M.length) = S := by
    have h : P ++ none :: M ++ S = (P ++ none :: M) ++ S := by
      simp [List.append_assoc]
    rw [h]
    exact List.drop_left' hPM
  have hfindR : findEmptyRight (P ++ none :: M ++ S) (P.length + 1 + M.length)
      = none := by
    rw [findEmptyRight, hdrop]
    rw [Option.map_eq_none']
    exact (firstNoneIdx_eq_none_iff S).mpr hS
  have htake : (P ++ none :: M ++ S).take (P.length + 1 + M.length) =
      P ++ none :: M := by
    have h : P ++ none :: M ++ S = (P ++ none :: M) ++ S := by
      simp [List.append_assoc]
    rw [h]
    exact List.take_left' hPM
  have hfindL : findEmptyLeft (P ++ none :: M ++ S) (P.length + 1 + M.length)
      = some P.length := by
    rw [findEmptyLeft, htake]
    have hrev : (P ++ none :: M).reverse = M.reverse ++ none :: P.reverse := by
      simp
    rw [hrev]
    have hMrev : none ∉ M.reverse := by
      intro h; exact hM (List.mem_reverse.mp h)
    rw [firstNoneIdx_append_none M.reverse P.reverse hMrev]
    simp only [Option.map_some', Option.some.injEq, List.length_reverse]
    omega
  have e1 : P.length + 1 + M.length - 1 = P.length + M.length := by omega
  have e2 : P.length + M.length - P.length = M.length := by omega
  simp only [insert_key_value, hfindR, hfindL, e1, e2]
  rw [shiftLeftF_spec M.length M P S rfl, set_key_value]
  have hYlen : (P ++ M).length = P.length + M.length := by simp
  have hslot : slotGet (P ++ M ++ none :: S) (P.length + M.length) = none := by
    have h := slotGet_append_len (P ++ M) (none : Option A) S
    rw [hYlen] at h
    simpa [List.append_assoc] using h
  rw [hslot]
  have hset := set_append_len (P ++ M) (none : Option A) (some kv) S
  rw [hYlen] at hset
  simp only [List.append_assoc] at hset
  simp [hset]

/-- Full effect of `insert_key_value` under the caller contract: the segment
holds an empty slot and `pos ≤ len`.  The result is the slot list with `kv`
inserted between the occupants left of `pos` and those right of it. -/
theorem insert_key_value_occ {A : Type} (l : List (Option A)) (pos : Nat)
    (kv : A) (hpos : pos ≤ l.length) (hne : none ∈ l) :
    ∃ l', insert_key_value l pos kv = some l' ∧ l'.length = l.length ∧
      occ l' = occ (l.take pos) ++ kv :: occ (l.drop pos) ∧
      (none ∈ l.drop pos → slotGet l' pos = some kv) ∧
      (none ∉ l.drop pos → slotGet l' (pos - 1) = some kv) := by
  obtain ⟨P, hP⟩ : ∃ P, l.take pos = P := ⟨_, rfl⟩
  obtain ⟨D, hD⟩ : ∃ D, l.drop pos = D := ⟨_, rfl⟩
  have hsplit : l = P ++ D := by
    rw [← hP, ← hD]; exact (List.take_append_drop pos l).symm
  have hlen_take : P.length = pos := by
    rw [← hP]; exact List.length_take_of_le hpos
  rw [hP, hD]
  by_cases hdr : none ∈ D
  · -- right branch: empty slot at or right of pos
    obtain ⟨k, hk⟩ : ∃ k, firstNoneIdx D = some k := by
      cases h : firstNoneIdx D with
      | none => exact absurd ((firstNoneIdx_eq_none_iff _).mp h) (by simp [hdr])
      | some k => exact ⟨k, rfl⟩
    obtain ⟨M, S, hMS, hMlen, hMnone⟩ := firstNoneIdx_decomp _ k hk
    have hl : l = P ++ M ++ none :: S := by
      rw [List.append_assoc, ← hMS]; exact hsplit
    have hres := insert_key_value_right P M S kv hMnone
    rw [hlen_take] at hres
    refine ⟨P ++ some kv :: (M ++ S), by rw [hl]; exact hres, ?_, ?_, ?_, ?_⟩
    · rw [hl]; simp; omega
    · rw [hMS]; simp
    · intro _
      have h := slotGet_append_len P (some kv) (M ++ S)
      rwa [hlen_take] at h
    · intro h; exact absurd hdr h
  · -- left branch: empty slot only strictly left of pos
    have htk : none ∈ P := by
      rcases List.mem_append.mp (hsplit ▸ hne) with h | h
      · exact h
      · exact absurd h hdr
    obtain ⟨k, hk⟩ : ∃ k, firstNoneIdx P.reverse = some k := by
      cases h : firstNoneIdx P.reverse with
      | none =>
        exact absurd ((firstNoneIdx_eq_none_iff _).mp h)
          (by simp [List.mem_reverse, htk])
      | some k => exact ⟨k, rfl⟩
    obtain ⟨Mr, Sr, hMS, hMlen, hMnone⟩ := firstNoneIdx_decomp _ k hk
    have htake_eq : P = Sr.reverse ++ none :: Mr.reverse := by
      have h := congrArg List.reverse hMS
      simpa [List.reverse_reverse] using h
    have hl : l = Sr.reverse ++ none :: Mr.reverse ++ D := by
      conv_lhs => rw [hsplit]
      rw [htake_eq, List.append_assoc]
    have hpos_eq : pos = Sr.reverse.length + 1 + Mr.reverse.length := by
      have h := congrArg List.length htake_eq
      rw [hlen_take] at h
      simp only [List.length_append, List.length_cons, List.length_reverse]
        at h ⊢
      omega
    have hMrev : none ∉ Mr.reverse := by
      intro h; exact hMnone (List.mem_reverse.mp h)
    have hres := insert_key_value_left Sr.reverse Mr.reverse D kv hMrev hdr
    refine ⟨Sr.reverse ++ Mr.reverse ++ some kv :: D,
      by rw [hl, hpos_eq]; exact hres, ?_, ?_, ?_, ?_⟩
    · rw [hl]; simp; omega
    · rw [htake_eq]; simp
    · intro h; exact absurd h hdr
    · intro _
      have h1 : pos - 1 = Sr.reverse.length + Mr.reverse.length := by omega
      have h := slotGet_append_len (Sr.reverse ++ Mr.reverse) (some kv) D
      rw [List.length_append] at h
      rw [h1, List.append_assoc]
      rw [List.append_assoc] at h
      exact h

/-! ## C8: `Segment::insert_key_value` never aborts under the caller contract -/

/-- C8: for any slot window containing at least one empty slot and any
position `pos ≤ len`, `insert_key_value` returns normally (the
`panic!("No space to insert")` branch is not taken), placing the new pair at
`pos` when an empty slot exists at or to the right of `pos`, and at `pos - 1`
otherwise. -/
theorem C8_segment_insert_no_abort {A : Type} (l : List (Option A)) (pos : Nat)
    (kv : A) (hpos : pos ≤ l.length) (hne : none ∈ l) :
    ∃ l', insert_key_value l pos kv = some l' ∧ l'.length = l.length ∧
      (none ∈ l.drop pos → slotGet l' pos = some kv) ∧
      (none ∉ l.drop pos → slotGet l' (pos - 1) = some kv) := by
  obtain ⟨l', h1, h2, _, h4, h5⟩ := insert_key_value_occ l pos kv hpos hne
  exact ⟨l', h1, h2, h4, h5⟩

/-- Witness for C8 at a concrete input: inserting at position 1 of
`[some 1, none]` succeeds and places the pair at position 1. -/
theorem C8_witness :
    ∃ l', insert_key_value ([some 1, none] : List (Option Nat)) 1 7 = some l' ∧
      l'.length = 2 ∧
      (none ∈ ([some 1, none] : List (Option Nat)).drop 1 →
        slotGet l' 1 = some 7) ∧
      (none ∉ ([some 1, none] : List (Option Nat)).drop 1 →
        slotGet l' 0 = some 7) :=
  C8_segment_insert_no_abort [some 1, none] 1 7 (by decide) (by decide)

/-! ## Effect of `PackedMemoryArray::insert` -/

theorem countOcc_take_drop {A : Type} (x : List (Option A)) (p : Nat) :
    countOcc (x.take p) + countOcc (x.drop p) = countOcc x := by
  conv_rhs => rw [← List.take_append_drop p x]
  rw [countOcc, countOcc, countOcc, occ_append, List.length_append]

theorem countRange_full {K V : Type} (l : List (Option (K × V))) :
    countRange l 0 l.length = countOcc l := by
  rw [countRange, sliceL]
  simp

theorem insert_key_value_none_of_full {A : Type} (l : List (Option A))
    (pos : Nat) (kv : A) (h : none ∉ l) :
    insert_key_value l pos kv = none := by
  rw [insert_key_value]
  have h1 : findEmptyRight l pos = none := by
    rw [findEmptyRight, Option.map_eq_none']
    rw [firstNoneIdx_eq_none_iff]
    intro hc
    exact h (List.mem_of_mem_drop hc)
  have h2 : findEmptyLeft l pos = none := by
    rw [findEmptyLeft, Option.map_eq_none']
    rw [firstNoneIdx_eq_none_iff]
    intro hc
    exact h (List.mem_of_mem_take (List.mem_reverse.mp hc))
  rw [h1, h2]

/-- Whenever `insert_key_value` returns at all (on a position within the
window), it inserts the pair between the occupants left and right of the
position. -/
theorem insert_key_value_some_occ {A : Type} (l m : List (Option A))
    (pos : Nat) (kv : A) (hpos : pos ≤ l.length)
    (h : insert_key_value l pos kv = some m) :
    occ m = occ (l.take pos) ++ kv :: occ (l.drop pos) ∧
      m.length = l.length := by
  by_cases hne : none ∈ l
  · obtain ⟨m', hm', hlen, hocc, _, _⟩ := insert_key_value_occ l pos kv hpos hne
    rw [h] at hm'
    obtain rfl : m = m' := by
      exact Option.some.inj hm'.symm ▸ rfl
    exact ⟨hocc, hlen⟩
  · rw [insert_key_value_none_of_full l pos kv hne] at h
    exact Option.noConfusion h



/-- The first half of `PackedMemoryArray::insert` (`packed_memory_array.rs`
lines 44–80): leaf density test at the located window, then the upward climb.
`insResOf` applies it to the window located from `index`. -/
def insClimbFrom {K V : Type} (l : List (Option (K × V))) (H ss : Nat)
    (lo0 hi0 segPos0 : Nat) : ClimbOut :=
  let count0 := countRange l lo0 hi0
  let init := if count0 < ss then
      (true, count0 + 1, insert_density_ok H (H - 1) (count0 + 1) ss)
    else (false, count0, false)
  if ¬init.1 ∨ ¬init.2.2 then
    climbIns l H (H - 1) lo0 hi0 ss init.2.1 segPos0 init.1
  else ⟨true, true, lo0, hi0, ss, init.2.1, segPos0⟩

/-- The window-search prefix of `PackedMemoryArray::insert`: locate the
segment of `index` and run the density checks and the climb. -/
def insResOf {K V : Type} (p : PackedMemoryArray K V) (index : Nat) :
    ClimbOut :=
  let l := p.v
  let ss := p.segment_size
  let ssl := p.segment_size_log2
  let segment_id := (index >>> ssl) - (if l.length = index then 1 else 0)
  let segPos0 := if l.length = index then ss else index &&& (ss - 1)
  let lo0 := segment_id <<< ssl
  insClimbFrom l p.height ss lo0 (lo0 + ss) segPos0

/-- `PackedMemoryArray.insert` factored through `insResOf`; the two sides
are definitionally equal. -/
theorem PMA_insert_eq {K V : Type} (p : PackedMemoryArray K V) (index : Nat)
    (kv : K × V) :
    p.insert index kv =
      (let res := insResOf p index
       if ¬res.found then none
       else if res.density then
         match insert_key_value (sliceL p.v res.lo res.hi) res.segPos kv with
         | none => none
         | some m =>
           some ({ p with
             v := setRange p.v res.lo res.hi (shuffleKV true m res.count) },
             some (res.lo, res.hi))
       else
         let l2 := resizeL p.v (res.size * 2)
         let hs := if p.height - 1 = p.segment_size_log2 then
             (p.height + 1, p.segment_size_log2, p.segment_size)
           else (p.height, p.segment_size_log2 + 1, p.segment_size * 2)
         match insert_key_value l2 res.segPos kv with
         | none => none
         | some m =>
           some (⟨shuffleKV true m res.count, hs.1, hs.2.1, hs.2.2⟩,
             none)) := rfl

/-- The density-check-and-climb half of `insert` yields an aligned window
around `idx` carrying the true occupancy count (plus one when a slot was
found), and falls through to the whole array when no density level passed. -/
theorem insClimbFrom_spec {K V : Type} (l : List (Option (K × V)))
    (H ss idx lo0 hi0 segPos0 : Nat)
    (hhi : hi0 = lo0 + ss) (hal : lo0 % ss = 0) (hcap : hi0 ≤ l.length)
    (hlo : lo0 ≤ idx) (hip : idx ≤ hi0) (hsp : segPos0 = idx - lo0)
    (hss0 : 0 < ss) (hpow : ss * 2 ^ (H - 1) = l.length) (hH : 1 ≤ H) :
    (let out := insClimbFrom l H ss lo0 hi0 segPos0
     out.hi = out.lo + out.size ∧ out.lo % out.size = 0 ∧
     out.hi ≤ l.length ∧ out.lo ≤ idx ∧ idx ≤ out.hi ∧
     out.segPos = idx - out.lo ∧ 0 < out.size ∧
     out.count = countRange l out.lo out.hi +
       (if out.found then 1 else 0) ∧
     (out.density = false → out.lo = 0 ∧ out.hi = l.length ∧
       out.size = l.length) ∧
     (out.found = false → out.size ≤ out.count) ∧
     (out.density = true → out.count < out.size) ∧
     (out.density = true → out.found = true)) := by
  simp only []
  by_cases hfull : countRange l lo0 hi0 < ss
  · by_cases hd0 : insert_density_ok H (H - 1) (countRange l lo0 hi0 + 1) ss
      = true
    · have hstep : insClimbFrom l H ss lo0 hi0 segPos0 =
          ⟨true, true, lo0, hi0, ss, countRange l lo0 hi0 + 1, segPos0⟩ := by
        simp only [insClimbFrom, if_pos hfull]
        simp [hd0]
      rw [hstep]
      have hle34 : countRange l lo0 hi0 + 1 < ss := by
        have hiff := (insert_density_ok_iff H (H - 1)
          (countRange l lo0 hi0 + 1) ss hH (by omega)).mp hd0
        by_contra hge
        push_neg at hge
        have h2 : ss * (H * 4) ≤ (countRange l lo0 hi0 + 1) * (H * 4) :=
          Nat.mul_le_mul_right _ hge
        have h4 : H * 4 ≤ H * 3 + (H - 1) :=
          Nat.le_of_mul_le_mul_left (le_trans h2 hiff) (by omega)
        omega
      exact ⟨hhi, hal, hcap, hlo, hip, hsp, hss0, by simp, by
        intro hx; simp at hx, by intro hx; simp at hx, fun _ => hle34,
        fun _ => rfl⟩
    · have hstep : insClimbFrom l H ss lo0 hi0 segPos0 =
          climbIns l H (H - 1) lo0 hi0 ss (countRange l lo0 hi0 + 1) segPos0
            true := by
        simp only [insClimbFrom, if_pos hfull]
        simp [hd0]
      rw [hstep]
      exact climbIns_spec l H idx (H - 1) lo0 hi0 ss
        (countRange l lo0 hi0 + 1) segPos0 true hhi hal hcap hlo hip hsp hss0
        hpow (by simp) (by simp) hH (by omega)
  · have hstep : insClimbFrom l H ss lo0 hi0 segPos0 =
        climbIns l H (H - 1) lo0 hi0 ss (countRange l lo0 hi0) segPos0
          false := by
      simp only [insClimbFrom, if_neg hfull]
      simp
    rw [hstep]
    exact climbIns_spec l H idx (H - 1) lo0 hi0 ss
      (countRange l lo0 hi0) segPos0 false hhi hal hcap hlo hip hsp hss0
      hpow (by simp) (by intro hx; omega) hH (by omega)

/-- The full window-search prefix of `insert`: under the scalar invariant,
for any insertion index within the array, the resulting window is aligned,
contains `idx`, and carries the true occupancy count. -/
theorem insResOf_spec {K V : Type} (p : PackedMemoryArray K V) (idx : Nat)
    (hinv : ScalarInv p) (hidx : idx ≤ p.v.length) :
    (let out := insResOf p idx
     out.hi = out.lo + out.size ∧ out.lo % out.size = 0 ∧
     out.hi ≤ p.v.length ∧ out.lo ≤ idx ∧ idx ≤ out.hi ∧
     out.segPos = idx - out.lo ∧ 0 < out.size ∧
     out.count = countRange p.v out.lo out.hi +
       (if out.found then 1 else 0) ∧
     (out.density = false → out.lo = 0 ∧ out.hi = p.v.length ∧
       out.size = p.v.length) ∧
     (out.found = false → out.size ≤ out.count) ∧
     (out.density = true → out.count < out.size) ∧
     (out.density = true → out.found = true)) := by
  obtain ⟨hH, hss, hcap, hle1, hle2⟩ := hinv
  obtain ⟨l, H, ssl, ss⟩ := p
  dsimp only at hH hss hcap hle1 hle2 hidx ⊢
  have hss0 : 0 < ss := by rw [hss]; positivity
  have hlen2 : l.length = 2 ^ ssl * 2 ^ (H - 1) := by rw [hcap, hss]
  have hpow : ss * 2 ^ (H - 1) = l.length := hcap.symm
  have key : ∀ lo0 segPos0 : Nat,
      lo0 = ((idx >>> ssl) - (if l.length = idx then 1 else 0)) <<< ssl →
      segPos0 = (if l.length = idx then ss else idx &&& (ss - 1)) →
      lo0 % ss = 0 ∧ lo0 + ss ≤ l.length ∧ lo0 ≤ idx ∧ idx ≤ lo0 + ss ∧
        segPos0 = idx - lo0 := by
    intro lo0 segPos0 hlo hsp
    by_cases hcase : l.length = idx
    · rw [if_pos hcase] at hlo hsp
      have hshr : idx >>> ssl = 2 ^ (H - 1) := by
        rw [Nat.shiftRight_eq_div_pow, ← hcase, hlen2,
          Nat.mul_div_cancel_left _ (by positivity)]
      rw [hshr, Nat.shiftLeft_eq] at hlo
      obtain ⟨b, hb⟩ : ∃ x, (2 : Nat) ^ ssl = x := ⟨_, rfl⟩
      obtain ⟨a, ha⟩ : ∃ x, (2 : Nat) ^ (H - 1) = x := ⟨_, rfl⟩
      have ha1 : 1 ≤ a := ha ▸ Nat.one_le_two_pow
      rw [hb, ha] at hlo hlen2
      rw [hss, hb] at hsp ⊢
      have hmod : lo0 % b = 0 := by rw [hlo]; exact Nat.mul_mod_left _ _
      have he : (a - 1) * b = a * b - b := by
        rw [Nat.sub_mul, one_mul]
      have hble : b ≤ a * b := Nat.le_mul_of_pos_left b (by omega)
      have hcm : a * b = b * a := Nat.mul_comm a b
      refine ⟨hmod, ?_, ?_, ?_, ?_⟩ <;> omega
    · rw [if_neg hcase] at hlo hsp
      have hlt : idx < l.length := by omega
      rw [Nat.shiftRight_eq_div_pow, Nat.sub_zero, Nat.shiftLeft_eq] at hlo
      rw [hss, Nat.and_pow_two_sub_one_eq_mod] at hsp
      have hmod : lo0 % ss = 0 := by
        rw [hlo, hss]; exact Nat.mul_mod_left _ _
      have hdvd : 2 ^ ssl ∣ l.length := ⟨2 ^ (H - 1), hlen2⟩
      have hlole : lo0 ≤ idx := by
        rw [hlo]; exact Nat.div_mul_le_self idx _
      have hup : lo0 + ss ≤ l.length := by
        rw [hss]
        exact aligned_lt_imp_add_le lo0 (2 ^ ssl) l.length (by positivity)
          (by rw [hss] at hmod; exact hmod) hdvd (by omega)
      have hdm := Nat.div_add_mod idx (2 ^ ssl)
      have hmlt : idx % 2 ^ ssl < 2 ^ ssl := Nat.mod_lt idx (by positivity)
      have hcm : 2 ^ ssl * (idx / 2 ^ ssl) = idx / 2 ^ ssl * 2 ^ ssl :=
        Nat.mul_comm _ _
      rw [hcm] at hdm
      rw [← hlo] at hdm
      refine ⟨hmod, hup, hlole, ?_, ?_⟩ <;> rw [hss] at * <;> omega
  obtain ⟨f1, f2, f3, f4, f5⟩ := key _ _ rfl rfl
  exact insClimbFrom_spec l H ss idx _ _ _ rfl f1 f2 f3 f4 f5 hss0 hpow hH

/-- Effect of `PackedMemoryArray::insert` whenever it returns: the occupants
become those left of `index`, then the new pair, then those right of
`index`; the scalar invariant is preserved; and a reported rewrite window
contains `index`, leaves the slots outside it untouched, and keeps all
scalar fields. -/
theorem PMA_insert_effect {K V : Type} (p : PackedMemoryArray K V) (idx : Nat)
    (kv : K × V) (hinv : ScalarInv p) (hidx : idx ≤ p.v.length)
    (p' : PackedMemoryArray K V) (rng : Option (Nat × Nat))
    (h : p.insert idx kv = some (p', rng)) :
    occ p'.v = occ (p.v.take idx) ++ kv :: occ (p.v.drop idx) ∧
      ScalarInv p' ∧
      (∀ lo hi, rng = some (lo, hi) →
        p'.height = p.height ∧ p'.segment_size = p.segment_size ∧
        p'.segment_size_log2 = p.segment_size_log2 ∧
        p'.v.length = p.v.length ∧ lo ≤ idx ∧ idx ≤ hi ∧ hi ≤ p.v.length ∧
        p'.v.take lo = p.v.take lo ∧ p'.v.drop hi = p.v.drop hi) := by
  have hspec := insResOf_spec p idx hinv hidx
  obtain ⟨hH, hss, hcap, hle1, hle2⟩ := hinv
  rw [PMA_insert_eq] at h
  obtain ⟨res, hres⟩ : ∃ r, insResOf p idx = r := ⟨_, rfl⟩
  rw [hres] at h hspec
  simp only [] at h hspec
  obtain ⟨F1, F2, F3, F4, F5, F6, F7, F8, F9, F10, F11, F12⟩ := hspec
  by_cases hf : res.found = true
  · rw [if_neg (not_not_intro hf)] at h
    have hc8 : res.count = countRange p.v res.lo res.hi + 1 := by
      rw [F8, if_pos hf]
    by_cases hd : res.density = true
    · -- window rewrite path
      rw [if_pos hd] at h
      have hlohi : res.lo ≤ res.hi := by omega
      have hsl : (sliceL p.v res.lo res.hi).length = res.size := by
        rw [sliceL_length p.v res.lo res.hi hlohi F3]
        omega
      have hposle : res.segPos ≤ (sliceL p.v res.lo res.hi).length := by
        rw [hsl]; omega
      cases hik : insert_key_value (sliceL p.v res.lo res.hi) res.segPos kv
        with
      | none => rw [hik] at h; exact Option.noConfusion h
      | some m =>
        rw [hik] at h
        simp only [Option.some.injEq, Prod.mk.injEq] at h
        obtain ⟨hp, hrng⟩ := h
        subst hp
        subst hrng
        obtain ⟨hoccm, hmlen⟩ :=
          insert_key_value_some_occ _ m res.segPos kv hposle hik
        have hcnt : res.count = countOcc m := by
          have h1 : countOcc m =
              countOcc ((sliceL p.v res.lo res.hi).take res.segPos) + 1 +
              countOcc ((sliceL p.v res.lo res.hi).drop res.segPos) := by
            rw [countOcc, hoccm]
            simp [countOcc]
            omega
          have h2 := countOcc_take_drop (sliceL p.v res.lo res.hi) res.segPos
          rw [hc8, countRange]
          omega
        obtain ⟨hsho, hshl⟩ := shuffleKV_occ true m res.count hcnt (by simp)
        have hXlen : (setRange p.v res.lo res.hi
            (shuffleKV true m res.count)).length = p.v.length := by
          refine setRange_length _ _ _ _ hlohi F3 ?_
          rw [hshl, hmlen, hsl]
          omega
        have htksp : p.v.take idx =
            p.v.take res.lo ++ (sliceL p.v res.lo res.hi).take res.segPos := by
          rw [F6]
          exact take_split_slice p.v res.lo idx res.hi F4 F5
        have hdrsp : p.v.drop idx =
            (sliceL p.v res.lo res.hi).drop res.segPos ++ p.v.drop res.hi := by
          rw [F6]
          exact drop_split_slice p.v res.lo idx res.hi F4 F5 F3
        refine ⟨?_, ?_, ?_⟩
        · dsimp only
          rw [occ_setRange, hsho, hoccm, htksp, hdrsp]
          simp [List.append_assoc]
        · exact ⟨hH, hss, by dsimp only; rw [hXlen]; exact hcap, hle1, hle2⟩
        · intro lo hi hrngeq
          simp only [Option.some.injEq, Prod.mk.injEq] at hrngeq
          obtain ⟨rfl, rfl⟩ := hrngeq
          refine ⟨rfl, rfl, rfl, hXlen, F4, F5, F3, ?_, ?_⟩
          · dsimp only
            exact take_setRange _ _ _ _ (le_trans (le_trans F4 F5) F3)
          · dsimp only
            refine drop_setRange _ _ _ _ hlohi F3 ?_
            rw [hshl, hmlen, hsl]
            omega
    · -- resize path
      rw [if_neg hd] at h
      obtain ⟨hF0, hFhi, hFsz⟩ := F9 (by simpa using hd)
      have hl2 : resizeL p.v (res.size * 2) =
          p.v ++ List.replicate p.v.length none := by
        rw [resizeL, hFsz, List.take_of_length_le (by omega)]
        have e : p.v.length * 2 - p.v.length = p.v.length := by omega
        rw [e]
      have hsp2 : res.segPos = idx := by rw [F6, hF0, Nat.sub_zero]
      rw [hl2, hsp2] at h
      have hlen2 : (p.v ++ List.replicate p.v.length none).length =
          p.v.length + p.v.length := by simp
      cases hik : insert_key_value (p.v ++ List.replicate p.v.length none)
        idx kv with
      | none => rw [hik] at h; exact Option.noConfusion h
      | some m =>
        rw [hik] at h
        simp only [Option.some.injEq, Prod.mk.injEq] at h
        obtain ⟨hp, hrng⟩ := h
        subst hp
        subst hrng
        obtain ⟨hoccm, hmlen⟩ := insert_key_value_some_occ _ m idx kv
          (by rw [hlen2]; omega) hik
        have htk : (p.v ++ List.replicate p.v.length none).take idx =
            p.v.take idx := List.take_append_of_le_length hidx
        have hdr : (p.v ++ List.replicate p.v.length none).drop idx =
            p.v.drop idx ++ List.replicate p.v.length none :=
          List.drop_append_of_le_length hidx
        rw [htk, hdr] at hoccm
        have hoccm' : occ m = occ (p.v.take idx) ++ kv :: occ (p.v.drop idx)
            := by
          rw [hoccm]
          simp
        have hcrf : countRange p.v res.lo res.hi = countOcc p.v := by
          rw [hF0, hFhi]
          exact countRange_full p.v
        have hcnt : res.count = countOcc m := by
          have h1 : countOcc m = countOcc (p.v.take idx) + 1 +
              countOcc (p.v.drop idx) := by
            rw [countOcc, hoccm']
            simp [countOcc]
            omega
          have h2 := countOcc_take_drop p.v idx
          rw [hc8, hcrf]
          omega
        obtain ⟨hsho, hshl⟩ := shuffleKV_occ true m res.count hcnt (by simp)
        have hmm : m.length = p.v.length + p.v.length := by
          rw [hmlen, hlen2]
        refine ⟨?_, ?_, ?_⟩
        · dsimp only
          rw [hsho, hoccm']
        · by_cases hhs : p.height - 1 = p.segment_size_log2
          · rw [if_pos hhs]
            have hpw : 2 ^ p.height = 2 ^ (p.height - 1) * 2 := by
              rw [← pow_succ]
              congr 1
              omega
            refine ⟨?_, ?_, ?_, ?_, ?_⟩ <;> dsimp only
            · omega
            · exact hss
            · rw [hshl, hmm]
              have e1 : p.segment_size * 2 ^ (p.height + 1 - 1) =
                  p.segment_size * 2 ^ (p.height - 1) * 2 := by
                rw [Nat.mul_assoc, ← hpw]
                congr 2
              rw [e1, ← hcap]
              omega
            · omega
            · omega
          · rw [if_neg hhs]
            refine ⟨?_, ?_, ?_, ?_, ?_⟩ <;> dsimp only
            · exact hH
            · rw [hss, pow_succ]
            · rw [hshl, hmm]
              have e1 : p.segment_size * 2 * 2 ^ (p.height - 1) =
                  p.segment_size * 2 ^ (p.height - 1) * 2 := by ring
              rw [e1, ← hcap]
              omega
            · omega
            · omega
        · intro lo hi hrngeq
          exact Option.noConfusion hrngeq
  · rw [if_pos hf] at h
    exact Option.noConfusion h

/-! ## Effect of `PackedMemoryArray::remove` -/

theorem split_three {A : Type} (l : List A) (a b : Nat) (hab : a ≤ b)
    (hb : b ≤ l.length) : l = l.take a ++ sliceL l a b ++ l.drop b := by
  have h1 : l.drop a = sliceL l a b ++ l.drop b := by
    rw [sliceL]
    have e : (l.drop a).drop (b - a) = l.drop b := by
      rw [List.drop_drop]
      congr 1
      omega
    conv_lhs => rw [← List.take_append_drop (b - a) (l.drop a)]
    rw [e]
  conv_lhs => rw [← List.take_append_drop a l]
  rw [h1, List.append_assoc]

theorem take_setRange_le {A : Type} (l m : List A) (a b c : Nat)
    (hca : c ≤ a) (ha : a ≤ l.length) :
    (setRange l a b m).take c = l.take c := by
  rw [setRange, List.append_assoc]
  rw [List.take_append_of_le_length
    (by rw [List.length_take_of_le ha]; exact hca)]
  rw [List.take_take, Nat.min_eq_left hca]

theorem drop_setRange_ge {A : Type} (l m : List A) (a b c : Nat)
    (hab : a ≤ b) (hbc : b ≤ c) (hb : b ≤ l.length)
    (hm : m.length = b - a) :
    (setRange l a b m).drop c = l.drop c := by
  have h1 : (setRange l a b m).drop c =
      ((setRange l a b m).drop b).drop (c - b) := by
    rw [List.drop_drop]
    congr 1
    omega
  rw [h1, drop_setRange l m a b hab hb hm, List.drop_drop]
  congr 1
  omega

/-- Invariant of the remove climb: the window stays aligned, contains the
cleared slot and its starting window, and carries the true occupancy; on
fall-through the window is the whole array and even the root density floor
had failed. -/
theorem climbRem_spec {K V : Type} (l : List (Option (K × V))) (H idx : Nat) :
    ∀ (r lo hi size count : Nat),
      hi = lo + size →
      lo % size = 0 →
      hi ≤ l.length →
      lo ≤ idx →
      idx < hi →
      0 < size →
      size * 2 ^ r = l.length →
      count = countRange l lo hi →
      remove_density_ok H r count size = false →
      (let out := climbRem l H r lo hi size count
       out.hi = out.lo + out.size ∧ out.lo % out.size = 0 ∧
       out.hi ≤ l.length ∧ out.lo ≤ idx ∧ idx < out.hi ∧
       out.lo ≤ lo ∧ hi ≤ out.hi ∧ 0 < out.size ∧
       out.count = countRange l out.lo out.hi ∧
       (out.stopped = false → out.lo = 0 ∧ out.hi = l.length ∧
         out.size = l.length ∧
         remove_density_ok H 0 out.count out.size = false)) := by
  intro r
  induction r with
  | zero =>
    intro lo hi size count hhi hal hcap hloi hihi hpos hsz hcount hfail
    simp only [climbRem]
    have hsize : size = l.length := by simpa using hsz
    refine ⟨hhi, hal, hcap, hloi, hihi, le_refl lo, le_refl hi, hpos, hcount,
      ?_⟩
    intro _
    exact ⟨by omega, by omega, by omega, hfail⟩
  | succ r ih =>
    intro lo hi size count hhi hal hcap hloi hihi hpos hsz hcount hfail
    have hsz' : (size * 2) * 2 ^ r = l.length := by
      rw [← hsz, pow_succ]
      ring
    have hdvd : (size * 2) ∣ l.length := ⟨2 ^ r, hsz'.symm⟩
    by_cases hpar : (lo / size) % 2 = 1
    · obtain ⟨hsle, hal'⟩ := align_odd_step lo size hpos hal hpar
      have hcsplit : countRange l (lo - size) lo + countRange l lo hi =
          countRange l (lo - size) hi :=
        (countRange_split l (lo - size) lo hi (by omega) (by omega)).symm
      have hbase : hi = (lo - size) + size * 2 := by omega
      have hcnt' : count + countRange l (lo - size) lo =
          countRange l (lo - size) hi := by omega
      by_cases hdens : remove_density_ok H r
          (count + countRange l (lo - size) lo) (size * 2) = true
      · have hstep : climbRem l H (r + 1) lo hi size count =
            ⟨true, lo - size, hi, size * 2,
              count + countRange l (lo - size) lo⟩ := by
          simp only [climbRem, if_pos hpar]
          simp [hdens]
        rw [hstep]
        dsimp only
        exact ⟨hbase, hal', hcap, by omega, hihi, by omega, le_refl hi,
          by omega, hcnt', by intro hx; simp at hx⟩
      · have hstep : climbRem l H (r + 1) lo hi size count =
            climbRem l H r (lo - size) hi (size * 2)
              (count + countRange l (lo - size) lo) := by
          simp only [climbRem, if_pos hpar]
          simp [hdens]
        rw [hstep]
        have hres := ih (lo - size) hi (size * 2)
          (count + countRange l (lo - size) lo) hbase hal' hcap (by omega)
          hihi (by omega) hsz' hcnt'
          (by simpa using hdens)
        exact ⟨hres.1, hres.2.1, hres.2.2.1, hres.2.2.2.1, hres.2.2.2.2.1,
          by have := hres.2.2.2.2.2.1; omega,
          by have := hres.2.2.2.2.2.2.1; omega,
          hres.2.2.2.2.2.2.2.1, hres.2.2.2.2.2.2.2.2.1,
          hres.2.2.2.2.2.2.2.2.2⟩
    · have hpar' : (lo / size) % 2 = 0 := by omega
      have hal' : lo % (size * 2) = 0 := align_even_step lo size hpos hal hpar'
      have hlt : lo < l.length := by omega
      have hcap' : hi + size ≤ l.length := by
        have := aligned_lt_imp_add_le lo (size * 2) l.length (by omega) hal'
          hdvd hlt
        omega
      have hcsplit : countRange l lo hi + countRange l hi (hi + size) =
          countRange l lo (hi + size) :=
        (countRange_split l lo hi (hi + size) (by omega) (by omega)).symm
      have hbase : hi + size = lo + size * 2 := by omega
      have hcnt' : count + countRange l hi (hi + size) =
          countRange l lo (hi + size) := by omega
      by_cases hdens : remove_density_ok H r
          (count + countRange l hi (hi + size)) (size * 2) = true
      · have hstep : climbRem l H (r + 1) lo hi size count =
            ⟨true, lo, hi + size, size * 2,
              count + countRange l hi (hi + size)⟩ := by
          simp only [climbRem, if_neg hpar]
          simp [hdens]
        rw [hstep]
        dsimp only
        exact ⟨hbase, hal', hcap', hloi, by omega, le_refl lo, by omega,
          by omega, hcnt', by intro hx; simp at hx⟩
      · have hstep : climbRem l H (r + 1) lo hi size count =
            climbRem l H r lo (hi + size) (size * 2)
              (count + countRange l hi (hi + size)) := by
          simp only [climbRem, if_neg hpar]
          simp [hdens]
        rw [hstep]
        have hres := ih lo (hi + size) (size * 2)
          (count + countRange l hi (hi + size)) hbase hal' hcap' hloi
          (by omega) (by omega) hsz' hcnt'
          (by simpa using hdens)
        exact ⟨hres.1, hres.2.1, hres.2.2.1, hres.2.2.2.1, hres.2.2.2.2.1,
          hres.2.2.2.2.2.1,
          by have := hres.2.2.2.2.2.2.1; omega,
          hres.2.2.2.2.2.2.2.1, hres.2.2.2.2.2.2.2.2.1,
          hres.2.2.2.2.2.2.2.2.2⟩

/-- `PackedMemoryArray.remove` with its `let` prefix spelled out; the two
sides are definitionally equal. -/
theorem PMA_remove_eq {K V : Type} (p : PackedMemoryArray K V) (index : Nat) :
    p.remove index =
      (let ss := p.segment_size
       let lo0 := ss * (index >>> p.segment_size_log2)
       let hi0 := lo0 + ss
       let w1 := remove_key_value (sliceL p.v lo0 hi0)
         (index &&& (ss - 1))
       let l1 := setRange p.v lo0 hi0 w1
       let count0 := countOcc w1
       if remove_density_ok p.height (p.height - 1) count0 ss then
         some ({ p with v := (setRange l1 lo0 hi0
           (shuffleKV true (sliceL l1 lo0 hi0) count0)) }, some (lo0, hi0))
       else
         let res := climbRem l1 p.height (p.height - 1) lo0 hi0 ss count0
         if res.stopped then
           some ({ p with v := (setRange l1 res.lo res.hi
             (shuffleKV true (sliceL l1 res.lo res.hi) res.count)) },
             some (res.lo, res.hi))
         else if l1.length ≠ res.size then none
         else if res.count = 0 then some (PackedMemoryArray.new, none)
         else
           let l2 := resizeL (compactKV l1) (res.size / 2)
           let l3 := shuffleKV false l2 res.count
           let hs := if p.height - 1 = p.segment_size_log2 then
               (p.height, p.segment_size_log2 - 1, ss / 2)
             else (p.height - 1, p.segment_size_log2, ss)
           some (⟨l3, hs.1, hs.2.1, hs.2.2⟩, none)) := rfl

/-- Shuffling a window back in place preserves the occupants and length of
the whole slot array. -/
theorem shuffle_window_occ {A : Type} (l1 : List (Option A)) (lo hi : Nat)
    (hlh : lo ≤ hi) (hhi : hi ≤ l1.length) :
    occ (setRange l1 lo hi
        (shuffleKV true (sliceL l1 lo hi) (countRange l1 lo hi))) = occ l1 ∧
      (setRange l1 lo hi
        (shuffleKV true (sliceL l1 lo hi) (countRange l1 lo hi))).length =
        l1.length := by
  have hslen : (sliceL l1 lo hi).length = hi - lo := sliceL_length _ _ _ hlh hhi
  obtain ⟨ho, hl⟩ := shuffleKV_occ true (sliceL l1 lo hi)
    (countRange l1 lo hi) rfl (by simp)
  constructor
  · rw [occ_setRange, ho]
    conv_rhs => rw [split_three l1 lo hi hlh hhi]
    simp
  · refine setRange_length _ _ _ _ hlh hhi ?_
    rw [hl, hslen]

/-- Groundwork for the effect of `remove`: the located leaf window is
aligned and in range, and clearing the slot of `index` inside it yields a
slot array whose occupants are exactly those of the original without the
entry at `index`, everything outside the window being untouched. -/
theorem PMA_remove_window {K V : Type} (p : PackedMemoryArray K V) (idx : Nat)
    (hinv : ScalarInv p) (hidx : idx < p.v.length) :
    (let ss := p.segment_size
     let lo0 := ss * (idx >>> p.segment_size_log2)
     let w1 := remove_key_value (sliceL p.v lo0 (lo0 + ss))
       (idx &&& (ss - 1))
     let l1 := setRange p.v lo0 (lo0 + ss) w1
     lo0 % ss = 0 ∧ lo0 + ss ≤ p.v.length ∧ lo0 ≤ idx ∧ idx < lo0 + ss ∧
     w1.length = ss ∧ l1.length = p.v.length ∧
     occ l1 = occ (p.v.take idx) ++ occ (p.v.drop (idx + 1)) ∧
     countOcc w1 = countRange l1 lo0 (lo0 + ss) ∧
     (∀ c, c ≤ lo0 → l1.take c = p.v.take c) ∧
     (∀ c, lo0 + ss ≤ c → l1.drop c = p.v.drop c)) := by
  simp only []
  obtain ⟨hH, hss, hcap, hle1, hle2⟩ := hinv
  have hss0 : 0 < p.segment_size := by rw [hss]; positivity
  have hdvd : p.segment_size ∣ p.v.length := ⟨2 ^ (p.height - 1), hcap⟩
  have hshr : idx >>> p.segment_size_log2 = idx / p.segment_size := by
    rw [Nat.shiftRight_eq_div_pow, hss]
  have hdm := Nat.div_add_mod idx p.segment_size
  have hmlt : idx % p.segment_size < p.segment_size := Nat.mod_lt idx hss0
  have hand : idx &&& (p.segment_size - 1) = idx % p.segment_size := by
    rw [hss, Nat.and_pow_two_sub_one_eq_mod]
  have hmod : (p.segment_size * (idx >>> p.segment_size_log2)) %
      p.segment_size = 0 := by
    rw [hshr]; exact Nat.mul_mod_right _ _
  have hle : p.segment_size * (idx >>> p.segment_size_log2) ≤ idx := by
    rw [hshr]; omega
  have hidxlt : idx < p.segment_size * (idx >>> p.segment_size_log2) +
      p.segment_size := by
    rw [hshr]; omega
  have hup : p.segment_size * (idx >>> p.segment_size_log2) +
      p.segment_size ≤ p.v.length := by
    refine aligned_lt_imp_add_le _ _ _ hss0 hmod hdvd ?_
    omega
  obtain ⟨LO, hLO⟩ : ∃ x, p.segment_size * (idx >>> p.segment_size_log2) = x
    := ⟨_, rfl⟩
  rw [hLO] at hmod hle hidxlt hup ⊢
  have hd : idx &&& (p.segment_size - 1) = idx - LO := by
    rw [hand, ← hLO, hshr]; omega
  have hdlt : idx - LO < p.segment_size := by omega
  have hslice : (sliceL p.v LO (LO + p.segment_size)).length =
      p.segment_size := by
    rw [sliceL_length _ _ _ (by omega) hup]; omega
  have hw1 : remove_key_value (sliceL p.v LO (LO + p.segment_size))
      (idx &&& (p.segment_size - 1)) =
      (sliceL p.v LO (LO + p.segment_size)).take (idx - LO) ++
        none :: (sliceL p.v LO (LO + p.segment_size)).drop (idx - LO + 1) := by
    rw [remove_key_value, hd]
    exact set_none_decomp _ _ (by rw [hslice]; exact hdlt)
  have hw1len : (remove_key_value (sliceL p.v LO (LO + p.segment_size))
      (idx &&& (p.segment_size - 1))).length = p.segment_size := by
    rw [remove_key_value, List.length_set, hslice]
  have hl1len : (setRange p.v LO (LO + p.segment_size)
      (remove_key_value (sliceL p.v LO (LO + p.segment_size))
        (idx &&& (p.segment_size - 1)))).length = p.v.length := by
    refine setRange_length _ _ _ _ (by omega) hup ?_
    rw [hw1len]; omega
  have htksp : p.v.take idx = p.v.take LO ++
      (sliceL p.v LO (LO + p.segment_size)).take (idx - LO) :=
    take_split_slice p.v LO idx (LO + p.segment_size) hle (by omega)
  have hdrsp : p.v.drop (idx + 1) =
      (sliceL p.v LO (LO + p.segment_size)).drop (idx - LO + 1) ++
        p.v.drop (LO + p.segment_size) := by
    have h := drop_split_slice p.v LO (idx + 1) (LO + p.segment_size)
      (by omega) (by omega) hup
    have e : idx + 1 - LO = idx - LO + 1 := by omega
    rw [e] at h
    exact h
  refine ⟨hmod, hup, hle, hidxlt, hw1len, hl1len, ?_, ?_, ?_, ?_⟩
  · rw [occ_setRange, hw1, htksp, hdrsp]
    simp
  · rw [countRange, sliceL_setRange _ _ _ _ (by omega) hup
      (by rw [hw1len]; omega)]
  · intro c hc
    exact take_setRange_le _ _ _ _ c hc (by omega)
  · intro c hc
    exact drop_setRange_ge _ _ _ _ c (by omega) hc hup (by rw [hw1len]; omega)

/-- Effect of `PackedMemoryArray::remove` whenever it returns: the entry at
`index` disappears from the occupants and everything else is kept in order;
the scalar invariant is preserved; and a reported rewrite window contains
`index`, leaves the slots outside it untouched, and keeps all scalar
fields. -/
theorem PMA_remove_effect {K V : Type} (p : PackedMemoryArray K V) (idx : Nat)
    (hinv : ScalarInv p) (hidx : idx < p.v.length)
    (p' : PackedMemoryArray K V) (rng : Option (Nat × Nat))
    (h : p.remove idx = some (p', rng)) :
    occ p'.v = occ (p.v.take idx) ++ occ (p.v.drop (idx + 1)) ∧
      ScalarInv p' ∧
      (∀ lo hi, rng = some (lo, hi) →
        p'.height = p.height ∧ p'.segment_size = p.segment_size ∧
        p'.segment_size_log2 = p.segment_size_log2 ∧
        p'.v.length = p.v.length ∧ lo ≤ idx ∧ idx < hi ∧ hi ≤ p.v.length ∧
        p'.v.take lo = p.v.take lo ∧ p'.v.drop hi = p.v.drop hi) := by
  have hw := PMA_remove_window p idx hinv hidx
  simp only [] at hw
  obtain ⟨hH, hss, hcap, hle1, hle2⟩ := hinv
  have hss0 : 0 < p.segment_size := by rw [hss]; positivity
  rw [PMA_remove_eq] at h
  simp only [] at h
  obtain ⟨LO, hLO⟩ : ∃ x, p.segment_size * (idx >>> p.segment_size_log2) = x
    := ⟨_, rfl⟩
  rw [hLO] at h hw
  obtain ⟨W1, hW1⟩ : ∃ x, remove_key_value
      (sliceL p.v LO (LO + p.segment_size))
      (idx &&& (p.segment_size - 1)) = x := ⟨_, rfl⟩
  rw [hW1] at h hw
  obtain ⟨l1, hl1⟩ : ∃ x, setRange p.v LO (LO + p.segment_size) W1 = x :=
    ⟨_, rfl⟩
  rw [hl1] at h hw
  obtain ⟨hmod, hup, hle, hidxlt, hW1len, hl1len, hocc1, hcnt1, htakes,
    hdrops⟩ := hw
  by_cases hfast : remove_density_ok p.height (p.height - 1) (countOcc W1)
      p.segment_size = true
  · -- leaf window is still dense enough: shuffle it in place
    rw [if_pos hfast] at h
    simp only [Option.some.injEq, Prod.mk.injEq] at h
    obtain ⟨hp, hrng⟩ := h
    subst hp
    subst hrng
    rw [hcnt1] at *
    obtain ⟨hso, hsl⟩ := shuffle_window_occ l1 LO (LO + p.segment_size)
      (by omega) (by omega)
    refine ⟨?_, ?_, ?_⟩
    · dsimp only
      rw [hso, hocc1]
    · refine ⟨hH, hss, ?_, hle1, hle2⟩
      dsimp only
      rw [hsl, hl1len]
      exact hcap
    · intro lo hi hrngeq
      simp only [Option.some.injEq, Prod.mk.injEq] at hrngeq
      obtain ⟨rfl, rfl⟩ := hrngeq
      refine ⟨rfl, rfl, rfl, by dsimp only; rw [hsl, hl1len], hle, hidxlt,
        hup, ?_, ?_⟩
      · dsimp only
        rw [take_setRange _ _ _ _ (by omega)]
        exact htakes LO (le_refl LO)
      · dsimp only
        rw [drop_setRange _ _ _ _ (by omega) (by omega) ?_]
        · exact hdrops _ (le_refl _)
        · obtain ⟨ho2, hl2⟩ := shuffleKV_occ true
            (sliceL l1 LO (LO + p.segment_size))
            (countRange l1 LO (LO + p.segment_size)) rfl (by simp)
          rw [hl2, sliceL_length _ _ _ (by omega) (by omega)]
  · -- climb
    rw [if_neg hfast] at h
    obtain ⟨res, hres⟩ : ∃ x, climbRem l1 p.height (p.height - 1) LO
        (LO + p.segment_size) p.segment_size (countOcc W1) = x := ⟨_, rfl⟩
    rw [hres] at h
    have hspec := climbRem_spec l1 p.height idx (p.height - 1) LO
      (LO + p.segment_size) p.segment_size (countOcc W1) rfl hmod
      (by omega) hle hidxlt hss0
      (by rw [hl1len, hcap])
      hcnt1 (by simpa using hfast)
    rw [hres] at hspec
    simp only [] at hspec
    obtain ⟨G1, G2, G3, G4, G5, G6, G7, G8, G9, G10⟩ := hspec
    by_cases hstop : res.stopped = true
    · -- a higher window passed the density floor: shuffle it in place
      rw [if_pos hstop] at h
      simp only [Option.some.injEq, Prod.mk.injEq] at h
      obtain ⟨hp, hrng⟩ := h
      subst hp
      subst hrng
      rw [G9] at *
      obtain ⟨hso, hsl⟩ := shuffle_window_occ l1 res.lo res.hi
        (by omega) G3
      refine ⟨?_, ?_, ?_⟩
      · dsimp only
        rw [hso, hocc1]
      · refine ⟨hH, hss, ?_, hle1, hle2⟩
        dsimp only
        rw [hsl, hl1len]
        exact hcap
      · intro lo hi hrngeq
        simp only [Option.some.injEq, Prod.mk.injEq] at hrngeq
        obtain ⟨rfl, rfl⟩ := hrngeq
        refine ⟨rfl, rfl, rfl, by dsimp only; rw [hsl, hl1len], G4, G5,
          by rw [← hl1len]; exact G3, ?_, ?_⟩
        · dsimp only
          rw [take_setRange _ _ _ _ (le_trans (by omega) G3)]
          exact htakes res.lo G6
        · dsimp only
          rw [drop_setRange _ _ _ _ (by omega) G3 ?_]
          · exact hdrops res.hi G7
          · obtain ⟨ho2, hl2⟩ := shuffleKV_occ true
              (sliceL l1 res.lo res.hi)
              (countRange l1 res.lo res.hi) rfl (by simp)
            rw [hl2, sliceL_length _ _ _ (by omega) G3]
    · -- fell all the way through: shrink
      rw [if_neg hstop] at h
      obtain ⟨hR0, hRhi, hRsz, hRfail⟩ := G10 (by simpa using hstop)
      rw [if_neg (not_not_intro hRsz.symm)] at h
      have hcnt0 : res.count = countOcc l1 := by
        rw [G9, hR0, hRhi, countRange_full]
      by_cases hzero : res.count = 0
      · -- array emptied: reset to the fresh state
        rw [if_pos hzero] at h
        simp only [Option.some.injEq, Prod.mk.injEq] at h
        obtain ⟨hp, hrng⟩ := h
        subst hp
        subst hrng
        have hnil : occ l1 = [] := by
          have := hcnt0.symm.trans hzero
          rwa [countOcc, List.length_eq_zero] at this
        rw [hnil] at hocc1
        obtain ⟨h1, h2⟩ := List.append_eq_nil.mp hocc1.symm
        refine ⟨?_, ?_, ?_⟩
        · rw [h1, h2]
          rfl
        · exact ⟨le_refl 1, rfl, rfl, Nat.le_refl 0, Nat.zero_le 1⟩
        · intro lo hi hrngeq
          exact Option.noConfusion hrngeq
      · -- shrink the array to half the capacity
        rw [if_neg hzero] at h
        simp only [Option.some.injEq, Prod.mk.injEq] at h
        obtain ⟨hp, hrng⟩ := h
        subst hp
        subst hrng
        have hfail0 : ¬(res.size * (p.height * 2 - 0) ≤
            res.count * (p.height * 4)) := by
          rw [← remove_density_ok_iff p.height 0 res.count res.size hH
            (by omega)]
          simp [hRfail]
        rw [Nat.sub_zero] at hfail0
        have h2c : 2 * res.count < res.size := by
          by_contra hge
          push_neg at hge
          have h1 : res.size * (p.height * 2) ≤
              (2 * res.count) * (p.height * 2) :=
            Nat.mul_le_mul_right _ hge
          have h2 : (2 * res.count) * (p.height * 2) =
              res.count * (p.height * 4) := by ring
          omega
        have hcle : res.count ≤ res.size / 2 := by omega
        have hclen : (compactKV l1).length = l1.length := compactKV_length l1
        have hl2 : resizeL (compactKV l1) (res.size / 2) =
            (compactKV l1).take (res.size / 2) := by
          rw [resizeL, hclen]
          have e : res.size / 2 - l1.length = 0 := by omega
          rw [e]
          simp
        have hmaplen : ((occ l1).map some).length = res.count := by
          rw [List.length_map, hcnt0, countOcc]
        have htk2 : (compactKV l1).take (res.size / 2) =
            (occ l1).map some ++
              List.replicate (res.size / 2 - res.count) none := by
          rw [compactKV, List.take_append_eq_append_take,
            List.take_of_length_le (by rw [hmaplen]; exact hcle),
            List.take_replicate, hmaplen]
          congr 1
          rw [Nat.min_eq_left (by rw [hcnt0, countOcc] at *; omega)]
        have hl2form : resizeL (compactKV l1) (res.size / 2) =
            (occ l1).map some ++
              List.replicate (res.size / 2 - res.count) none := by
          rw [hl2, htk2]
        have hoccl2 : occ (resizeL (compactKV l1) (res.size / 2)) = occ l1
            := by
          rw [hl2form]
          simp
        have hcntl2 : res.count = countOcc (resizeL (compactKV l1)
            (res.size / 2)) := by
          rw [countOcc, hoccl2, hcnt0, countOcc]
        have hlenl2 : (resizeL (compactKV l1) (res.size / 2)).length =
            res.size / 2 := by
          rw [hl2form, List.length_append, List.length_map,
            List.length_replicate]
          rw [hcnt0, countOcc] at hcle ⊢
          omega
        have hcomp : resizeL (compactKV l1) (res.size / 2) =
            compactKV (resizeL (compactKV l1) (res.size / 2)) := by
          conv_lhs => rw [hl2form]
          rw [compactKV, hoccl2, hlenl2, ← hcntl2]
        obtain ⟨ho3, hl3⟩ := shuffleKV_occ false
          (resizeL (compactKV l1) (res.size / 2)) res.count hcntl2
          (fun _ => hcomp)
        refine ⟨?_, ?_, ?_⟩
        · dsimp only
          rw [ho3, hoccl2, hocc1]
        · have hlen3 : (shuffleKV false (resizeL (compactKV l1)
              (res.size / 2)) res.count).length = res.size / 2 := by
            rw [hl3, hlenl2]
          have hsz2 : res.size = p.v.length := by rw [hRsz, hl1len]
          by_cases hhs : p.height - 1 = p.segment_size_log2
          · rw [if_pos hhs]
            have hssl1 : 1 ≤ p.segment_size_log2 := by
              by_contra hz
              push_neg at hz
              interval_cases p.segment_size_log2
              · have hs1 : p.segment_size = 1 := by rw [hss]; rfl
                have hh1 : p.height = 1 := by omega
                have : p.v.length = 1 := by rw [hcap, hs1, hh1]; rfl
                omega
            have hsplit : p.segment_size = 2 * (p.segment_size / 2) ∧
                p.segment_size / 2 = 2 ^ (p.segment_size_log2 - 1) := by
              have e : p.segment_size_log2 = (p.segment_size_log2 - 1) + 1
                := by omega
              rw [hss, e, pow_succ]
              rw [Nat.mul_div_cancel _ (by norm_num)]
              constructor
              · ring
              · rfl
            refine ⟨?_, ?_, ?_, ?_, ?_⟩ <;> dsimp only
            · exact hH
            · exact hsplit.2
            · rw [hlen3]
              have e2 : p.v.length = 2 * (p.segment_size / 2 *
                  2 ^ (p.height - 1)) := by
                rw [hcap]
                conv_lhs => rw [hsplit.1]
                ring
              rw [hsz2, e2, Nat.mul_div_cancel_left _ (by norm_num)]
            · omega
            · omega
          · rw [if_neg hhs]
            have hlt2 : p.segment_size_log2 < p.height - 1 := by omega
            refine ⟨?_, ?_, ?_, ?_, ?_⟩ <;> dsimp only
            · omega
            · exact hss
            · rw [hlen3]
              have e2 : p.v.length = 2 * (p.segment_size *
                  2 ^ (p.height - 1 - 1)) := by
                rw [hcap]
                have e : p.height - 1 = (p.height - 1 - 1) + 1 := by omega
                conv_lhs => rw [e, pow_succ]
                ring
              rw [hsz2, e2, Nat.mul_div_cancel_left _ (by norm_num)]
            · omega
            · omega
        · intro lo hi hrngeq
          exact Option.noConfusion hrngeq

/-! ## C3: invariants along PMA operation sequences -/

/-- Reachability by PMA operations from the initial state, every insert
given the correct sorted position and every remove an in-range index. -/
inductive PReach {K V : Type} [LinearOrder K] :
    PackedMemoryArray K V → Prop
  | new : PReach PackedMemoryArray.new
  | insert (p : PackedMemoryArray K V) (idx : Nat) (kv : K × V)
      (p' : PackedMemoryArray K V) (rng : Option (Nat × Nat)) :
      PReach p → ValidInsertIdx p idx kv.1 →
      p.insert idx kv = some (p', rng) → PReach p'
  | remove (p : PackedMemoryArray K V) (idx : Nat)
      (p' : PackedMemoryArray K V) (rng : Option (Nat × Nat)) :
      PReach p → idx < p.v.length →
      p.remove idx = some (p', rng) → PReach p'

theorem sorted_insert_mid {K V : Type} [LinearOrder K]
    (A B : List (K × V)) (kv : K × V)
    (hs : ((A ++ B).map Prod.fst).Pairwise (· < ·))
    (hA : ∀ x ∈ A, x.1 < kv.1) (hB : ∀ x ∈ B, kv.1 < x.1) :
    ((A ++ kv :: B).map Prod.fst).Pairwise (· < ·) := by
  rw [List.map_append, List.pairwise_append] at hs ⊢
  obtain ⟨h1, h2, h3⟩ := hs
  refine ⟨h1, ?_, ?_⟩
  · rw [List.map_cons, List.pairwise_cons]
    refine ⟨?_, h2⟩
    intro b hb
    rw [List.mem_map] at hb
    obtain ⟨x, hx, rfl⟩ := hb
    exact hB x hx
  · intro a ha b hb
    rw [List.mem_map] at ha
    obtain ⟨x, hx, rfl⟩ := ha
    rw [List.map_cons, List.mem_cons] at hb
    rcases hb with rfl | hb
    · exact hA x hx
    · exact h3 _ (List.mem_map_of_mem _ hx) b hb

theorem occ_drop_succ_sublist {K V : Type} (l : List (Option (K × V)))
    (idx : Nat) (h : idx < l.length) :
    (occ (l.drop (idx + 1))).Sublist (occ (l.drop idx)) := by
  have hd : l.drop idx = l.getD idx (l.get ⟨idx, h⟩) :: l.drop (idx + 1) := by
    rw [List.getD_eq_getElem l _ h]
    exact List.drop_eq_getElem_cons h
  rw [hd]
  cases hx : l.getD idx (l.get ⟨idx, h⟩) with
  | none => simp
  | some a => simp [List.sublist_cons_self]

/-- Invariant of PMA reachability: sorted occupants and the scalar laws. -/
theorem PReach_inv {K V : Type} [LinearOrder K] (p : PackedMemoryArray K V)
    (h : PReach p) : SortedSlots p.v ∧ ScalarInv p := by
  induction h with
  | new =>
    constructor
    · rw [SortedSlots, keysOf]
      exact List.Pairwise.nil
    · exact ⟨le_refl 1, rfl, rfl, Nat.le_refl 0, Nat.zero_le 1⟩
  | insert p idx kv p' rng hre hvalid hstep ih =>
    obtain ⟨hsort, hinv⟩ := ih
    obtain ⟨hocc, hinv', _⟩ :=
      PMA_insert_effect p idx kv hinv hvalid.1 p' rng hstep
    refine ⟨?_, hinv'⟩
    rw [SortedSlots, keysOf, hocc]
    have hsplit : occ p.v =
        occ (p.v.take idx) ++ occ (p.v.drop idx) := by
      conv_lhs => rw [← List.take_append_drop idx p.v]
      rw [occ_append]
    rw [SortedSlots, keysOf, hsplit] at hsort
    exact sorted_insert_mid _ _ kv hsort hvalid.2.1 hvalid.2.2
  | remove p idx p' rng hre hlt hstep ih =>
    obtain ⟨hsort, hinv⟩ := ih
    obtain ⟨hocc, hinv', _⟩ := PMA_remove_effect p idx hinv hlt p' rng hstep
    refine ⟨?_, hinv'⟩
    rw [SortedSlots, keysOf, hocc]
    have hsplit : occ p.v =
        occ (p.v.take idx) ++ occ (p.v.drop idx) := by
      conv_lhs => rw [← List.take_append_drop idx p.v]
      rw [occ_append]
    rw [SortedSlots, keysOf, hsplit] at hsort
    have hsub : (occ (p.v.take idx) ++ occ (p.v.drop (idx + 1))).Sublist
        (occ (p.v.take idx) ++ occ (p.v.drop idx)) :=
      (occ_drop_succ_sublist p.v idx hlt).append_left _
    exact hsort.sublist (hsub.map Prod.fst)

/-- C3: along every sequence of PMA insert/remove operations from the
initial state (inserts at the correct sorted position, removes in range),
after every operation the occupied slots hold strictly ascending keys, and
`capacity = segment_size · 2^(pma_height − 1)` with `segment_size = 2^k` a
power of two and `pma_height − 1 − k ∈ {0, 1}`. -/
theorem C3_pma_op_invariants {K V : Type} [LinearOrder K]
    (p : PackedMemoryArray K V) (h : PReach p) :
    SortedSlots p.v ∧
      (∃ k, p.segment_size = 2 ^ k ∧
        p.v.length = p.segment_size * 2 ^ (p.height - 1) ∧
        (p.height - 1 - k = 0 ∨ p.height - 1 - k = 1)) := by
  obtain ⟨hsort, hH, hss, hcap, hle1, hle2⟩ := PReach_inv p h
  exact ⟨hsort, p.segment_size_log2, hss, hcap, by omega⟩

/-- Witness for C3: the state reached by `new` then `insert (5, 10)` at
position 0 (a growing resize to capacity 2). -/
theorem C3_witness :
    SortedSlots (⟨[none, some (5, 10)], 2, 0, 1⟩ :
        PackedMemoryArray Nat Nat).v ∧
      (∃ k, (⟨[none, some (5, 10)], 2, 0, 1⟩ :
          PackedMemoryArray Nat Nat).segment_size = 2 ^ k ∧
        (⟨[none, some (5, 10)], 2, 0, 1⟩ :
          PackedMemoryArray Nat Nat).v.length =
          (⟨[none, some (5, 10)], 2, 0, 1⟩ :
            PackedMemoryArray Nat Nat).segment_size *
            2 ^ ((⟨[none, some (5, 10)], 2, 0, 1⟩ :
              PackedMemoryArray Nat Nat).height - 1) ∧
        ((⟨[none, some (5, 10)], 2, 0, 1⟩ :
            PackedMemoryArray Nat Nat).height - 1 - k = 0 ∨
          (⟨[none, some (5, 10)], 2, 0, 1⟩ :
            PackedMemoryArray Nat Nat).height - 1 - k = 1)) :=
  C3_pma_op_invariants _
    (PReach.insert PackedMemoryArray.new 0 (5, 10)
      ⟨[none, some (5, 10)], 2, 0, 1⟩ none PReach.new
      ⟨by decide, by decide, by decide⟩ (by decide))

/-! ## Totality of the PMA operations under the invariant -/

theorem countOcc_lt_imp_mem_none {A : Type} (l : List (Option A))
    (h : countOcc l < l.length) : none ∈ l := by
  induction l with
  | nil => simp at h
  | cons x t ih =>
    cases x with
    | none => exact List.mem_cons_self _ _
    | some a =>
      have e : countOcc (some a :: t) = countOcc t + 1 := by
        simp [countOcc]
      simp only [List.length_cons] at h
      exact List.mem_cons_of_mem _ (ih (by omega))

theorem countRange_le_countOcc {A : Type} (l : List (Option A)) (a b : Nat) :
    countRange l a b ≤ countOcc l := by
  have h1 : countOcc ((l.drop a).take (b - a)) + countOcc
      ((l.drop a).drop (b - a)) = countOcc (l.drop a) :=
    countOcc_take_drop (l.drop a) (b - a)
  have h2 : countOcc (l.take a) + countOcc (l.drop a) = countOcc l :=
    countOcc_take_drop l a
  rw [countRange, sliceL]
  omega

/-- `PackedMemoryArray::insert` never hits an abort path when the array has
an empty slot and the index is within bounds. -/
theorem PMA_insert_total {K V : Type} (p : PackedMemoryArray K V) (idx : Nat)
    (kv : K × V) (hinv : ScalarInv p) (hidx : idx ≤ p.v.length)
    (hgap : countOcc p.v < p.v.length) :
    ∃ pr, p.insert idx kv = some pr := by
  have hspec := insResOf_spec p idx hinv hidx
  obtain ⟨hH, hss, hcap, hle1, hle2⟩ := hinv
  rw [PMA_insert_eq]
  obtain ⟨res, hres⟩ : ∃ r, insResOf p idx = r := ⟨_, rfl⟩
  rw [hres] at hspec ⊢
  simp only [] at hspec ⊢
  obtain ⟨F1, F2, F3, F4, F5, F6, F7, F8, F9, F10, F11, F12⟩ := hspec
  have hfound : res.found = true := by
    by_cases hd : res.density = true
    · exact F12 hd
    · by_contra hf
      have hf' : res.found = false := by simpa using hf
      obtain ⟨h0, hhiL, hszL⟩ := F9 (by simpa using hd)
      have h1 := F10 hf'
      rw [F8, hf'] at h1
      simp only [if_neg (by simp : ¬(false = true))] at h1
      rw [h0, hhiL, countRange_full] at h1
      omega
  rw [if_neg (not_not_intro hfound)]
  by_cases hd : res.density = true
  · rw [if_pos hd]
    have hlohi : res.lo ≤ res.hi := by omega
    have hsl : (sliceL p.v res.lo res.hi).length = res.size := by
      rw [sliceL_length p.v res.lo res.hi hlohi F3]
      omega
    have hcr : countOcc (sliceL p.v res.lo res.hi) <
        (sliceL p.v res.lo res.hi).length := by
      have h1 := F11 hd
      rw [F8, if_pos hfound] at h1
      rw [hsl]
      rw [countRange] at h1
      omega
    obtain ⟨m, hm, _⟩ := insert_key_value_occ (sliceL p.v res.lo res.hi)
      res.segPos kv (by rw [hsl]; omega) (countOcc_lt_imp_mem_none _ hcr)
    rw [hm]
    exact ⟨_, rfl⟩
  · rw [if_neg hd]
    obtain ⟨h0, hhiL, hszL⟩ := F9 (by simpa using hd)
    have hlen0 : 0 < p.v.length := by omega
    have hl2 : resizeL p.v (res.size * 2) =
        p.v ++ List.replicate p.v.length none := by
      rw [resizeL, hszL, List.take_of_length_le (by omega)]
      have e : p.v.length * 2 - p.v.length = p.v.length := by omega
      rw [e]
    rw [hl2]
    have hmem : (none : Option (K × V)) ∈
        p.v ++ List.replicate p.v.length none := by
      refine List.mem_append.mpr (Or.inr ?_)
      rw [List.mem_replicate]
      exact ⟨by omega, rfl⟩
    obtain ⟨m, hm, _⟩ := insert_key_value_occ
      (p.v ++ List.replicate p.v.length none) res.segPos kv
      (by rw [F6, h0, Nat.sub_zero]; simp; omega) hmem
    rw [hm]
    exact ⟨_, rfl⟩

/-- `PackedMemoryArray::remove` never hits its length assertion when the
index is within bounds. -/
theorem PMA_remove_total {K V : Type} (p : PackedMemoryArray K V) (idx : Nat)
    (hinv : ScalarInv p) (hidx : idx < p.v.length) :
    ∃ pr, p.remove idx = some pr := by
  have hw := PMA_remove_window p idx hinv hidx
  simp only [] at hw
  obtain ⟨hH, hss, hcap, hle1, hle2⟩ := hinv
  have hss0 : 0 < p.segment_size := by rw [hss]; positivity
  rw [PMA_remove_eq]
  simp only []
  obtain ⟨LO, hLO⟩ : ∃ x, p.segment_size * (idx >>> p.segment_size_log2) = x
    := ⟨_, rfl⟩
  rw [hLO] at hw ⊢
  obtain ⟨W1, hW1⟩ : ∃ x, remove_key_value
      (sliceL p.v LO (LO + p.segment_size))
      (idx &&& (p.segment_size - 1)) = x := ⟨_, rfl⟩
  rw [hW1] at hw ⊢
  obtain ⟨l1, hl1⟩ : ∃ x, setRange p.v LO (LO + p.segment_size) W1 = x :=
    ⟨_, rfl⟩
  rw [hl1] at hw ⊢
  obtain ⟨hmod, hup, hle, hidxlt, hW1len, hl1len, hocc1, hcnt1, htakes,
    hdrops⟩ := hw
  by_cases hfast : remove_density_ok p.height (p.height - 1) (countOcc W1)
      p.segment_size = true
  · rw [if_pos hfast]
    exact ⟨_, rfl⟩
  · rw [if_neg hfast]
    obtain ⟨res, hres⟩ : ∃ x, climbRem l1 p.height (p.height - 1) LO
        (LO + p.segment_size) p.segment_size (countOcc W1) = x := ⟨_, rfl⟩
    rw [hres]
    have hspec := climbRem_spec l1 p.height idx (p.height - 1) LO
      (LO + p.segment_size) p.segment_size (countOcc W1) rfl hmod
      (by omega) hle hidxlt hss0
      (by rw [hl1len, hcap])
      hcnt1 (by simpa using hfast)
    rw [hres] at hspec
    simp only [] at hspec
    obtain ⟨G1, G2, G3, G4, G5, G6, G7, G8, G9, G10⟩ := hspec
    by_cases hstop : res.stopped = true
    · rw [if_pos hstop]
      exact ⟨_, rfl⟩
    · rw [if_neg hstop]
      obtain ⟨hR0, hRhi, hRsz, hRfail⟩ := G10 (by simpa using hstop)
      rw [if_neg (not_not_intro hRsz.symm)]
      by_cases hzero : res.count = 0
      · rw [if_pos hzero]
        exact ⟨_, rfl⟩
      · rw [if_neg hzero]
        exact ⟨_, rfl⟩

/-! ## The `BTreeMap` of `cache_oblivious.rs`

The index tree is a complete binary tree; `make_tree` lays its nodes out in
vEB order, but the parent/child pointer structure it builds is exactly the
complete binary tree on breadth-first ids (root 1, children of `n` are `2n`
and `2n+1`, `leaves[i]` is the node with id `2^(height−1) + i`, parent
pointers are the ids halved).  We therefore embed the tree as the array of
its node keys indexed by breadth-first id − 1; the layout position inside
`nodes` is irrelevant to the key structure and is treated in the `make_tree`
section above. -/

/-- `set_branch_key`'s input: the right child's key if present, otherwise
the left child's (`cache_oblivious.rs` lines 69–75). -/
def combineK {K : Type} (left right : Option K) : Option K :=
  match right with
  | some k => some k
  | none => left

/-- The key that the propagation drives node `n` toward: for a leaf, its
slot's key; for a branch, `combineK` of the children's values.  `f` is the
number of levels below `n` (its exact subtree height minus one). -/
def codeKeyF {K V : Type} (l : List (Option (K × V))) (cap : Nat) :
    Nat → Nat → Option K
  | 0, n => (slotGet l (n - cap)).map Prod.fst
  | f + 1, n =>
    if cap ≤ n then (slotGet l (n - cap)).map Prod.fst
    else combineK (codeKeyF l cap f (2 * n)) (codeKeyF l cap f (2 * n + 1))

/-- Model of `usize::trailing_zeros` for positive arguments. -/
def trailingZerosF : Nat → Nat → Nat
  | 0, _ => 0
  | f + 1, n => if n % 2 = 0 ∧ n ≠ 0 then trailingZerosF f (n / 2) + 1 else 0

def trailingZeros (n : Nat) : Nat := trailingZerosF n n

/-- The `BTreeMap` of `cache_oblivious.rs`: the tree keys by breadth-first
id − 1 (see the section comment), the PMA, and the cached size. -/
structure BTM (K V : Type) where
  height : Nat
  tree : List (Option K)
  pma : PackedMemoryArray K V
  size : Nat
deriving Repr, DecidableEq

/-- `self.leaves.len()`: a complete tree of height `h` has `2^(h−1)`
leaves. -/
def BTM.numLeaves {K V : Type} (b : BTM K V) : Nat := 2 ^ (b.height - 1)

/-- `BTreeMap::new`: height-1 tree (one leaf with key `None`), fresh PMA,
size 0. -/
def BTM.new {K V : Type} : BTM K V := ⟨1, [none], PackedMemoryArray.new, 0⟩

/-- The descent loop of `find_index` (`cache_oblivious.rs` lines 332–348):
at a branch, go left when the left child's key is `≥ key`, else right,
accumulating the leaf rank bit by bit; an empty left key sends the search
right.  Runs `height − 1` steps from the root (id 1). -/
def findLoopF {K : Type} [LinearOrder K] (t : List (Option K)) (key : K) :
    Nat → Nat → Nat → Nat × Nat
  | 0, n, index => (n, index)
  | f + 1, n, index =>
    match t.getD (2 * n - 1) none with
    | some k =>
      if key ≤ k then findLoopF t key f (2 * n) (index * 2)
      else findLoopF t key f (2 * n + 1) (index * 2 + 1)
    | none => findLoopF t key f (2 * n + 1) (index * 2 + 1)

/-- `BTreeMap::find_index` (`cache_oblivious.rs` lines 328–360). -/
def BTM.findIndex {K V : Type} [LinearOrder K] (b : BTM K V) (key : K) :
    Nat :=
  let r := findLoopF b.tree key (b.height - 1) 1 0
  match b.tree.getD (r.1 - 1) none with
  | some k => if k < key then r.2 + 1 else r.2
  | none => r.2

/-- `BTreeMap::get` (`cache_oblivious.rs` lines 294–309). -/
def BTM.get {K V : Type} [LinearOrder K] (b : BTM K V) (key : K) :
    Option V :=
  let index := b.findIndex key
  if b.numLeaves ≤ index then none
  else match slotGet b.pma.v index with
    | none => none
    | some (k, v) => if key = k then some v else none

/-- The leaf phase of `populate_changes` (lines 366–377): write each slot's
key into its leaf and queue the leaf's parent, suppressing a push equal to
the queue's last element; `c` counts the remaining slots from `i`. -/
def leafPhaseF {K V : Type} (l : List (Option (K × V))) (cap : Nat) :
    Nat → Nat → List (Option K) → List Nat →
    (List (Option K) × List Nat)
  | 0, _, t, q => (t, q)
  | c + 1, i, t, q =>
    let id := cap + i
    let t' := t.set (id - 1) ((slotGet l i).map Prod.fst)
    let q' := if 2 ≤ id ∧ ¬(q.getLast? = some (id / 2)) then q ++ [id / 2]
      else q
    leafPhaseF l cap c (i + 1) t' q'

/-- The propagation loop of `populate_changes` (lines 379–396): process the
queue in order; recompute each branch key; when it changed, the node is not
the root, and the queue's last element is not already the parent, append
the parent.  `none` models the leaf-id panic and fuel exhaustion (shown
unreachable below). -/
def popLoopF {K : Type} [DecidableEq K] (cap : Nat) :
    Nat → List (Option K) → List Nat → Option (List (Option K))
  | 0, _, _ => none
  | _ + 1, t, [] => some t
  | fuel + 1, t, n :: rest =>
    if n = 0 ∨ cap ≤ n then none
    else
      let input := combineK (t.getD (2 * n - 1) none) (t.getD (2 * n) none)
      let changed := ¬(t.getD (n - 1) none = input)
      let t' := t.set (n - 1) input
      let lastq := ((n :: rest).getLast?).getD n
      if changed ∧ ¬(n = 1) ∧ ¬(lastq = n / 2) then
        popLoopF cap fuel t' (rest ++ [n / 2])
      else popLoopF cap fuel t' rest

/-- `BTreeMap::populate_changes` (lines 363–397).  The slot range is
clipped to the slot count by the iterator; indexing `leaves[i]` out of
range is a panic, modelled by `none`. -/
def populateChanges {K V : Type} [DecidableEq K] (t : List (Option K))
    (l : List (Option (K × V))) (cap lo hi : Nat) :
    Option (List (Option K)) :=
  let upTo := min hi l.length
  if cap < upTo then none
  else
    let r := leafPhaseF l cap (upTo - lo) lo t []
    popLoopF cap (2 * r.2.sum + r.2.length + 1) r.1 r.2

/-- `BTreeMap::rebuild` (lines 320–326): a fresh tree of the height given
by `trailing_zeros(data_len) + 1` (all keys `None`, as `make_tree` creates
them), then a key refresh over the whole slot range. -/
def BTM.rebuild {K V : Type} [DecidableEq K] (b : BTM K V) :
    Option (BTM K V) :=
  let len := b.pma.v.length
  let h := trailingZeros len + 1
  (populateChanges (List.replicate (2 ^ h - 1) none) b.pma.v (2 ^ (h - 1))
      0 len).map (fun t => ⟨h, t, b.pma, b.size⟩)

/-- Modelled from the spec: the single leaf window of `index` (spec §4.2),
reported by the replace-in-place and empty-slot paths. -/
def leafWindow {K V : Type} (p : PackedMemoryArray K V) (index : Nat) :
    Nat × Nat :=
  let lo := p.segment_size * (index >>> p.segment_size_log2)
  (lo, lo + p.segment_size)

/-- Modelled from the spec: the old-value-returning `insert` of the PMA
revision consumed by `cache_oblivious.rs` (spec §4.2): "If the key at
`index` already holds `kv.key` (equal), the operation is a replace in
place: overwrite the value, return the old value, and report the single
leaf window as the rewritten range"; otherwise `old = None` and the
physical insert of `packed_memory_array.rs` runs. -/
def PackedMemoryArray.insertM {K V : Type} [DecidableEq K]
    (p : PackedMemoryArray K V) (idx : Nat) (kv : K × V) :
    Option (Option V × PackedMemoryArray K V × Option (Nat × Nat)) :=
  match slotGet p.v idx with
  | some (k, v0) =>
    if k = kv.1 then
      some (some v0, { p with v := p.v.set idx (some kv) },
        some (leafWindow p idx))
    else (p.insert idx kv).map (fun pr => (none, pr.1, pr.2))
  | none => (p.insert idx kv).map (fun pr => (none, pr.1, pr.2))

/-- Modelled from the spec: the old-value-returning `remove` (spec §4.2):
"If the slot is empty, return `(None, Some(leaf_window))` with no
structural change. Otherwise clear it" and rebalance as in
`packed_memory_array.rs`. -/
def PackedMemoryArray.removeM {K V : Type} (p : PackedMemoryArray K V)
    (idx : Nat) :
    Option (Option V × PackedMemoryArray K V × Option (Nat × Nat)) :=
  match slotGet p.v idx with
  | none => some (none, p, some (leafWindow p idx))
  | some kv => (p.remove idx).map (fun pr => (some kv.2, pr.1, pr.2))

/-- `BTreeMap::insert` (lines 210–220). -/
def BTM.insert {K V : Type} [LinearOrder K] (b : BTM K V) (key : K)
    (v : V) : Option (Option V × BTM K V) :=
  let index := b.findIndex key
  match b.pma.insertM index (key, v) with
  | none => none
  | some (old, p', rng) =>
    let size' := if old.isNone then b.size + 1 else b.size
    match rng with
    | some w =>
      (populateChanges b.tree p'.v (2 ^ (b.height - 1)) w.1 w.2).map
        (fun t => (old, ⟨b.height, t, p', size'⟩))
    | none =>
      ((⟨b.height, b.tree, p', size'⟩ : BTM K V).rebuild).map
        (fun b2 => (old, b2))

/-- `BTreeMap::remove` (lines 222–247). -/
def BTM.remove {K V : Type} [LinearOrder K] (b : BTM K V) (key : K) :
    Option (Option V × BTM K V) :=
  let index := b.findIndex key
  if b.numLeaves ≤ index then some (none, b)
  else
    match b.tree.getD (b.numLeaves + index - 1) none with
    | none => some (none, b)
    | some k =>
      if ¬(k = key) then some (none, b)
      else
        match b.pma.removeM index with
        | none => none
        | some (old, p', rng) =>
          match old with
          | some v0 =>
            match rng with
            | some w =>
              (populateChanges b.tree p'.v (2 ^ (b.height - 1)) w.1
                  w.2).map
                (fun t => (some v0, ⟨b.height, t, p', b.size - 1⟩))
            | none =>
              ((⟨b.height, b.tree, p', b.size - 1⟩ : BTM K V).rebuild).map
                (fun b2 => (some v0, b2))
          | none => some (none, ⟨b.height, b.tree, p', b.size⟩)

/-- `BTreeMap::len`. -/
def BTM.len {K V : Type} (b : BTM K V) : Nat := b.size

/-- The tree keys agree with the propagation fixed point of the slots:
every node id `n` (whose exact level count is `f`) stores `codeKeyF`. -/
def treeSync {K V : Type} (t : List (Option K))
    (l : List (Option (K × V))) (cap : Nat) : Prop :=
  ∀ n f, 1 ≤ n → cap ≤ n * 2 ^ f → n * 2 ^ f < 2 * cap →
    t.getD (n - 1) none = codeKeyF l cap f n

/-- Master invariant of reachable `BTreeMap` states. -/
def BTM.Inv {K V : Type} [LinearOrder K] (b : BTM K V) : Prop :=
  ScalarInv b.pma ∧ SortedSlots b.pma.v ∧
  b.numLeaves = b.pma.v.length ∧
  b.tree.length = 2 * b.numLeaves - 1 ∧
  b.size = countOcc b.pma.v ∧
  countOcc b.pma.v < b.pma.v.length ∧
  treeSync b.tree b.pma.v b.numLeaves

/-- Reachability of `BTreeMap` states by the public operations. -/
inductive Reach {K V : Type} [LinearOrder K] : BTM K V → Prop
  | new : Reach BTM.new
  | insert (b : BTM K V) (key : K) (v : V) (old : Option V)
      (b' : BTM K V) : Reach b → b.insert key v = some (old, b') →
      Reach b'
  | remove (b : BTM K V) (key : K) (old : Option V) (b' : BTM K V) :
      Reach b → b.remove key = some (old, b') → Reach b'

/-! ## Correctness of `populate_changes`: target keys and node geometry -/

/-- Node id `n` with exactly `f` tree levels below it, in a complete tree
with `cap` leaves. -/
def ValidNode (cap n f : Nat) : Prop :=
  1 ≤ n ∧ cap ≤ n * 2 ^ f ∧ n * 2 ^ f < 2 * cap

/-- The key the propagation drives node `(n, f)` toward, in closed form:
the last occupied key of the slot range its subtree covers. -/
def ckL {K V : Type} (l : List (Option (K × V))) (cap n f : Nat) :
    Option K :=
  (keysOf (sliceL l (n * 2 ^ f - cap) (n * 2 ^ f - cap + 2 ^ f))).getLast?

/-- Node `(n, f)` of the key array `t` holds its target key. -/
def syncedN {K V : Type} (l : List (Option (K × V))) (cap : Nat)
    (t : List (Option K)) (n f : Nat) : Prop :=
  t.getD (n - 1) none = ckL l cap n f

theorem getD_set_ne {A : Type} (l : List A) (i j : Nat) (v d : A)
    (h : ¬(i = j)) : (l.set i v).getD j d = l.getD j d := by
  unfold List.getD
  rw [List.get?_set_ne v l h]

theorem getD_set_eq {A : Type} (l : List A) (i : Nat) (v d : A)
    (h : i < l.length) : (l.set i v).getD i d = v := by
  unfold List.getD
  rw [List.get?_set_eq_of_lt v h]
  rfl

theorem keysOf_append {K V : Type} (A B : List (Option (K × V))) :
    keysOf (A ++ B) = keysOf A ++ keysOf B := by
  rw [keysOf, keysOf, keysOf, occ_append, List.map_append]

theorem combineK_getLast {K : Type} (A B : List K) :
    (A ++ B).getLast? = combineK A.getLast? B.getLast? := by
  cases hB : B.getLast? with
  | none =>
    have hBe : B = [] := List.getLast?_eq_none_iff.mp hB
    subst hBe
    simp [combineK]
  | some k =>
    have hne : B ≠ [] := by
      intro hc
      subst hc
      simp at hB
    rw [List.getLast?_append_of_ne_nil A hne, hB, combineK]

theorem validNode_unique (cap n f f' : Nat) (h1 : ValidNode cap n f)
    (h2 : ValidNode cap n f') : f = f' := by
  obtain ⟨hn, hlo, hhi⟩ := h1
  obtain ⟨_, hlo', hhi'⟩ := h2
  have key : ∀ a b : Nat, cap ≤ n * 2 ^ a → n * 2 ^ b < 2 * cap →
      b ≤ a + 1 → True := fun _ _ _ _ _ => trivial
  have step : ∀ a b : Nat, cap ≤ n * 2 ^ a → n * 2 ^ b < 2 * cap →
      b ≤ a := by
    intro a b ha hb
    by_contra hgt
    push_neg at hgt
    have h1 : n * 2 ^ (a + 1) ≤ n * 2 ^ b :=
      Nat.mul_le_mul_left _ (Nat.pow_le_pow_right (by norm_num) (by omega))
    have h2 : n * 2 ^ (a + 1) = n * 2 ^ a * 2 := by
      rw [pow_succ]
      ring
    omega
  have hab := step f f' hlo hhi'
  have hba := step f' f hlo' hhi
  omega

theorem validNode_pow_le (cap e n f : Nat) (hcap : cap = 2 ^ e)
    (h : ValidNode cap n f) : f ≤ e := by
  obtain ⟨hn, hlo, hhi⟩ := h
  by_contra hgt
  push_neg at hgt
  have h1 : 2 ^ (e + 1) ≤ 2 ^ f :=
    Nat.pow_le_pow_right (by norm_num) (by omega)
  have h2 : 2 ^ f ≤ n * 2 ^ f := Nat.le_mul_of_pos_left _ (by omega)
  have h3 : 2 * cap = 2 ^ (e + 1) := by
    rw [hcap, pow_succ]
    ring
  omega

theorem validNode_span (cap e n f : Nat) (hcap : cap = 2 ^ e)
    (h : ValidNode cap n f) :
    n * 2 ^ f - cap + 2 ^ f ≤ cap := by
  have hfe : f ≤ e := validNode_pow_le cap e n f hcap h
  obtain ⟨hn, hlo, hhi⟩ := h
  have hal : (n * 2 ^ f) % 2 ^ f = 0 := Nat.mul_mod_left _ _
  have hdvd : 2 ^ f ∣ 2 * cap := by
    have h3 : 2 * cap = 2 ^ (e + 1) := by
      rw [hcap, pow_succ]
      ring
    rw [h3]
    exact pow_dvd_pow 2 (by omega)
  have := aligned_lt_imp_add_le (n * 2 ^ f) (2 ^ f) (2 * cap)
    (by positivity) hal hdvd hhi
  omega

theorem validNode_children (cap e n f : Nat) (hcap : cap = 2 ^ e)
    (h : ValidNode cap n (f + 1)) :
    n < cap ∧ ValidNode cap (2 * n) f ∧ ValidNode cap (2 * n + 1) f := by
  have hspan := validNode_span cap e n (f + 1) hcap h
  obtain ⟨hn, hlo, hhi⟩ := h
  have e1 : n * 2 ^ (f + 1) = 2 * n * 2 ^ f := by ring
  have e2 : (2 * n + 1) * 2 ^ f + 2 ^ f = n * 2 ^ (f + 1) + 2 ^ (f + 1)
      := by ring
  have e3 : (2 * n + 1) * 2 ^ f = n * 2 ^ (f + 1) + 2 ^ f := by ring
  have e4 : n * 2 ^ (f + 1) + 2 ^ (f + 1) ≤ 2 * cap := by
    have h5 : 2 ^ (f + 1) ≤ n * 2 ^ (f + 1) :=
      Nat.le_mul_of_pos_left _ (by omega)
    omega
  have hp : 0 < 2 ^ f := by positivity
  have hp1 : 0 < 2 ^ (f + 1) := by positivity
  have hncap : n < cap := by
    have h2 : 2 * n ≤ 2 * n * 2 ^ f := Nat.le_mul_of_pos_right _ hp
    omega
  refine ⟨hncap, ⟨by omega, by omega, by omega⟩,
    ⟨by omega, by omega, by omega⟩⟩

theorem validNode_parent (cap e n f : Nat) (hcap : cap = 2 ^ e)
    (h : ValidNode cap n f) (h2 : 2 ≤ n) : ValidNode cap (n / 2) (f + 1)
    := by
  have hfe : f ≤ e := validNode_pow_le cap e n f hcap h
  obtain ⟨hn, hlo, hhi⟩ := h
  have hg1 : 2 ^ (e - f) ≤ n := by
    by_contra hc
    push_neg at hc
    have h1 : n * 2 ^ f + 2 ^ f ≤ 2 ^ (e - f) * 2 ^ f := by
      have := Nat.mul_le_mul_right (2 ^ f) (show n + 1 ≤ 2 ^ (e - f) by
        omega)
      rw [Nat.add_mul, one_mul] at this
      exact this
    have h2 : 2 ^ (e - f) * 2 ^ f = 2 ^ e := by
      rw [← pow_add]
      congr 1
      omega
    have h3 : 0 < 2 ^ f := by positivity
    omega
  have hg2 : n < 2 ^ (e - f + 1) := by
    by_contra hc
    push_neg at hc
    have h1 : 2 ^ (e - f + 1) * 2 ^ f ≤ n * 2 ^ f :=
      Nat.mul_le_mul_right _ hc
    have h2 : 2 ^ (e - f + 1) * 2 ^ f = 2 * 2 ^ e := by
      rw [← pow_add]
      rw [hcap] at hlo hhi
      rw [show e - f + 1 + f = e + 1 by omega, pow_succ]
      ring
    rw [hcap] at hhi
    omega
  have hef1 : 1 ≤ e - f := by
    by_contra hc
    push_neg at hc
    interval_cases h : e - f
    · simp at hg2
      omega
  have hd1 : 2 ^ (e - f - 1) ≤ n / 2 := by
    have h1 : 2 ^ (e - f - 1) * 2 ≤ n := by
      have e5 : 2 ^ (e - f - 1) * 2 = 2 ^ (e - f) := by
        rw [← pow_succ]
        congr 1
        omega
      omega
    omega
  have hd2 : n / 2 < 2 ^ (e - f) := by
    have h1 : n < 2 ^ (e - f) * 2 := by
      have e5 : 2 ^ (e - f) * 2 = 2 ^ (e - f + 1) := by
        rw [← pow_succ]
      omega
    omega
  refine ⟨by omega, ?_, ?_⟩
  · have h1 : 2 ^ (e - f - 1) * 2 ^ (f + 1) ≤ n / 2 * 2 ^ (f + 1) :=
      Nat.mul_le_mul_right _ hd1
    have h2 : 2 ^ (e - f - 1) * 2 ^ (f + 1) = 2 ^ e := by
      rw [← pow_add]
      congr 1
      omega
    rw [hcap]
    omega
  · have h1 : n / 2 * 2 ^ (f + 1) + 2 ^ (f + 1) ≤ 2 ^ (e - f) * 2 ^ (f + 1)
        := by
      have := Nat.mul_le_mul_right (2 ^ (f + 1))
        (show n / 2 + 1 ≤ 2 ^ (e - f) by omega)
      rw [Nat.add_mul, one_mul] at this
      exact this
    have h2 : 2 ^ (e - f) * 2 ^ (f + 1) = 2 * cap := by
      rw [← pow_add, hcap, show e - f + (f + 1) = e + 1 by omega, pow_succ]
      ring
    have h3 : 0 < 2 ^ (f + 1) := by positivity
    omega

theorem ckL_leaf {K V : Type} (l : List (Option (K × V))) (cap n : Nat)
    (hlen : l.length = cap) (h : ValidNode cap n 0) :
    ckL l cap n 0 = (slotGet l (n - cap)).map Prod.fst := by
  obtain ⟨hn, hlo, hhi⟩ := h
  simp only [pow_zero, Nat.mul_one] at hlo hhi
  have hidx : n - cap < l.length := by omega
  have hd : l.drop (n - cap) = l.getD (n - cap) none :: l.drop (n - cap + 1)
      := by
    rw [List.getD_eq_getElem l _ hidx]
    exact List.drop_eq_getElem_cons hidx
  have hslice : sliceL l (n - cap) (n - cap + 1) = [l.getD (n - cap) none]
      := by
    rw [sliceL]
    have e : n - cap + 1 - (n - cap) = 1 := by omega
    rw [e, hd]
    rfl
  rw [ckL]
  simp only [pow_zero, Nat.mul_one]
  rw [hslice]
  rw [slotGet]
  cases l.getD (n - cap) none with
  | none => simp [keysOf]
  | some kv => simp [keysOf]

theorem ckL_split {K V : Type} (l : List (Option (K × V))) (cap e n f : Nat)
    (hcap : cap = 2 ^ e) (hlen : l.length = cap)
    (h : ValidNode cap n (f + 1)) :
    ckL l cap n (f + 1) =
      combineK (ckL l cap (2 * n) f) (ckL l cap (2 * n + 1) f) := by
  have hspan := validNode_span cap e n (f + 1) hcap h
  obtain ⟨hncap, hL, hR⟩ := validNode_children cap e n f hcap h
  obtain ⟨hn, hlo, hhi⟩ := h
  have e0 : 2 * n * 2 ^ f = n * 2 ^ (f + 1) := by ring
  have e1 : (2 * n + 1) * 2 ^ f = n * 2 ^ (f + 1) + 2 ^ f := by ring
  have e2 : n * 2 ^ (f + 1) = n * 2 ^ (f + 1) - cap + cap := by omega
  have hp : 0 < 2 ^ f := by positivity
  rw [ckL, ckL, ckL, e0, e1]
  have eL : 2 ^ (f + 1) = 2 ^ f + 2 ^ f := by
    rw [pow_succ]
    omega
  have g1 : n * 2 ^ (f + 1) + 2 ^ f - cap = n * 2 ^ (f + 1) - cap + 2 ^ f
      := by omega
  rw [g1]
  have hsplit := sliceL_split l (n * 2 ^ (f + 1) - cap)
    (n * 2 ^ (f + 1) - cap + 2 ^ f) (n * 2 ^ (f + 1) - cap + 2 ^ (f + 1))
    (by omega) (by omega)
  have g2 : n * 2 ^ (f + 1) - cap + 2 ^ f + 2 ^ f =
      n * 2 ^ (f + 1) - cap + 2 ^ (f + 1) := by omega
  rw [g2]
  rw [hsplit, keysOf_append, combineK_getLast]

theorem codeKeyF_eq_ckL {K V : Type} (l : List (Option (K × V)))
    (cap e : Nat) (hcap : cap = 2 ^ e) (hlen : l.length = cap) :
    ∀ f n, ValidNode cap n f → codeKeyF l cap f n = ckL l cap n f := by
  intro f
  induction f with
  | zero =>
    intro n h
    rw [codeKeyF, ckL_leaf l cap n hlen h]
  | succ f ih =>
    intro n h
    obtain ⟨hncap, hvL, hvR⟩ := validNode_children cap e n f hcap h
    rw [codeKeyF, if_neg (by omega : ¬ cap ≤ n)]
    rw [ih _ hvL, ih _ hvR, ckL_split l cap e n f hcap hlen h]

/-! ## The propagation-loop invariant -/

/-- Mid-loop invariant of the `populate_changes` propagation: the pending
queue splits into a run `P` of nodes with `f0 + 1` levels below and a run
`Q` of their parents' level; everything strictly below `P`'s level is
already synced, an off-queue node of `P`'s level is synced, an off-queue
unsynced node of `Q`'s level has an unsynced child in `P`, and every
unsynced node above has an unsynced child. -/
def Frame {K V : Type} (l : List (Option (K × V))) (cap : Nat)
    (t : List (Option K)) (P Q : List Nat) (f0 : Nat) : Prop :=
  (∀ n ∈ P, ValidNode cap n (f0 + 1)) ∧
  (∀ n ∈ Q, ValidNode cap n (f0 + 2)) ∧
  (∀ n f, ValidNode cap n f → f ≤ f0 → syncedN l cap t n f) ∧
  (∀ n, ValidNode cap n (f0 + 1) → n ∉ P → syncedN l cap t n (f0 + 1)) ∧
  (∀ m, ValidNode cap m (f0 + 2) → m ∉ Q → ¬syncedN l cap t m (f0 + 2) →
    ∃ c ∈ P, (c = 2 * m ∨ c = 2 * m + 1) ∧ ¬syncedN l cap t c (f0 + 1)) ∧
  (∀ m f, ValidNode cap m f → f0 + 3 ≤ f → ¬syncedN l cap t m f →
    ∃ c, (c = 2 * m ∨ c = 2 * m + 1) ∧ ¬syncedN l cap t c (f - 1))

theorem frame_shift {K V : Type} (l : List (Option (K × V))) (cap e : Nat)
    (hcap : cap = 2 ^ e) (t : List (Option K)) (Q : List Nat) (f0 : Nat)
    (h : Frame l cap t [] Q f0) : Frame l cap t Q [] (f0 + 1) := by
  obtain ⟨hP, hQ, hdeep, hlayer, hnext, habove⟩ := h
  have hsync2 : ∀ n, ValidNode cap n (f0 + 2) → n ∉ Q →
      syncedN l cap t n (f0 + 2) := by
    intro n hv hni
    by_contra hns
    obtain ⟨c, hc, _, _⟩ := hnext n hv hni hns
    simp at hc
  refine ⟨hQ, by simp, ?_, ?_, ?_, ?_⟩
  · intro n f hv hf
    rcases Nat.lt_or_ge f (f0 + 1) with hlt | hge
    · exact hdeep n f hv (by omega)
    · have hfe : f = f0 + 1 := by omega
      subst hfe
      exact hlayer n hv (by simp)
  · intro n hv hni
    exact hsync2 n hv hni
  · intro m hv _ hns
    have hv3 : ValidNode cap m (f0 + 3) := by
      have e1 : f0 + 1 + 2 = f0 + 3 := by omega
      rwa [e1] at hv
    have hns3 : ¬syncedN l cap t m (f0 + 3) := by
      have e1 : f0 + 1 + 2 = f0 + 3 := by omega
      rwa [e1] at hns
    obtain ⟨c, hcc, hcns⟩ := habove m (f0 + 3) hv3 (by omega) hns3
    have hcns2 : ¬syncedN l cap t c (f0 + 2) := by
      have e1 : f0 + 3 - 1 = f0 + 2 := by omega
      rwa [e1] at hcns
    have hvc : ValidNode cap c (f0 + 2) := by
      have hch := validNode_children cap e m (f0 + 2) hcap hv3
      rcases hcc with rfl | rfl
      · exact hch.2.1
      · exact hch.2.2
    have hcQ : c ∈ Q := by
      by_contra hno
      exact hcns2 (hsync2 c hvc hno)
    exact ⟨c, hcQ, hcc, hcns2⟩
  · intro m f hv hf hns
    exact habove m f hv (by omega) hns

theorem frame_allSynced {K V : Type} (l : List (Option (K × V)))
    (cap e : Nat) (hcap : cap = 2 ^ e) (t : List (Option K)) (f0 : Nat)
    (h : Frame l cap t [] [] f0) :
    ∀ n f, ValidNode cap n f → syncedN l cap t n f := by
  obtain ⟨hP, hQ, hdeep, hlayer, hnext, habove⟩ := h
  have hstep : ∀ g n f, ValidNode cap n f → f ≤ f0 + 2 + g →
      syncedN l cap t n f := by
    intro g
    induction g with
    | zero =>
      intro n f hv hf
      rcases Nat.lt_or_ge f (f0 + 1) with hlt | hge
      · exact hdeep n f hv (by omega)
      · rcases Nat.lt_or_ge f (f0 + 2) with hlt2 | hge2
        · have hfe : f = f0 + 1 := by omega
          subst hfe
          exact hlayer n hv (by simp)
        · have hfe : f = f0 + 2 := by omega
          subst hfe
          by_contra hns
          obtain ⟨c, hc, _, _⟩ := hnext n hv (by simp) hns
          simp at hc
    | succ g ih =>
      intro n f hv hf
      rcases Nat.lt_or_ge f (f0 + 3 + g) with hlt | hge
      · exact ih n f hv (by omega)
      · have hfe : f = f0 + 3 + g := by omega
        by_contra hns
        obtain ⟨c, hcc, hcns⟩ := habove n f hv (by omega) hns
        have hf1 : f = (f - 1) + 1 := by omega
        have hvch := validNode_children cap e n (f - 1) hcap (hf1 ▸ hv)
        have hvc : ValidNode cap c (f - 1) := by
          rcases hcc with rfl | rfl
          · exact hvch.2.1
          · exact hvch.2.2
        exact hcns (ih c (f - 1) hvc (by omega))
  intro n f hv
  exact hstep f n f hv (by omega)

theorem frame_step {K V : Type} (l : List (Option (K × V))) (cap e : Nat)
    (hcap : cap = 2 ^ e) (hlen : l.length = cap) (t : List (Option K))
    (htlen : t.length = 2 * cap - 1) (n : Nat) (P Q : List Nat) (f0 : Nat)
    (hfr : Frame l cap t (n :: P) Q f0) :
    combineK (t.getD (2 * n - 1) none) (t.getD (2 * n) none) =
      ckL l cap n (f0 + 1) ∧
    ((¬(t.getD (n - 1) none =
        combineK (t.getD (2 * n - 1) none) (t.getD (2 * n) none)) ∧
      ¬(n = 1) ∧ ¬((((n :: (P ++ Q)).getLast?).getD n) = n / 2)) →
      Frame l cap (t.set (n - 1) (combineK (t.getD (2 * n - 1) none)
        (t.getD (2 * n) none))) P (Q ++ [n / 2]) f0) ∧
    (¬(¬(t.getD (n - 1) none =
        combineK (t.getD (2 * n - 1) none) (t.getD (2 * n) none)) ∧
      ¬(n = 1) ∧ ¬((((n :: (P ++ Q)).getLast?).getD n) = n / 2)) →
      Frame l cap (t.set (n - 1) (combineK (t.getD (2 * n - 1) none)
        (t.getD (2 * n) none))) P Q f0) := by
  obtain ⟨hP, hQ, hdeep, hlayer, hnext, habove⟩ := hfr
  have hcap1 : 1 ≤ cap := by rw [hcap]; exact Nat.one_le_two_pow
  have hvn : ValidNode cap n (f0 + 1) := hP n (List.mem_cons_self n _)
  obtain ⟨hncap, hvL, hvR⟩ := validNode_children cap e n f0 hcap hvn
  have hn1 : 1 ≤ n := hvn.1
  have hsL : syncedN l cap t (2 * n) f0 := hdeep _ _ hvL (le_refl f0)
  have hsR : syncedN l cap t (2 * n + 1) f0 := hdeep _ _ hvR (le_refl f0)
  have hIN : combineK (t.getD (2 * n - 1) none) (t.getD (2 * n) none) =
      ckL l cap n (f0 + 1) := by
    rw [ckL_split l cap e n f0 hcap hlen hvn]
    rw [syncedN] at hsL hsR
    rw [hsL]
    rw [show t.getD (2 * n) none = ckL l cap (2 * n + 1) f0 from hsR]
  have hsyn' : syncedN l cap (t.set (n - 1)
      (combineK (t.getD (2 * n - 1) none) (t.getD (2 * n) none)))
      n (f0 + 1) := by
    rw [syncedN, getD_set_eq _ _ _ _ (by omega : n - 1 < t.length), hIN]
  have hkeepS : ∀ m f, 1 ≤ m → ¬(m = n) →
      (syncedN l cap (t.set (n - 1)
        (combineK (t.getD (2 * n - 1) none) (t.getD (2 * n) none))) m f ↔
       syncedN l cap t m f) := by
    intro m f hm hne
    rw [syncedN, syncedN, getD_set_ne _ _ _ _ _ (by omega)]
  have huni : ∀ m f, ValidNode cap m f → ¬(f = f0 + 1) → ¬(m = n) := by
    intro m f hv hne heq
    subst heq
    exact hne (validNode_unique cap m f (f0 + 1) hv hvn)
  refine ⟨hIN, ?_, ?_⟩
  · rintro ⟨hchg, hne1, hlast⟩
    have hn2 : 2 ≤ n := by omega
    refine ⟨?_, ?_, ?_, ?_, ?_, ?_⟩
    · intro x hx
      exact hP x (List.mem_cons_of_mem _ hx)
    · intro x hx
      rcases List.mem_append.mp hx with hx | hx
      · exact hQ x hx
      · have hxv : x = n / 2 := by simpa using hx
        subst hxv
        exact validNode_parent cap e n (f0 + 1) hcap hvn hn2
    · intro m f hv hf
      rw [hkeepS m f hv.1 (huni m f hv (by omega))]
      exact hdeep m f hv hf
    · intro m hv hm
      by_cases hmn : m = n
      · subst hmn
        exact hsyn'
      · rw [hkeepS m _ hv.1 hmn]
        refine hlayer m hv ?_
        intro hc
        rcases List.mem_cons.mp hc with h | h
        · exact hmn h
        · exact hm h
    · intro m hv hmQ hns
      have hmn : ¬(m = n) := huni m (f0 + 2) hv (by omega)
      rw [hkeepS m _ hv.1 hmn] at hns
      have hmQ' : m ∉ Q := fun hc => hmQ (List.mem_append.mpr (Or.inl hc))
      have hm2 : ¬(m = n / 2) := by
        intro hc
        exact hmQ (List.mem_append.mpr (Or.inr (by simp [hc])))
      obtain ⟨c, hcP, hcch, hcns⟩ := hnext m hv hmQ' hns
      have hcn : ¬(c = n) := by
        intro hceq
        apply hm2
        rcases hcch with h | h <;> omega
      have hcP' : c ∈ P := by
        rcases List.mem_cons.mp hcP with h | h
        · exact absurd h hcn
        · exact h
      have hvc : ValidNode cap c (f0 + 1) := hP c hcP
      refine ⟨c, hcP', hcch, ?_⟩
      rw [hkeepS c _ hvc.1 hcn]
      exact hcns
    · intro m f hv hf hns
      have hmn : ¬(m = n) := huni m f hv (by omega)
      rw [hkeepS m _ hv.1 hmn] at hns
      obtain ⟨c, hcch, hcns⟩ := habove m f hv hf hns
      have hf1 : f = (f - 1) + 1 := by omega
      have hvch := validNode_children cap e m (f - 1) hcap (hf1 ▸ hv)
      have hvc : ValidNode cap c (f - 1) := by
        rcases hcch with rfl | rfl
        · exact hvch.2.1
        · exact hvch.2.2
      have hcn : ¬(c = n) := huni c (f - 1) hvc (by omega)
      refine ⟨c, hcch, ?_⟩
      rw [hkeepS c _ hvc.1 hcn]
      exact hcns
  · intro hnp
    refine ⟨?_, hQ, ?_, ?_, ?_, ?_⟩
    · intro x hx
      exact hP x (List.mem_cons_of_mem _ hx)
    · intro m f hv hf
      rw [hkeepS m f hv.1 (huni m f hv (by omega))]
      exact hdeep m f hv hf
    · intro m hv hm
      by_cases hmn : m = n
      · subst hmn
        exact hsyn'
      · rw [hkeepS m _ hv.1 hmn]
        refine hlayer m hv ?_
        intro hc
        rcases List.mem_cons.mp hc with h | h
        · exact hmn h
        · exact hm h
    · intro m hv hmQ hns
      have hmn : ¬(m = n) := huni m (f0 + 2) hv (by omega)
      rw [hkeepS m _ hv.1 hmn] at hns
      obtain ⟨c, hcP, hcch, hcns⟩ := hnext m hv hmQ hns
      by_cases hcn : c = n
      · -- the processed node itself is the changed child: the push must
        -- have been suppressed because the parent is already the last
        -- queue element, which puts it in `Q` — contradiction
        exfalso
        subst hcn
        have hm1 : 1 ≤ m := hv.1
        have hm2 : m = c / 2 := by
          rcases hcch with h | h <;> omega
        have hc2 : 2 ≤ c := by
          rcases hcch with h | h <;> omega
        have hchg : ¬(t.getD (c - 1) none =
            combineK (t.getD (2 * c - 1) none) (t.getD (2 * c) none)) := by
          rw [hIN]
          exact hcns
        have hlast : (((c :: (P ++ Q)).getLast?).getD c) = c / 2 := by
          by_contra hlc
          exact hnp ⟨hchg, by omega, hlc⟩
        cases hPQ : P ++ Q with
        | nil =>
          rw [hPQ] at hlast
          simp at hlast
          omega
        | cons y ys =>
          have hne : P ++ Q ≠ [] := by rw [hPQ]; simp
          have hgl : (c :: (P ++ Q)).getLast? = (P ++ Q).getLast? := by
            rw [show c :: (P ++ Q) = [c] ++ (P ++ Q) from rfl]
            exact List.getLast?_append_of_ne_nil [c] hne
          obtain ⟨x, hx⟩ : ∃ x, (P ++ Q).getLast? = some x := by
            cases hg : (P ++ Q).getLast? with
            | none => exact absurd (List.getLast?_eq_none_iff.mp hg) hne
            | some x => exact ⟨x, rfl⟩
          have hxm : x = c / 2 := by
            rw [hgl, hx] at hlast
            simpa using hlast
          have hxmem : x ∈ P ++ Q := List.mem_of_mem_getLast? hx
          rcases List.mem_append.mp hxmem with hxP | hxQ
          · have hvx : ValidNode cap x (f0 + 1) :=
              hP x (List.mem_cons_of_mem _ hxP)
            have : f0 + 1 = f0 + 2 := by
              apply validNode_unique cap x _ _ hvx
              rw [hxm, ← hm2]
              exact hv
            omega
          · apply hmQ
            rw [hm2, ← hxm]
            exact hxQ
      · have hcP' : c ∈ P := by
          rcases List.mem_cons.mp hcP with h | h
          · exact absurd h hcn
          · exact h
        have hvc : ValidNode cap c (f0 + 1) := hP c hcP
        refine ⟨c, hcP', hcch, ?_⟩
        rw [hkeepS c _ hvc.1 hcn]
        exact hcns
    · intro m f hv hf hns
      have hmn : ¬(m = n) := huni m f hv (by omega)
      rw [hkeepS m _ hv.1 hmn] at hns
      obtain ⟨c, hcch, hcns⟩ := habove m f hv hf hns
      have hf1 : f = (f - 1) + 1 := by omega
      have hvch := validNode_children cap e m (f - 1) hcap (hf1 ▸ hv)
      have hvc : ValidNode cap c (f - 1) := by
        rcases hcch with rfl | rfl
        · exact hvch.2.1
        · exact hvch.2.2
      have hcn : ¬(c = n) := huni c (f - 1) hvc (by omega)
      refine ⟨c, hcch, ?_⟩
      rw [hkeepS c _ hvc.1 hcn]
      exact hcns

/-- The propagation loop of `populate_changes` terminates within the fuel
budget and leaves every tree node at its target key. -/
theorem popLoop_master {K V : Type} [DecidableEq K]
    (l : List (Option (K × V))) (cap e : Nat) (hcap : cap = 2 ^ e)
    (hlen : l.length = cap) :
    ∀ (fuel : Nat) (t : List (Option K)) (pending : List Nat),
      t.length = 2 * cap - 1 →
      2 * pending.sum + pending.length < fuel →
      (∃ P Q f0, pending = P ++ Q ∧ Frame l cap t P Q f0) →
      ∃ t', popLoopF cap fuel t pending = some t' ∧
        t'.length = 2 * cap - 1 ∧
        ∀ n f, ValidNode cap n f → syncedN l cap t' n f := by
  intro fuel
  induction fuel with
  | zero =>
    intro t pending _ hfuel _
    omega
  | succ fuel ih =>
    intro t pending htlen hfuel hframe
    obtain ⟨P, Q, f0, hPQ, hfr⟩ := hframe
    cases pending with
    | nil =>
      refine ⟨t, rfl, htlen, ?_⟩
      obtain ⟨hP0, hQ0⟩ := List.append_eq_nil.mp hPQ.symm
      rw [hP0, hQ0] at hfr
      exact frame_allSynced l cap e hcap t f0 hfr
    | cons n rest =>
      obtain ⟨P1, Q1, f1, hrest, hfr1⟩ : ∃ P1 Q1 f1,
          rest = P1 ++ Q1 ∧ Frame l cap t (n :: P1) Q1 f1 := by
        cases P with
        | nil =>
          have hQe : Q = n :: rest := by simpa using hPQ.symm
          have hfr2 := frame_shift l cap e hcap t Q f0 hfr
          rw [hQe] at hfr2
          exact ⟨rest, [], f0 + 1, by simp, hfr2⟩
        | cons p P' =>
          have hinj : p = n ∧ P' ++ Q = rest := by
            have := hPQ
            simp only [List.cons_append, List.cons.injEq] at this
            exact ⟨this.1.symm, this.2.symm⟩
          obtain ⟨rfl, hre⟩ := hinj
          exact ⟨P', Q, f0, hre.symm, hfr⟩
      have hvn : ValidNode cap n (f1 + 1) :=
        hfr1.1 n (List.mem_cons_self n _)
      obtain ⟨hncap, hvL, hvR⟩ := validNode_children cap e n f1 hcap hvn
      have hguard : ¬(n = 0 ∨ cap ≤ n) := by
        have := hvn.1
        omega
      obtain ⟨hIN, hpushF, hnpF⟩ := frame_step l cap e hcap hlen t htlen
        n P1 Q1 f1 hfr1
      by_cases hpush : ¬(t.getD (n - 1) none =
          combineK (t.getD (2 * n - 1) none) (t.getD (2 * n) none)) ∧
          ¬(n = 1) ∧ ¬((((n :: rest).getLast?).getD n) = n / 2)
      · have hstep : popLoopF cap (fuel + 1) t (n :: rest) =
            popLoopF cap fuel (t.set (n - 1)
              (combineK (t.getD (2 * n - 1) none) (t.getD (2 * n) none)))
              (rest ++ [n / 2]) := by
          simp only [popLoopF]
          rw [if_neg hguard, if_pos hpush]
        rw [hstep]
        refine ih _ _ ?_ ?_ ?_
        · rw [List.length_set]
          exact htlen
        · have hn2 : 2 ≤ n := by
            have := hvn.1
            rcases hpush with ⟨_, h1, _⟩
            omega
          simp only [List.sum_cons, List.length_cons, List.sum_append,
            List.length_append, List.sum_cons, List.sum_nil,
            List.length_cons, List.length_nil] at hfuel ⊢
          omega
        · refine ⟨P1, Q1 ++ [n / 2], f1, ?_, ?_⟩
          · rw [hrest, List.append_assoc]
          · apply hpushF
            rw [← hrest]
            exact hpush
      · have hstep : popLoopF cap (fuel + 1) t (n :: rest) =
            popLoopF cap fuel (t.set (n - 1)
              (combineK (t.getD (2 * n - 1) none) (t.getD (2 * n) none)))
              rest := by
          simp only [popLoopF]
          rw [if_neg hguard, if_neg hpush]
        rw [hstep]
        refine ih _ _ ?_ ?_ ?_
        · rw [List.length_set]
          exact htlen
        · have hn1 : 1 ≤ n := hvn.1
          simp only [List.sum_cons, List.length_cons] at hfuel
          omega
        · refine ⟨P1, Q1, f1, hrest, ?_⟩
          apply hnpF
          rw [← hrest]
          exact hpush

/-- Target keys depend only on the slots the subtree covers. -/
theorem ckL_congr {K V : Type} (l1 l0 : List (Option (K × V)))
    (cap e : Nat) (hcap : cap = 2 ^ e) (hlen1 : l1.length = cap)
    (hlen0 : l0.length = cap) :
    ∀ f n, ValidNode cap n f →
      (∀ j, n * 2 ^ f - cap ≤ j → j < n * 2 ^ f - cap + 2 ^ f →
        slotGet l1 j = slotGet l0 j) →
      ckL l1 cap n f = ckL l0 cap n f := by
  intro f
  induction f with
  | zero =>
    intro n hv hagree
    rw [ckL_leaf l1 cap n hlen1 hv, ckL_leaf l0 cap n hlen0 hv]
    have h := hagree (n - cap) (by simp) (by simp)
    rw [h]
  | succ f ih =>
    intro n hv hagree
    obtain ⟨hncap, hvL, hvR⟩ := validNode_children cap e n f hcap hv
    rw [ckL_split l1 cap e n f hcap hlen1 hv,
      ckL_split l0 cap e n f hcap hlen0 hv]
    have hlo : cap ≤ n * 2 ^ (f + 1) := hv.2.1
    have e0 : 2 * n * 2 ^ f = n * 2 ^ (f + 1) := by ring
    have e1 : (2 * n + 1) * 2 ^ f = n * 2 ^ (f + 1) + 2 ^ f := by ring
    have e2 : 2 ^ (f + 1) = 2 ^ f + 2 ^ f := by
      rw [pow_succ]
      omega
    have hL := ih (2 * n) hvL (by
      intro j hj1 hj2
      refine hagree j (by omega) (by omega))
    have hR := ih (2 * n + 1) hvR (by
      intro j hj1 hj2
      refine hagree j (by omega) (by omega))
    rw [hL, hR]

/-- Effect of the leaf phase of `populate_changes`: leaf keys in the range
are written from the slots, nothing else moves, and the queue gains exactly
the parents of the range's leaves. -/
theorem leafPhaseF_spec {K V : Type} (l : List (Option (K × V))) (cap : Nat)
    (hcap1 : 1 ≤ cap) :
    ∀ (c i : Nat) (t : List (Option K)) (q : List Nat),
      cap + i + c ≤ t.length + 1 →
      ((leafPhaseF l cap c i t q).1.length = t.length ∧
       (∀ j, i ≤ j → j < i + c →
         (leafPhaseF l cap c i t q).1.getD (cap + j - 1) none =
           (slotGet l j).map Prod.fst) ∧
       (∀ p, (∀ j, i ≤ j → j < i + c → ¬(p = cap + j - 1)) →
         (leafPhaseF l cap c i t q).1.getD p none = t.getD p none) ∧
       (∀ x, x ∈ (leafPhaseF l cap c i t q).2 ↔ x ∈ q ∨
         ∃ j, i ≤ j ∧ j < i + c ∧ 2 ≤ cap + j ∧ x = (cap + j) / 2)) := by
  intro c
  induction c with
  | zero =>
    intro i t q hb
    refine ⟨rfl, by omega, fun p _ => rfl, ?_⟩
    intro x
    simp only [leafPhaseF]
    constructor
    · intro h
      exact Or.inl h
    · intro h
      rcases h with h | h
      · exact h
      · omega
  | succ c ih =>
    intro i t q hb
    have hstep : leafPhaseF l cap (c + 1) i t q =
        leafPhaseF l cap c (i + 1)
          (t.set (cap + i - 1) ((slotGet l i).map Prod.fst))
          (if 2 ≤ cap + i ∧ ¬(q.getLast? = some ((cap + i) / 2)) then
            q ++ [(cap + i) / 2] else q) := by
      simp only [leafPhaseF]
    rw [hstep]
    obtain ⟨ih1, ih2, ih3, ih4⟩ := ih (i + 1)
      (t.set (cap + i - 1) ((slotGet l i).map Prod.fst))
      (if 2 ≤ cap + i ∧ ¬(q.getLast? = some ((cap + i) / 2)) then
        q ++ [(cap + i) / 2] else q)
      (by rw [List.length_set]; omega)
    refine ⟨by rw [ih1, List.length_set], ?_, ?_, ?_⟩
    · intro j hj1 hj2
      by_cases hji : j = i
      · subst hji
        rw [ih3 (cap + j - 1) (by intro j' h1 h2; omega)]
        exact getD_set_eq _ _ _ _ (by omega)
      · exact ih2 j (by omega) (by omega)
    · intro p hp
      rw [ih3 p (by intro j h1 h2; exact hp j (by omega) (by omega))]
      exact getD_set_ne _ _ _ _ _ (by
        have := hp i (le_refl i) (by omega)
        omega)
    · intro x
      rw [ih4 x]
      by_cases hpush : 2 ≤ cap + i ∧ ¬(q.getLast? = some ((cap + i) / 2))
      · rw [if_pos hpush]
        constructor
        · intro h
          rcases h with h | h
          · rcases List.mem_append.mp h with h | h
            · exact Or.inl h
            · have hx : x = (cap + i) / 2 := by simpa using h
              exact Or.inr ⟨i, by omega, by omega, hpush.1, hx⟩
          · obtain ⟨j, h1, h2, h3, h4⟩ := h
            exact Or.inr ⟨j, by omega, by omega, h3, h4⟩
        · intro h
          rcases h with h | h
          · exact Or.inl (List.mem_append.mpr (Or.inl h))
          · obtain ⟨j, h1, h2, h3, h4⟩ := h
            by_cases hji : j = i
            · subst hji
              exact Or.inl (List.mem_append.mpr (Or.inr (by simp [h4])))
            · exact Or.inr ⟨j, by omega, by omega, h3, h4⟩
      · rw [if_neg hpush]
        constructor
        · intro h
          rcases h with h | h
          · exact Or.inl h
          · obtain ⟨j, h1, h2, h3, h4⟩ := h
            exact Or.inr ⟨j, by omega, by omega, h3, h4⟩
        · intro h
          rcases h with h | h
          · exact Or.inl h
          · obtain ⟨j, h1, h2, h3, h4⟩ := h
            by_cases hji : j = i
            · subst hji
              -- the push was suppressed: either the leaf is the root
              -- (no parent) or the parent is already the queue's last
              rcases Decidable.em (2 ≤ cap + j) with h2c | h2c
              · have hlast : q.getLast? = some ((cap + j) / 2) := by
                  by_contra hc
                  exact hpush ⟨h2c, hc⟩
                have : (cap + j) / 2 ∈ q := List.mem_of_mem_getLast? hlast
                exact Or.inl (h4 ▸ this)
              · omega
            · exact Or.inr ⟨j, by omega, by omega, h3, h4⟩

/-- After the leaf phase, the propagation-loop invariant holds with the
queued parents as the active run. -/
theorem populate_initial_frame {K V : Type} (l0 l1 : List (Option (K × V)))
    (t : List (Option K)) (cap e lo hi : Nat)
    (hcap : cap = 2 ^ e) (hlen0 : l0.length = cap)
    (hlen1 : l1.length = cap) (htlen : t.length = 2 * cap - 1)
    (hold : ∀ n f, ValidNode cap n f → syncedN l0 cap t n f)
    (hagree : ∀ j, j < lo ∨ hi ≤ j → slotGet l1 j = slotGet l0 j)
    (hlohi : lo ≤ hi) (hhicap : hi ≤ cap) :
    (leafPhaseF l1 cap (hi - lo) lo t []).1.length = 2 * cap - 1 ∧
    Frame l1 cap (leafPhaseF l1 cap (hi - lo) lo t []).1
      (leafPhaseF l1 cap (hi - lo) lo t []).2 [] 0 := by
  have hcap1 : 1 ≤ cap := by rw [hcap]; exact Nat.one_le_two_pow
  obtain ⟨h1, h2, h3, h4⟩ := leafPhaseF_spec l1 cap hcap1 (hi - lo) lo t []
    (by omega)
  obtain ⟨t1, q1, hr⟩ : ∃ a b, leafPhaseF l1 cap (hi - lo) lo t [] = (a, b)
    := ⟨_, _, rfl⟩
  rw [hr] at h1 h2 h3 h4 ⊢
  dsimp only at h1 h2 h3 h4 ⊢
  have hq : ∀ x, x ∈ q1 ↔ ∃ j, lo ≤ j ∧ j < hi ∧ 2 ≤ cap + j ∧
      x = (cap + j) / 2 := by
    intro x
    rw [h4 x]
    constructor
    · intro h
      rcases h with h | h
      · simp at h
      · obtain ⟨j, ha, hb, hc, hd⟩ := h
        exact ⟨j, ha, by omega, hc, hd⟩
    · intro h
      obtain ⟨j, ha, hb, hc, hd⟩ := h
      exact Or.inr ⟨j, ha, by omega, hc, hd⟩
  have hwrite : ∀ j, lo ≤ j → j < hi →
      t1.getD (cap + j - 1) none = (slotGet l1 j).map Prod.fst := by
    intro j ha hb
    exact h2 j ha (by omega)
  have huntouch : ∀ p, (p + 1 < cap ∨
      (∃ j, p = cap + j - 1 ∧ (j < lo ∨ hi ≤ j))) →
      t1.getD p none = t.getD p none := by
    intro p hp
    refine h3 p ?_
    intro j hja hjb heq
    rcases hp with hlt | ⟨jp, hjp, hout⟩
    · omega
    · have : jp = j := by omega
      omega
  have hintval : ∀ n f, ValidNode cap n f → 1 ≤ f →
      t1.getD (n - 1) none = ckL l0 cap n f := by
    intro n f hv hf
    have hncap : n < cap := by
      obtain ⟨hn, hlo2, hhi2⟩ := hv
      have h5 : n * 2 ≤ n * 2 ^ f := by
        have := Nat.pow_le_pow_right (show 1 ≤ 2 by norm_num) hf
        exact Nat.mul_le_mul_left n (by simpa using this)
      omega
    have hn1 := hv.1
    rw [huntouch (n - 1) (Or.inl (by omega))]
    exact hold n f hv
  have hleafS : ∀ n, ValidNode cap n 0 → syncedN l1 cap t1 n 0 := by
    intro n hv
    have hb := hv.2.1
    have hlt := hv.2.2
    simp only [pow_zero, Nat.mul_one] at hb hlt
    have hn : n = cap + (n - cap) := by omega
    rw [syncedN, ckL_leaf l1 cap n hlen1 hv]
    by_cases hin : lo ≤ n - cap ∧ n - cap < hi
    · have := hwrite (n - cap) hin.1 hin.2
      rw [show n - 1 = cap + (n - cap) - 1 by omega]
      exact this
    · have hout : n - cap < lo ∨ hi ≤ n - cap := by omega
      rw [huntouch (n - 1) (Or.inr ⟨n - cap, by omega, hout⟩)]
      have h5 := hold n 0 hv
      rw [syncedN, ckL_leaf l0 cap n hlen0 hv] at h5
      rw [h5, hagree (n - cap) hout]
  have hsameCk : ∀ n, ValidNode cap n 1 → n ∉ q1 →
      ckL l1 cap n 1 = ckL l0 cap n 1 := by
    intro n hv hni
    have hb := hv.2.1
    have hlt := hv.2.2
    have e1 : n * 2 ^ 1 = 2 * n := by ring
    rw [e1] at hb hlt
    refine ckL_congr l1 l0 cap e hcap hlen1 hlen0 1 n hv ?_
    intro j hj1 hj2
    rw [e1] at hj1 hj2
    have hp2 : (2 : Nat) ^ 1 = 2 := by norm_num
    rw [hp2] at hj2
    refine hagree j ?_
    by_contra hc
    push_neg at hc
    apply hni
    rw [hq]
    refine ⟨j, hc.1, hc.2, by omega, ?_⟩
    omega
  have hlayerS : ∀ n, ValidNode cap n 1 → n ∉ q1 →
      syncedN l1 cap t1 n 1 := by
    intro n hv hni
    rw [syncedN, hintval n 1 hv (le_refl 1), hsameCk n hv hni]
  have hext : ∀ m f, ValidNode cap m (f + 1) →
      ¬(ckL l1 cap m (f + 1) = ckL l0 cap m (f + 1)) →
      ∃ c, (c = 2 * m ∨ c = 2 * m + 1) ∧
        ¬(ckL l1 cap c f = ckL l0 cap c f) := by
    intro m f hv hne
    by_contra hno
    push_neg at hno
    apply hne
    rw [ckL_split l1 cap e m f hcap hlen1 hv,
      ckL_split l0 cap e m f hcap hlen0 hv]
    rw [hno (2 * m) (Or.inl rfl), hno (2 * m + 1) (Or.inr rfl)]
  refine ⟨by rw [h1, htlen], ?_, by simp, ?_, ?_, ?_, ?_⟩
  · -- queued parents are valid level-1 nodes
    intro x hx
    rw [hq] at hx
    obtain ⟨j, ha, hb, hc, hd⟩ := hx
    have hleafv : ValidNode cap (cap + j) 0 := by
      refine ⟨by omega, by simp, by simp; omega⟩
    subst hd
    exact validNode_parent cap e (cap + j) 0 hcap hleafv hc
  · intro n f hv hf
    have hf0 : f = 0 := by omega
    subst hf0
    exact hleafS n hv
  · intro n hv hni
    exact hlayerS n hv hni
  · intro m hv _ hns
    have hck : ¬(ckL l1 cap m (0 + 2) = ckL l0 cap m (0 + 2)) := by
      intro hc
      apply hns
      rw [syncedN, hintval m (0 + 2) hv (by omega), ← hc]
    obtain ⟨c, hcc, hcne⟩ := hext m 1 hv hck
    have hvch := validNode_children cap e m 1 hcap hv
    have hvc : ValidNode cap c 1 := by
      rcases hcc with rfl | rfl
      · exact hvch.2.1
      · exact hvch.2.2
    have hcq : c ∈ q1 := by
      by_contra hno
      exact hcne (hsameCk c hvc hno)
    refine ⟨c, hcq, hcc, ?_⟩
    intro hs
    rw [syncedN, hintval c 1 hvc (le_refl 1)] at hs
    exact hcne hs.symm
  · intro m f hv hf hns
    have hck : ¬(ckL l1 cap m f = ckL l0 cap m f) := by
      intro hc
      apply hns
      rw [syncedN, hintval m f hv (by omega), ← hc]
    have hf1 : f = (f - 1) + 1 := by omega
    rw [hf1] at hv hck
    obtain ⟨c, hcc, hcne⟩ := hext m (f - 1) hv hck
    refine ⟨c, hcc, ?_⟩
    intro hs
    have hvch := validNode_children cap e m (f - 1) hcap hv
    have hvc : ValidNode cap c (f - 1) := by
      rcases hcc with rfl | rfl
      · exact hvch.2.1
      · exact hvch.2.2
    rw [syncedN, hintval c (f - 1) hvc (by omega)] at hs
    exact hcne hs.symm

theorem treeSync_iff {K V : Type} (l : List (Option (K × V)))
    (cap e : Nat) (hcap : cap = 2 ^ e) (hlen : l.length = cap)
    (t : List (Option K)) :
    treeSync t l cap ↔ ∀ n f, ValidNode cap n f → syncedN l cap t n f := by
  constructor
  · intro h n f hv
    rw [syncedN, ← codeKeyF_eq_ckL l cap e hcap hlen f n hv]
    exact h n f hv.1 hv.2.1 hv.2.2
  · intro h n f h1 h2 h3
    have hv : ValidNode cap n f := ⟨h1, h2, h3⟩
    rw [codeKeyF_eq_ckL l cap e hcap hlen f n hv]
    exact h n f hv

/-- `populate_changes` over a window of changed slots re-synchronizes the
whole tree and never aborts. -/
theorem populateChanges_correct {K V : Type} [DecidableEq K]
    (l0 l1 : List (Option (K × V))) (t : List (Option K))
    (cap e lo hi : Nat)
    (hcap : cap = 2 ^ e) (hlen0 : l0.length = cap)
    (hlen1 : l1.length = cap) (htlen : t.length = 2 * cap - 1)
    (hold : treeSync t l0 cap)
    (hagree : ∀ j, j < lo ∨ hi ≤ j → slotGet l1 j = slotGet l0 j)
    (hlohi : lo ≤ hi) (hhicap : hi ≤ cap) :
    ∃ t', populateChanges t l1 cap lo hi = some t' ∧
      t'.length = 2 * cap - 1 ∧ treeSync t' l1 cap := by
  have hold' := (treeSync_iff l0 cap e hcap hlen0 t).mp hold
  obtain ⟨hlen', hframe⟩ := populate_initial_frame l0 l1 t cap e lo hi hcap
    hlen0 hlen1 htlen hold' hagree hlohi hhicap
  rw [populateChanges]
  have hupTo : min hi l1.length = hi := by
    rw [hlen1]
    omega
  rw [hupTo]
  rw [if_neg (by omega : ¬ cap < hi)]
  obtain ⟨t', hrun, htl', hsync⟩ := popLoop_master l1 cap e hcap hlen1
    (2 * (leafPhaseF l1 cap (hi - lo) lo t []).2.sum +
      (leafPhaseF l1 cap (hi - lo) lo t []).2.length + 1)
    (leafPhaseF l1 cap (hi - lo) lo t []).1
    (leafPhaseF l1 cap (hi - lo) lo t []).2
    hlen' (by omega)
    ⟨(leafPhaseF l1 cap (hi - lo) lo t []).2, [], 0, by simp, hframe⟩
  refine ⟨t', hrun, htl', ?_⟩
  exact (treeSync_iff l1 cap e hcap hlen1 t').mpr hsync

/-! ## Correctness of `rebuild` -/

theorem trailingZerosF_pow2 : ∀ m f, m < f → trailingZerosF f (2 ^ m) = m
    := by
  intro m
  induction m with
  | zero =>
    intro f hf
    cases f with
    | zero => omega
    | succ f' =>
      rw [trailingZerosF]
      norm_num
  | succ m ih =>
    intro f hf
    cases f with
    | zero => omega
    | succ f' =>
      rw [trailingZerosF]
      have h1 : 2 ^ (m + 1) % 2 = 0 := by
        rw [pow_succ, Nat.mul_mod_left]
      have h2 : 2 ^ (m + 1) ≠ 0 := by positivity
      rw [if_pos ⟨h1, h2⟩]
      have h3 : 2 ^ (m + 1) / 2 = 2 ^ m := by
        rw [pow_succ, Nat.mul_div_cancel _ (by norm_num)]
      rw [h3, ih f' (by omega)]

theorem trailingZeros_pow2 (m : Nat) : trailingZeros (2 ^ m) = m := by
  rw [trailingZeros]
  exact trailingZerosF_pow2 m (2 ^ m) (Nat.lt_two_pow m)

theorem getD_replicate_none {K : Type} (n i : Nat) :
    (List.replicate n (none : Option K)).getD i none = none := by
  unfold List.getD
  cases h : (List.replicate n (none : Option K)).get? i with
  | none => rfl
  | some x =>
    have := List.get?_mem h
    rw [List.eq_of_mem_replicate this]
    rfl

theorem slotGet_ge_length {A : Type} (l : List (Option A)) (i : Nat)
    (h : l.length ≤ i) : slotGet l i = none := by
  rw [slotGet]
  unfold List.getD
  rw [List.get?_eq_none.mpr h]
  rfl

theorem codeKeyF_replicate_none {K V : Type} (cap : Nat) :
    ∀ f n, codeKeyF (List.replicate cap (none : Option (K × V))) cap f n =
      none := by
  intro f
  induction f with
  | zero =>
    intro n
    rw [codeKeyF, slotGet, getD_replicate_none]
    rfl
  | succ f ih =>
    intro n
    rw [codeKeyF]
    by_cases h : cap ≤ n
    · rw [if_pos h, slotGet, getD_replicate_none]
      rfl
    · rw [if_neg h, ih, ih]
      rfl

/-- `rebuild` recreates the tree at the height matching the PMA capacity
and leaves it fully synchronized. -/
theorem BTM_rebuild_correct {K V : Type} [LinearOrder K] (b : BTM K V)
    (e : Nat) (hlen : b.pma.v.length = 2 ^ e) :
    ∃ b', b.rebuild = some b' ∧ b'.height = e + 1 ∧
      b'.pma = b.pma ∧ b'.size = b.size ∧
      b'.tree.length = 2 * 2 ^ e - 1 ∧
      treeSync b'.tree b.pma.v (2 ^ e) := by
  rw [BTM.rebuild]
  simp only [hlen, trailingZeros_pow2]
  have he1 : e + 1 - 1 = e := by omega
  rw [he1]
  have hrep : (List.replicate (2 ^ e) (none : Option (K × V))).length =
      2 ^ e := List.length_replicate _ _
  have hsync0 : treeSync (List.replicate (2 ^ (e + 1) - 1)
      (none : Option K)) (List.replicate (2 ^ e) (none : Option (K × V)))
      (2 ^ e) := by
    intro n f _ _ _
    rw [getD_replicate_none, codeKeyF_replicate_none]
  obtain ⟨t', hrun, htl', hsync⟩ := populateChanges_correct
    (List.replicate (2 ^ e) none) b.pma.v
    (List.replicate (2 ^ (e + 1) - 1) none) (2 ^ e) e 0 (2 ^ e)
    rfl hrep hlen
    (by rw [List.length_replicate, pow_succ]; omega)
    hsync0
    (by
      intro j hj
      rcases hj with hj | hj
      · omega
      · rw [slotGet_ge_length b.pma.v j (by omega),
          slotGet_ge_length _ j (by rw [hrep]; omega)])
    (by omega) (le_refl _)
  rw [hrun]
  refine ⟨_, rfl, rfl, rfl, rfl, ?_, hsync⟩
  rw [htl']

/-! ## Correctness of `find_index` -/

theorem sorted_getLast_max {K : Type} [LinearOrder K] :
    ∀ (A : List K) (k : K), A.Pairwise (· < ·) → A.getLast? = some k →
      ∀ a ∈ A, a ≤ k := by
  intro A
  induction A with
  | nil => simp
  | cons x xs ih =>
    intro k hp hl a ha
    cases hxs : xs with
    | nil =>
      subst hxs
      simp at hl ha
      rw [ha, hl]
    | cons y ys =>
      rw [hxs] at hp hl ha ih
      have hne : (y :: ys) ≠ [] := by simp
      have hl2 : (y :: ys).getLast? = some k := by
        rw [show x :: y :: ys = [x] ++ (y :: ys) from rfl] at hl
        rwa [List.getLast?_append_of_ne_nil [x] hne] at hl
      rw [List.pairwise_cons] at hp
      rcases List.mem_cons.mp ha with rfl | ha2
      · have hkmem : k ∈ y :: ys := List.mem_of_mem_getLast? hl2
        exact le_of_lt (hp.1 k hkmem)
      · exact ih k hp.2 hl2 a ha2

theorem keysOf_sublist {K V : Type} (A B : List (Option (K × V)))
    (h : A.Sublist B) : (keysOf A).Sublist (keysOf B) :=
  (h.filterMap id).map Prod.fst

theorem sliceL_sublist {A : Type} (l : List A) (a b : Nat) :
    (sliceL l a b).Sublist l :=
  ((l.drop a).take_sublist _).trans (l.drop_sublist a)

theorem take_eq_take_append_slice {A : Type} (l : List A) (a b : Nat)
    (hab : a ≤ b) (hb : b ≤ l.length) :
    l.take b = l.take a ++ sliceL l a b := by
  have h := take_split_slice l a b b hab (le_refl b)
  rw [List.take_of_length_le (le_of_eq (sliceL_length l a b hab hb))] at h
  exact h

theorem slice_keys_le_drop {K V : Type} [LinearOrder K]
    (l : List (Option (K × V))) (mid : Nat) (hsorted : SortedSlots l) :
    ∀ a ∈ keysOf (l.take mid), ∀ b ∈ keysOf (l.drop mid), a < b := by
  have hsplit : keysOf l = keysOf (l.take mid) ++ keysOf (l.drop mid) := by
    conv_lhs => rw [← List.take_append_drop mid l]
    exact keysOf_append _ _
  rw [SortedSlots, hsplit, List.pairwise_append] at hsorted
  exact hsorted.2.2

theorem slice_keys_sub_take {K V : Type} (l : List (Option (K × V)))
    (lo mid : Nat) :
    ∀ a, a ∈ keysOf (sliceL l lo mid) → a ∈ keysOf (l.take mid) := by
  intro a ha
  have hsub : (sliceL l lo mid).Sublist (l.take mid) := by
    rw [sliceL, ← List.drop_take]
    exact (l.take mid).drop_sublist lo
  exact (keysOf_sublist _ _ hsub).mem ha

theorem keysOf_sorted_of_sorted {K V : Type} [LinearOrder K]
    (l : List (Option (K × V))) (a b : Nat) (hsorted : SortedSlots l) :
    (keysOf (sliceL l a b)).Pairwise (· < ·) :=
  hsorted.sublist (keysOf_sublist _ _ (sliceL_sublist l a b))

theorem slot_mem_keys_drop {K V : Type} (l : List (Option (K × V)))
    (j : Nat) (kv : K × V) (h : slotGet l j = some kv) :
    kv.1 ∈ keysOf (l.drop j) := by
  have hj : j < l.length := by
    by_contra hc
    push_neg at hc
    rw [slotGet_ge_length l j hc] at h
    exact Option.noConfusion h
  have hd : l.drop j = some kv :: l.drop (j + 1) := by
    rw [slotGet] at h
    rw [List.getD_eq_getElem l _ hj] at h
    have := List.drop_eq_getElem_cons hj
    rw [h] at this
    exact this
  rw [hd, keysOf]
  simp

/-- Descent invariant of the `find_index` loop: starting from a node whose
subtree covers slots `[acc * 2 ^ f, acc * 2 ^ f + 2 ^ f)` with all occupied
keys to the left strictly below `key` and all to the right strictly above,
the loop lands on the leaf of a slot `rank < cap` with all occupied keys
before `rank` below `key` and all after `rank` above it. -/
theorem findLoopF_spec {K V : Type} [LinearOrder K]
    (t : List (Option K)) (l : List (Option (K × V))) (cap e : Nat)
    (hcap : cap = 2 ^ e) (hlen : l.length = cap)
    (hsync : ∀ n f, ValidNode cap n f → syncedN l cap t n f)
    (hsorted : SortedSlots l) (key : K) :
    ∀ f n acc, ValidNode cap n f →
      n * 2 ^ f = cap + acc * 2 ^ f →
      (∀ a ∈ keysOf (l.take (acc * 2 ^ f)), a < key) →
      (∀ a ∈ keysOf (l.drop (acc * 2 ^ f + 2 ^ f)), key < a) →
      (findLoopF t key f n acc).1 = cap + (findLoopF t key f n acc).2 ∧
      (findLoopF t key f n acc).2 < cap ∧
      (∀ a ∈ keysOf (l.take (findLoopF t key f n acc).2), a < key) ∧
      (∀ a ∈ keysOf (l.drop ((findLoopF t key f n acc).2 + 1)), key < a)
    := by
  intro f
  induction f with
  | zero =>
    intro n acc hv hspan hlo hhi
    obtain ⟨hn, h1, h2⟩ := hv
    simp only [pow_zero, Nat.mul_one] at hspan h1 h2 hlo hhi
    simp only [findLoopF, pow_zero, Nat.mul_one]
    exact ⟨by omega, by omega, hlo, hhi⟩
  | succ f ih =>
    intro n acc hv hspan hlo hhi
    obtain ⟨hncap, hvL, hvR⟩ := validNode_children cap e n f hcap hv
    have hkey : t.getD (2 * n - 1) none = ckL l cap (2 * n) f :=
      hsync (2 * n) f hvL
    have hE1 : n * 2 ^ (f + 1) = 2 * n * 2 ^ f := by ring
    have hE2 : acc * 2 ^ (f + 1) = acc * 2 * 2 ^ f := by ring
    have hLspan : 2 * n * 2 ^ f = cap + acc * 2 * 2 ^ f := by
      rw [← hE1, ← hE2]
      exact hspan
    have hRspan : (2 * n + 1) * 2 ^ f = cap + (acc * 2 + 1) * 2 ^ f := by
      have e3 : (2 * n + 1) * 2 ^ f = 2 * n * 2 ^ f + 2 ^ f := by ring
      have e4 : (acc * 2 + 1) * 2 ^ f = acc * 2 * 2 ^ f + 2 ^ f := by ring
      rw [e3, e4, hLspan, Nat.add_assoc]
    have hD : 2 * n * 2 ^ f - cap = acc * 2 * 2 ^ f := by
      rw [hLspan, Nat.add_sub_cancel_left]
    have hMIDcap : acc * 2 * 2 ^ f + 2 ^ f ≤ cap := by
      have hsp := validNode_span cap e (2 * n) f hcap hvL
      rwa [hD] at hsp
    rw [ckL, hD] at hkey
    have htail : ∀ a ∈ keysOf
        (l.drop ((acc * 2 + 1) * 2 ^ f + 2 ^ f)), key < a := by
      have e5 : (acc * 2 + 1) * 2 ^ f + 2 ^ f
          = acc * 2 ^ (f + 1) + 2 ^ (f + 1) := by ring
      rw [e5]
      exact hhi
    have hsplitMID : l.take (acc * 2 * 2 ^ f + 2 ^ f)
        = l.take (acc * 2 * 2 ^ f)
          ++ sliceL l (acc * 2 * 2 ^ f) (acc * 2 * 2 ^ f + 2 ^ f) :=
      take_eq_take_append_slice l _ _ (Nat.le_add_right _ _)
        (by rw [hlen]; exact hMIDcap)
    cases hK : (keysOf (sliceL l (acc * 2 * 2 ^ f)
        (acc * 2 * 2 ^ f + 2 ^ f))).getLast? with
    | some k =>
      by_cases hle : key ≤ k
      · simp only [findLoopF, hkey, hK, if_pos hle]
        refine ih (2 * n) (acc * 2) hvL hLspan ?_ ?_
        · rw [← hE2]
          exact hlo
        · intro a ha
          have hkmem : k ∈ keysOf (sliceL l (acc * 2 * 2 ^ f)
              (acc * 2 * 2 ^ f + 2 ^ f)) := List.mem_of_mem_getLast? hK
          have hk2 : k ∈ keysOf (l.take (acc * 2 * 2 ^ f + 2 ^ f)) :=
            slice_keys_sub_take l _ _ k hkmem
          exact lt_of_le_of_lt hle
            (slice_keys_le_drop l _ hsorted k hk2 a ha)
      · simp only [findLoopF, hkey, hK, if_neg hle]
        push_neg at hle
        refine ih (2 * n + 1) (acc * 2 + 1) hvR hRspan ?_ htail
        intro a ha
        have e6 : (acc * 2 + 1) * 2 ^ f = acc * 2 * 2 ^ f + 2 ^ f := by
          ring
        rw [e6, hsplitMID, keysOf_append, List.mem_append] at ha
        rcases ha with ha | ha
        · rw [hE2] at hlo
          exact hlo a ha
        · have hsl := keysOf_sorted_of_sorted l (acc * 2 * 2 ^ f)
            (acc * 2 * 2 ^ f + 2 ^ f) hsorted
          exact lt_of_le_of_lt (sorted_getLast_max _ k hsl hK a ha) hle
    | none =>
      simp only [findLoopF, hkey, hK]
      refine ih (2 * n + 1) (acc * 2 + 1) hvR hRspan ?_ htail
      intro a ha
      have e6 : (acc * 2 + 1) * 2 ^ f = acc * 2 * 2 ^ f + 2 ^ f := by ring
      rw [e6, hsplitMID, keysOf_append, List.mem_append] at ha
      rcases ha with ha | ha
      · rw [hE2] at hlo
        exact hlo a ha
      · rw [List.getLast?_eq_none_iff] at hK
        rw [hK] at ha
        exact absurd ha (List.not_mem_nil a)

theorem slot_get?_of_some {A : Type} (l : List (Option A)) (j : Nat)
    (x : A) (h : slotGet l j = some x) : l.get? j = some (some x) := by
  rw [slotGet] at h
  unfold List.getD at h
  cases hq : l.get? j with
  | none =>
    rw [hq] at h
    exact Option.noConfusion h
  | some y =>
    rw [hq] at h
    simp at h
    rw [h]

theorem take_succ_slot {A : Type} (l : List (Option A)) (j : Nat)
    (x : Option A) (h : l.get? j = some x) :
    l.take (j + 1) = l.take j ++ [x] := by
  rw [List.take_succ, ← List.get?_eq_getElem?, h]
  rfl

/-- Correctness of `find_index` under the master invariant: the returned
index is at most the leaf count, every occupied slot before it holds a
smaller key, every occupied slot after it holds a larger key, and the slot
at the index itself (when occupied) holds a key `≥` the searched one. -/
theorem findIndex_spec {K V : Type} [LinearOrder K] (b : BTM K V)
    (key : K) (hinv : b.Inv) :
    b.findIndex key ≤ b.numLeaves ∧
    (∀ a ∈ keysOf (b.pma.v.take (b.findIndex key)), a < key) ∧
    (∀ a ∈ keysOf (b.pma.v.drop (b.findIndex key + 1)), key < a) ∧
    (∀ kv : K × V, slotGet b.pma.v (b.findIndex key) = some kv →
      key ≤ kv.1) := by
  obtain ⟨hscal, hsorted, hleaves, htlen, hsize, hgap, hts⟩ := hinv
  have hcap : b.numLeaves = 2 ^ (b.height - 1) := rfl
  have hlen : b.pma.v.length = b.numLeaves := hleaves.symm
  have hcap1 : 1 ≤ b.numLeaves := by
    rw [hcap]
    exact Nat.one_le_two_pow
  have hsync := (treeSync_iff b.pma.v b.numLeaves (b.height - 1) hcap hlen
    b.tree).mp hts
  have hv1 : ValidNode b.numLeaves 1 (b.height - 1) := by
    refine ⟨le_refl 1, ?_, ?_⟩ <;> rw [one_mul, ← hcap] <;> omega
  have hspan : 1 * 2 ^ (b.height - 1)
      = b.numLeaves + 0 * 2 ^ (b.height - 1) := by
    rw [one_mul, zero_mul, Nat.add_zero, hcap]
  have hlo0 : ∀ a ∈ keysOf (b.pma.v.take (0 * 2 ^ (b.height - 1))),
      a < key := by
    intro a ha
    rw [zero_mul, List.take_zero] at ha
    exact absurd ha (by simp [keysOf])
  have hhi0 : ∀ a ∈ keysOf
      (b.pma.v.drop (0 * 2 ^ (b.height - 1) + 2 ^ (b.height - 1))),
      key < a := by
    intro a ha
    rw [zero_mul, Nat.zero_add, ← hcap, ← hlen, List.drop_length] at ha
    exact absurd ha (by simp [keysOf])
  obtain ⟨h1, h2, h3, h4⟩ := findLoopF_spec b.tree b.pma.v b.numLeaves
    (b.height - 1) hcap hlen hsync hsorted key (b.height - 1) 1 0 hv1
    hspan hlo0 hhi0
  have hm1 : (findLoopF b.tree key (b.height - 1) 1 0).1 * 2 ^ 0
      = (findLoopF b.tree key (b.height - 1) 1 0).1 := by
    rw [pow_zero, Nat.mul_one]
  have hvleaf : ValidNode b.numLeaves
      (findLoopF b.tree key (b.height - 1) 1 0).1 0 := by
    refine ⟨by omega, ?_, ?_⟩ <;> rw [hm1] <;> omega
  have hrank : (findLoopF b.tree key (b.height - 1) 1 0).1 - b.numLeaves
      = (findLoopF b.tree key (b.height - 1) 1 0).2 := by omega
  have hleafkey : b.tree.getD
      ((findLoopF b.tree key (b.height - 1) 1 0).1 - 1) none
      = (slotGet b.pma.v
          (findLoopF b.tree key (b.height - 1) 1 0).2).map Prod.fst := by
    have hs := hsync _ 0 hvleaf
    rw [syncedN] at hs
    rw [hs, ckL_leaf b.pma.v b.numLeaves _ hlen hvleaf, hrank]
  cases hS : slotGet b.pma.v (findLoopF b.tree key (b.height - 1) 1 0).2
      with
  | none =>
    have hmatch : b.tree.getD
        ((findLoopF b.tree key (b.height - 1) 1 0).1 - 1) none = none := by
      rw [hleafkey, hS]
      rfl
    simp only [BTM.findIndex, hmatch]
    refine ⟨by omega, h3, h4, ?_⟩
    intro kv hkv
    rw [hS] at hkv
    exact Option.noConfusion hkv
  | some kv0 =>
    have hmatch : b.tree.getD
        ((findLoopF b.tree key (b.height - 1) 1 0).1 - 1) none
        = some kv0.1 := by
      rw [hleafkey, hS]
      rfl
    simp only [BTM.findIndex, hmatch]
    by_cases hlt : kv0.1 < key
    · rw [if_pos hlt]
      have hget := slot_get?_of_some _ _ _ hS
      have htk := take_succ_slot b.pma.v _ _ hget
      refine ⟨by omega, ?_, ?_, ?_⟩
      · intro a ha
        rw [htk, keysOf_append, List.mem_append] at ha
        rcases ha with ha | ha
        · exact h3 a ha
        · have : a = kv0.1 := by
            simp [keysOf] at ha
            rw [ha]
          rw [this]
          exact hlt
      · intro a ha
        have hdd : b.pma.v.drop ((findLoopF b.tree key (b.height - 1) 1
            0).2 + 1 + 1)
            = (b.pma.v.drop ((findLoopF b.tree key (b.height - 1) 1
               0).2 + 1)).drop 1 := by
          rw [List.drop_drop, Nat.add_comm]
        rw [hdd] at ha
        exact h4 a ((keysOf_sublist _ _ (List.drop_sublist _ _)).mem ha)
      · intro kv hkv
        have hmem := slot_mem_keys_drop _ _ _ hkv
        exact le_of_lt (h4 _ hmem)
    · rw [if_neg hlt]
      push_neg at hlt
      refine ⟨by omega, h3, h4, ?_⟩
      intro kv hkv
      rw [hS] at hkv
      have : kv = kv0 := by
        injection hkv with h
        rw [h]
      rw [this]
      exact hlt

/-- A successful `insert` keeps at least one empty slot: the rewritten
window passed a strict density check, and a grown array doubles the
capacity. -/
theorem PMA_insert_gap {K V : Type} (p : PackedMemoryArray K V) (idx : Nat)
    (kv : K × V) (hinv : ScalarInv p) (hidx : idx ≤ p.v.length)
    (hgap : countOcc p.v < p.v.length)
    (p' : PackedMemoryArray K V) (rng : Option (Nat × Nat))
    (h : p.insert idx kv = some (p', rng)) :
    countOcc p'.v < p'.v.length := by
  obtain ⟨hocc, hscal', hwin⟩ := PMA_insert_effect p idx kv hinv hidx p' rng h
  have hcnt' : countOcc p'.v = countOcc p.v + 1 := by
    have h2 := countOcc_take_drop p.v idx
    simp only [countOcc] at h2 ⊢
    rw [hocc]
    simp only [List.length_append, List.length_cons]
    omega
  rw [PMA_insert_eq] at h
  have hspec := insResOf_spec p idx hinv hidx
  obtain ⟨res, hres⟩ : ∃ r, insResOf p idx = r := ⟨_, rfl⟩
  rw [hres] at h hspec
  simp only [] at h hspec
  obtain ⟨F1, F2, F3, F4, F5, F6, F7, F8, F9, F10, F11, F12⟩ := hspec
  obtain ⟨hH, hss, hcap, hle1, hle2⟩ := hinv
  by_cases hf : res.found = true
  · rw [if_neg (not_not_intro hf)] at h
    by_cases hd : res.density = true
    · rw [if_pos hd] at h
      cases hik : insert_key_value (sliceL p.v res.lo res.hi) res.segPos kv
        with
      | none =>
        rw [hik] at h
        exact Option.noConfusion h
      | some m =>
        rw [hik] at h
        simp only [Option.some.injEq, Prod.mk.injEq] at h
        obtain ⟨hp, hrng⟩ := h
        obtain ⟨_, _, _, hplen, _, _, _, _, _⟩ :=
          hwin res.lo res.hi hrng.symm
        have hsplit3 := split_three p.v res.lo res.hi (by omega) F3
        have hco : countOcc p.v = countOcc (p.v.take res.lo) +
            countRange p.v res.lo res.hi + countOcc (p.v.drop res.hi)
            := by
          simp only [countOcc, countRange]
          conv_lhs => rw [hsplit3]
          rw [occ_append, occ_append, List.length_append,
            List.length_append]
        have ht1 : countOcc (p.v.take res.lo) ≤ res.lo := by
          have h1 := countOcc_le_length (p.v.take res.lo)
          rw [List.length_take] at h1
          exact le_trans h1 (min_le_left _ _)
        have ht2 : countOcc (p.v.drop res.hi) ≤ p.v.length - res.hi := by
          have h1 := countOcc_le_length (p.v.drop res.hi)
          rw [List.length_drop] at h1
          exact h1
        have hstrict := F11 hd
        rw [F8, if_pos hf] at hstrict
        rw [hcnt', hplen]
        omega
    · rw [if_neg hd] at h
      obtain ⟨hF0, hFhi, hFsz⟩ := F9 (by simpa using hd)
      have hl2 : resizeL p.v (res.size * 2) =
          p.v ++ List.replicate p.v.length none := by
        rw [resizeL, hFsz, List.take_of_length_le (by omega)]
        have e : p.v.length * 2 - p.v.length = p.v.length := by omega
        rw [e]
      rw [hl2] at h
      have hlen2 : (p.v ++ List.replicate p.v.length none).length =
          p.v.length + p.v.length := by simp
      cases hik : insert_key_value (p.v ++ List.replicate p.v.length none)
        res.segPos kv with
      | none =>
        rw [hik] at h
        exact Option.noConfusion h
      | some m =>
        rw [hik] at h
        simp only [Option.some.injEq, Prod.mk.injEq] at h
        obtain ⟨hp, hrng⟩ := h
        obtain ⟨hoccm, hmlen⟩ := insert_key_value_some_occ _ m res.segPos
          kv (by rw [hlen2]; omega) hik
        have htk : (p.v ++ List.replicate p.v.length none).take
            res.segPos = p.v.take res.segPos := by
          refine List.take_append_of_le_length ?_
          rw [F6]
          omega
        have hdr : (p.v ++ List.replicate p.v.length none).drop
            res.segPos = p.v.drop res.segPos ++
              List.replicate p.v.length none := by
          refine List.drop_append_of_le_length ?_
          rw [F6]
          omega
        rw [htk, hdr] at hoccm
        have hoccm' : occ m = occ (p.v.take res.segPos) ++ kv ::
            occ (p.v.drop res.segPos) := by
          rw [hoccm]
          simp
        have hcrf : countRange p.v res.lo res.hi = countOcc p.v := by
          rw [hF0, hFhi]
          exact countRange_full p.v
        have hcnt : res.count = countOcc m := by
          have h1 : countOcc m = countOcc (p.v.take res.segPos) + 1 +
              countOcc (p.v.drop res.segPos) := by
            rw [countOcc, hoccm']
            simp [countOcc]
            omega
          have h2 := countOcc_take_drop p.v res.segPos
          rw [F8, if_pos hf, hcrf]
          omega
        have hshl := (shuffleKV_occ true m res.count hcnt (by simp)).2
        have hmm : m.length = p.v.length + p.v.length := by
          rw [hmlen, hlen2]
        subst hp
        dsimp only at hcnt' ⊢
        rw [hcnt', hshl, hmm]
        omega
  · rw [if_pos hf] at h
    exact Option.noConfusion h

/-- A successful `remove` keeps at least one empty slot: an in-place
window rewrite never adds occupants, the reset path returns the fresh
one-slot array, and the shrink path halves a window that failed the root
density floor. -/
theorem PMA_remove_gap {K V : Type} (p : PackedMemoryArray K V)
    (idx : Nat) (hinv : ScalarInv p) (hidx : idx < p.v.length)
    (hgap : countOcc p.v < p.v.length)
    (p' : PackedMemoryArray K V) (rng : Option (Nat × Nat))
    (h : p.remove idx = some (p', rng)) :
    countOcc p'.v < p'.v.length := by
  obtain ⟨hocc, hscal', hwin⟩ := PMA_remove_effect p idx hinv hidx p' rng h
  have hcle : countOcc p'.v ≤ countOcc p.v := by
    have h2 := countOcc_take_drop p.v idx
    have hsub : (p.v.drop (idx + 1)).Sublist (p.v.drop idx) := by
      have e : p.v.drop (idx + 1) = (p.v.drop idx).drop 1 := by
        rw [List.drop_drop, Nat.add_comm]
      rw [e]
      exact List.drop_sublist _ _
    have h3 : ((p.v.drop (idx + 1)).filterMap id).length ≤
        ((p.v.drop idx).filterMap id).length :=
      (hsub.filterMap id).length_le
    simp only [countOcc, occ] at h2 h3 hocc ⊢
    rw [hocc]
    rw [List.length_append]
    omega
  cases rng with
  | some w =>
    obtain ⟨lo, hi⟩ := w
    obtain ⟨_, _, _, hplen, _⟩ := hwin lo hi rfl
    omega
  | none =>
    have hw := PMA_remove_window p idx hinv hidx
    simp only [] at hw
    obtain ⟨hH, hss, hcap, hle1, hle2⟩ := hinv
    have hss0 : 0 < p.segment_size := by rw [hss]; positivity
    rw [PMA_remove_eq] at h
    simp only [] at h
    obtain ⟨LO, hLO⟩ : ∃ x, p.segment_size *
        (idx >>> p.segment_size_log2) = x := ⟨_, rfl⟩
    rw [hLO] at h hw
    obtain ⟨W1, hW1⟩ : ∃ x, remove_key_value
        (sliceL p.v LO (LO + p.segment_size))
        (idx &&& (p.segment_size - 1)) = x := ⟨_, rfl⟩
    rw [hW1] at h hw
    obtain ⟨l1, hl1⟩ : ∃ x, setRange p.v LO (LO + p.segment_size) W1 = x :=
      ⟨_, rfl⟩
    rw [hl1] at h hw
    obtain ⟨hmod, hup, hle, hidxlt, hW1len, hl1len, hocc1, hcnt1, htakes,
      hdrops⟩ := hw
    by_cases hfast : remove_density_ok p.height (p.height - 1)
        (countOcc W1) p.segment_size = true
    · rw [if_pos hfast] at h
      simp only [Option.some.injEq, Prod.mk.injEq] at h
      exact Option.noConfusion h.2
    · rw [if_neg hfast] at h
      obtain ⟨res, hres⟩ : ∃ x, climbRem l1 p.height (p.height - 1) LO
          (LO + p.segment_size) p.segment_size (countOcc W1) = x :=
        ⟨_, rfl⟩
      rw [hres] at h
      have hspec := climbRem_spec l1 p.height idx (p.height - 1) LO
        (LO + p.segment_size) p.segment_size (countOcc W1) rfl hmod
        (by omega) hle hidxlt hss0
        (by rw [hl1len, hcap])
        hcnt1 (by simpa using hfast)
      rw [hres] at hspec
      simp only [] at hspec
      obtain ⟨G1, G2, G3, G4, G5, G6, G7, G8, G9, G10⟩ := hspec
      by_cases hstop : res.stopped = true
      · rw [if_pos hstop] at h
        simp only [Option.some.injEq, Prod.mk.injEq] at h
        exact Option.noConfusion h.2
      · rw [if_neg hstop] at h
        obtain ⟨hR0, hRhi, hRsz, hRfail⟩ := G10 (by simpa using hstop)
        rw [if_neg (not_not_intro hRsz.symm)] at h
        have hcnt0 : res.count = countOcc l1 := by
          rw [G9, hR0, hRhi, countRange_full]
        by_cases hzero : res.count = 0
        · rw [if_pos hzero] at h
          simp only [Option.some.injEq, Prod.mk.injEq] at h
          obtain ⟨hp, _⟩ := h
          rw [← hp]
          simp [PackedMemoryArray.new, countOcc]
        · rw [if_neg hzero] at h
          simp only [Option.some.injEq, Prod.mk.injEq] at h
          obtain ⟨hp, _⟩ := h
          have hfail0 : ¬(res.size * (p.height * 2 - 0) ≤
              res.count * (p.height * 4)) := by
            rw [← remove_density_ok_iff p.height 0 res.count res.size hH
              (by omega)]
            simp [hRfail]
          rw [Nat.sub_zero] at hfail0
          have h2c : 2 * res.count < res.size := by
            by_contra hge
            push_neg at hge
            have h1 : res.size * (p.height * 2) ≤
                (2 * res.count) * (p.height * 2) :=
              Nat.mul_le_mul_right _ hge
            have h2 : (2 * res.count) * (p.height * 2) =
                res.count * (p.height * 4) := by ring
            omega
          have hcle2 : res.count ≤ res.size / 2 := by omega
          have hclen : (compactKV l1).length = l1.length :=
            compactKV_length l1
          have hl2 : resizeL (compactKV l1) (res.size / 2) =
              (compactKV l1).take (res.size / 2) := by
            rw [resizeL, hclen]
            have e : res.size / 2 - l1.length = 0 := by omega
            rw [e]
            simp
          have hmaplen : ((occ l1).map some).length = res.count := by
            rw [List.length_map, hcnt0, countOcc]
          have htk2 : (compactKV l1).take (res.size / 2) =
              (occ l1).map some ++
                List.replicate (res.size / 2 - res.count) none := by
            rw [compactKV, List.take_append_eq_append_take,
              List.take_of_length_le (by rw [hmaplen]; exact hcle2),
              List.take_replicate, hmaplen]
            congr 1
            rw [Nat.min_eq_left (by rw [hcnt0, countOcc] at *; omega)]
          have hl2form : resizeL (compactKV l1) (res.size / 2) =
              (occ l1).map some ++
                List.replicate (res.size / 2 - res.count) none := by
            rw [hl2, htk2]
          have hoccl2 : occ (resizeL (compactKV l1) (res.size / 2)) =
              occ l1 := by
            rw [hl2form]
            simp
          have hcntl2 : res.count = countOcc (resizeL (compactKV l1)
              (res.size / 2)) := by
            rw [countOcc, hoccl2, hcnt0, countOcc]
          have hlenl2 : (resizeL (compactKV l1) (res.size / 2)).length =
              res.size / 2 := by
            rw [hl2form, List.length_append, List.length_map,
              List.length_replicate]
            rw [hcnt0, countOcc] at hcle2 ⊢
            omega
          have hcomp : resizeL (compactKV l1) (res.size / 2) =
              compactKV (resizeL (compactKV l1) (res.size / 2)) := by
            conv_lhs => rw [hl2form]
            rw [compactKV, hoccl2, hlenl2, ← hcntl2]
          obtain ⟨ho3, hl3⟩ := shuffleKV_occ false
            (resizeL (compactKV l1) (res.size / 2)) res.count hcntl2
            (fun _ => hcomp)
          rw [← hp]
          dsimp only
          rw [countOcc, ho3, hoccl2, hl3, hlenl2]
          have hsz2 : res.size = p.v.length := by rw [hRsz, hl1len]
          have hszpow : res.size =
              2 ^ (p.segment_size_log2 + (p.height - 1)) := by
            rw [hsz2, hcap, hss, pow_add]
          have hc1 : 1 ≤ res.count := Nat.one_le_iff_ne_zero.mpr hzero
          have hk2 : 1 ≤ p.segment_size_log2 + (p.height - 1) := by
            by_contra hk
            push_neg at hk
            have hz : p.segment_size_log2 + (p.height - 1) = 0 := by omega
            rw [hz] at hszpow
            omega
          have heven : res.size % 2 = 0 := by
            obtain ⟨j, hj⟩ : ∃ j, p.segment_size_log2 + (p.height - 1)
                = j + 1 := ⟨_, (by omega : p.segment_size_log2 +
                  (p.height - 1) = (p.segment_size_log2 +
                    (p.height - 1) - 1) + 1)⟩
            rw [hszpow, hj, pow_succ]
            exact Nat.mul_mod_left _ 2
          have hgoal : (occ l1).length = res.count := by
            rw [hcnt0, countOcc]
          rw [hgoal]
          omega

/-! ## Effect of the `BTreeMap` operations -/

theorem slot_lt_length {A : Type} (l : List (Option A)) (j : Nat) (x : A)
    (h : slotGet l j = some x) : j < l.length := by
  by_contra hc
  push_neg at hc
  rw [slotGet_ge_length l j hc] at h
  exact Option.noConfusion h

theorem slot_mem_occ {A : Type} (l : List (Option A)) (j : Nat) (x : A)
    (h : slotGet l j = some x) : x ∈ occ l := by
  have hget := slot_get?_of_some l j x h
  have hmem : some x ∈ l := List.get?_mem hget
  rw [occ, List.mem_filterMap]
  exact ⟨some x, hmem, rfl⟩

theorem mem_occ_slot {A : Type} (l : List (Option A)) (x : A)
    (h : x ∈ occ l) : ∃ j, slotGet l j = some x := by
  rw [occ, List.mem_filterMap] at h
  obtain ⟨a, ha, hax⟩ := h
  obtain rfl : a = some x := hax
  obtain ⟨n, hn⟩ := List.get?_of_mem ha
  refine ⟨n, ?_⟩
  rw [slotGet]
  unfold List.getD
  rw [hn]
  rfl

theorem slot_mem_keys_take {K V : Type} (l : List (Option (K × V)))
    (n j : Nat) (kv : K × V) (hj : j < n) (h : slotGet l j = some kv) :
    kv.1 ∈ keysOf (l.take n) := by
  have h2 : slotGet (l.take n) j = some kv := by
    rw [slotGet] at h ⊢
    unfold List.getD at h ⊢
    rw [List.get?_take hj]
    exact h
  have h3 := slot_mem_keys_drop (l.take n) j kv h2
  exact (keysOf_sublist _ _ ((l.take n).drop_sublist _)).mem h3

theorem slot_mem_keys_drop_le {K V : Type} (l : List (Option (K × V)))
    (d j : Nat) (kv : K × V) (hd : d ≤ j) (h : slotGet l j = some kv) :
    kv.1 ∈ keysOf (l.drop d) := by
  have h2 : slotGet (l.drop d) (j - d) = some kv := by
    rw [slotGet] at h ⊢
    unfold List.getD at h ⊢
    rw [List.get?_drop]
    have e : d + (j - d) = j := by omega
    rw [e]
    exact h
  have h3 := slot_mem_keys_drop (l.drop d) (j - d) kv h2
  exact (keysOf_sublist _ _ ((l.drop d).drop_sublist _)).mem h3

theorem slot_agree_of_take_drop {A : Type} (l1 l0 : List (Option A))
    (lo hi : Nat) (htk : l1.take lo = l0.take lo)
    (hdr : l1.drop hi = l0.drop hi) :
    ∀ j, j < lo ∨ hi ≤ j → slotGet l1 j = slotGet l0 j := by
  intro j hj
  rw [slotGet, slotGet]
  unfold List.getD
  rcases hj with hj | hj
  · conv_lhs => rw [← List.get?_take hj]
    conv_rhs => rw [← List.get?_take hj]
    rw [htk]
  · have e : j = hi + (j - hi) := by omega
    rw [e, ← List.get?_drop, ← List.get?_drop, hdr]

/-- An occupied slot holding the searched key sits exactly at the index
`find_index` returns. -/
theorem present_at_findIndex {K V : Type} [LinearOrder K] (b : BTM K V)
    (key : K) (hinv : b.Inv) (v : V) (hv : (key, v) ∈ occ b.pma.v) :
    b.findIndex key < b.numLeaves ∧
      slotGet b.pma.v (b.findIndex key) = some (key, v) := by
  obtain ⟨hfle, hlo, hhi, hsl⟩ := findIndex_spec b key hinv
  obtain ⟨j, hj⟩ := mem_occ_slot _ _ hv
  have hjlt := slot_lt_length _ _ _ hj
  have hne1 : ¬ j < b.findIndex key := fun hlt =>
    lt_irrefl key (hlo _ (slot_mem_keys_take _ _ _ _ hlt hj))
  have hne2 : ¬ b.findIndex key + 1 ≤ j := fun hge =>
    lt_irrefl key (hhi _ (slot_mem_keys_drop_le _ _ _ _ hge hj))
  have hj2 : j = b.findIndex key := by omega
  rw [hj2] at hj hjlt
  refine ⟨?_, hj⟩
  rw [hinv.2.2.1]
  exact hjlt

/-- Correctness of `BTreeMap::get`: it returns the stored value of the
key, and `None` when the key is absent. -/
theorem BTM_get_spec {K V : Type} [LinearOrder K] (b : BTM K V) (key : K)
    (hinv : b.Inv) :
    (∀ v, (key, v) ∈ occ b.pma.v → b.get key = some v) ∧
    (¬ key ∈ keysOf b.pma.v → b.get key = none) := by
  constructor
  · intro v hv
    obtain ⟨hlt, hS⟩ := present_at_findIndex b key hinv v hv
    simp only [BTM.get]
    rw [if_neg (not_le.mpr hlt), hS]
    dsimp only
    rw [if_pos rfl]
  · intro habs
    simp only [BTM.get]
    by_cases hc : b.numLeaves ≤ b.findIndex key
    · rw [if_pos hc]
    · rw [if_neg hc]
      cases hS : slotGet b.pma.v (b.findIndex key) with
      | none => rfl
      | some kv =>
        obtain ⟨k, v0⟩ := kv
        by_cases he : key = k
        · exfalso
          rw [← he] at hS
          have hmem := slot_mem_occ _ _ _ hS
          exact habs (List.mem_map_of_mem Prod.fst hmem)
        · dsimp only
          rw [if_neg he]

theorem slot_split {A : Type} (l : List (Option A)) (j : Nat) (x : A)
    (h : slotGet l j = some x) :
    l = l.take j ++ some x :: l.drop (j + 1) := by
  have hj := slot_lt_length l j x h
  rw [slotGet] at h
  rw [List.getD_eq_getElem l _ hj] at h
  conv_lhs => rw [← List.take_append_drop j l]
  rw [List.drop_eq_getElem_cons hj, h]

theorem countOcc_mid {A : Type} (P Q : List (Option A)) (x : A) :
    countOcc (P ++ some x :: Q) = countOcc P + 1 + countOcc Q := by
  rw [countOcc, occ_append, occ_cons_some, List.length_append,
    List.length_cons, countOcc, countOcc]
  omega

theorem keysOf_mid {K V : Type} (P Q : List (Option (K × V))) (kv : K × V) :
    keysOf (P ++ some kv :: Q) = keysOf P ++ kv.1 :: keysOf Q := by
  rw [keysOf, occ_append, occ_cons_some, List.map_append, List.map_cons,
    keysOf, keysOf]

theorem insertM_replace {K V : Type} [DecidableEq K]
    (p : PackedMemoryArray K V) (idx : Nat) (kv : K × V) (v0 : V)
    (hS : slotGet p.v idx = some (kv.1, v0)) :
    p.insertM idx kv = some (some v0,
      { p with v := p.v.set idx (some kv) }, some (leafWindow p idx)) := by
  rw [PackedMemoryArray.insertM, hS]
  dsimp only
  rw [if_pos rfl]

theorem insertM_phys {K V : Type} [DecidableEq K]
    (p : PackedMemoryArray K V) (idx : Nat) (kv : K × V)
    (hS : ∀ v0, ¬ slotGet p.v idx = some (kv.1, v0)) :
    p.insertM idx kv = (p.insert idx kv).map
      (fun pr => (none, pr.1, pr.2)) := by
  cases hS0 : slotGet p.v idx with
  | none => rw [PackedMemoryArray.insertM, hS0]
  | some kv0 =>
    obtain ⟨k0, v0⟩ := kv0
    have hne : ¬ k0 = kv.1 := by
      intro he
      exact hS v0 (by rw [hS0, he])
    rw [PackedMemoryArray.insertM, hS0]
    dsimp only
    rw [if_neg hne]

/-- `BTreeMap::insert` on a key already stored (replace in place): the old
value is returned, the slot is overwritten, and the invariant holds after
the key refresh over the leaf window. -/
theorem BTM_insert_replace {K V : Type} [LinearOrder K] (b : BTM K V)
    (key : K) (v v0 : V) (hinv : b.Inv)
    (hS : slotGet b.pma.v (b.findIndex key) = some (key, v0)) :
    ∃ b', b.insert key v = some (some v0, b') ∧ b'.Inv ∧
      slotGet b'.pma.v (b.findIndex key) = some (key, v) ∧
      (key, v) ∈ occ b'.pma.v ∧ b'.size = b.size ∧
      b'.pma.v.length = b.pma.v.length := by
  obtain ⟨hscal, hsorted, hleaves, htlen, hsize, hgap, hts⟩ := hinv
  have hidxlt : b.findIndex key < b.pma.v.length := slot_lt_length _ _ _ hS
  have hw := PMA_remove_window b.pma (b.findIndex key) hscal hidxlt
  simp only [] at hw
  obtain ⟨hmod, hup, hle, hlt2, _, _, _, _, _, _⟩ := hw
  have hins := insertM_replace b.pma (b.findIndex key) (key, v) v0 hS
  have hlen0 : b.pma.v.length = 2 ^ (b.height - 1) := hleaves.symm
  obtain ⟨t', hrun, htl', hsync'⟩ := populateChanges_correct b.pma.v
    (b.pma.v.set (b.findIndex key) (some (key, v))) b.tree
    (2 ^ (b.height - 1)) (b.height - 1)
    (b.pma.segment_size * (b.findIndex key >>> b.pma.segment_size_log2))
    (b.pma.segment_size * (b.findIndex key >>> b.pma.segment_size_log2) +
      b.pma.segment_size)
    rfl hlen0 (by rw [List.length_set]; exact hlen0) htlen hts
    (by
      intro j hj
      rw [slotGet, slotGet]
      exact getD_set_ne _ _ _ _ _ (by omega))
    (by omega) (by rw [← hlen0]; exact hup)
  have hlw : leafWindow b.pma (b.findIndex key) =
      (b.pma.segment_size * (b.findIndex key >>> b.pma.segment_size_log2),
       b.pma.segment_size * (b.findIndex key >>> b.pma.segment_size_log2) +
         b.pma.segment_size) := rfl
  refine ⟨⟨b.height, t',
    { b.pma with v := b.pma.v.set (b.findIndex key) (some (key, v)) },
    b.size⟩, ?_, ?_, ?_, ?_, rfl, ?_⟩
  · simp only [BTM.insert]
    rw [hins, hlw]
    dsimp only
    rw [hrun]
    rfl
  · have hsetform : b.pma.v.set (b.findIndex key) (some (key, v)) =
        b.pma.v.take (b.findIndex key) ++ some (key, v) ::
          b.pma.v.drop (b.findIndex key + 1) := by
      rw [List.set_eq_take_append_cons_drop, if_pos hidxlt]
    have hlform := slot_split b.pma.v (b.findIndex key) (key, v0) hS
    have hkeys : keysOf (b.pma.v.set (b.findIndex key) (some (key, v))) =
        keysOf b.pma.v := by
      rw [hsetform, keysOf_mid]
      conv_rhs => rw [hlform]
      rw [keysOf_mid]
    have hcnt : countOcc (b.pma.v.set (b.findIndex key) (some (key, v))) =
        countOcc b.pma.v := by
      rw [hsetform, countOcc_mid]
      conv_rhs => rw [hlform]
      rw [countOcc_mid]
    refine ⟨⟨hscal.1, hscal.2.1, ?_, hscal.2.2.2.1, hscal.2.2.2.2⟩,
      ?_, ?_, htl', ?_, ?_, hsync'⟩
    · dsimp only
      rw [List.length_set]
      exact hscal.2.2.1
    · show (keysOf (b.pma.v.set (b.findIndex key)
        (some (key, v)))).Pairwise (· < ·)
      rw [hkeys]
      exact hsorted
    · show (2 : Nat) ^ (b.height - 1) =
        (b.pma.v.set (b.findIndex key) (some (key, v))).length
      rw [List.length_set]
      exact hlen0.symm
    · dsimp only
      rw [hcnt]
      exact hsize
    · dsimp only
      rw [hcnt, List.length_set]
      exact hgap
  · dsimp only
    rw [slotGet]
    exact getD_set_eq _ _ _ _ hidxlt
  · dsimp only
    refine slot_mem_occ _ (b.findIndex key) _ ?_
    rw [slotGet]
    exact getD_set_eq _ _ _ _ hidxlt
  · dsimp only
    rw [List.length_set]

/-- `BTreeMap::insert` on a key not stored at its slot: the PMA performs a
physical insert at the sorted position; the invariant holds after the key
refresh (or full rebuild after a resize), and the size grows by one. -/
theorem BTM_insert_phys {K V : Type} [LinearOrder K] (b : BTM K V)
    (key : K) (v : V) (hinv : b.Inv)
    (hS : ∀ v0, ¬ slotGet b.pma.v (b.findIndex key) = some (key, v0)) :
    ∃ b', b.insert key v = some (none, b') ∧ b'.Inv ∧
      occ b'.pma.v = occ (b.pma.v.take (b.findIndex key)) ++ (key, v) ::
        occ (b.pma.v.drop (b.findIndex key)) ∧
      b'.size = b.size + 1 := by
  obtain ⟨hfle, hlo, hhi, hsl⟩ := findIndex_spec b key hinv
  obtain ⟨hscal, hsorted, hleaves, htlen, hsize, hgap, hts⟩ := hinv
  have hidx : b.findIndex key ≤ b.pma.v.length := by
    rw [← hleaves]
    exact hfle
  have hphys := insertM_phys b.pma (b.findIndex key) (key, v) hS
  obtain ⟨⟨p2, rng⟩, hins⟩ :=
    PMA_insert_total b.pma (b.findIndex key) (key, v) hscal hidx hgap
  obtain ⟨hocc2, hscal2, hwinf⟩ :=
    PMA_insert_effect b.pma (b.findIndex key) (key, v) hscal hidx p2 rng
      hins
  have hgap2 := PMA_insert_gap b.pma (b.findIndex key) (key, v) hscal hidx
    hgap p2 rng hins
  have hcnt2 : countOcc p2.v = countOcc b.pma.v + 1 := by
    rw [countOcc, hocc2, List.length_append, List.length_cons]
    have h2 := countOcc_take_drop b.pma.v (b.findIndex key)
    simp only [countOcc] at h2 ⊢
    omega
  have hAB : occ (b.pma.v.take (b.findIndex key)) ++
      occ (b.pma.v.drop (b.findIndex key)) = occ b.pma.v := by
    rw [← occ_append, List.take_append_drop]
  have hB : ∀ x ∈ occ (b.pma.v.drop (b.findIndex key)), key < x.1 := by
    intro x hx
    rcases Nat.lt_or_ge (b.findIndex key) b.pma.v.length with hlt | hge
    · rw [List.drop_eq_getElem_cons hlt] at hx
      have hseq : slotGet b.pma.v (b.findIndex key) =
          b.pma.v[b.findIndex key] := by
        rw [slotGet]
        exact List.getD_eq_getElem b.pma.v _ hlt
      cases hx0 : b.pma.v[b.findIndex key] with
      | none =>
        rw [hx0, occ_cons_none] at hx
        exact hhi x.1 (List.mem_map_of_mem Prod.fst hx)
      | some kv0 =>
        rw [hx0, occ_cons_some] at hx
        rw [hx0] at hseq
        rcases List.mem_cons.mp hx with rfl | hx2
        · rcases lt_or_eq_of_le (hsl x hseq) with h | h
          · exact h
          · exfalso
            refine hS x.2 ?_
            rw [hseq, h]
        · exact hhi x.1 (List.mem_map_of_mem Prod.fst hx2)
    · rw [List.drop_eq_nil_of_le hge] at hx
      exact absurd hx (List.not_mem_nil x)
  have hsorted2 : SortedSlots p2.v := by
    show (keysOf p2.v).Pairwise (· < ·)
    rw [keysOf, hocc2]
    refine sorted_insert_mid _ _ _ ?_ ?_ hB
    · rw [hAB]
      exact hsorted
    · intro x hx
      exact hlo x.1 (List.mem_map_of_mem Prod.fst hx)
  cases rng with
  | some w =>
    obtain ⟨lo, hi⟩ := w
    obtain ⟨hh2, hss2, hssl2, hplen, hloi, hihi, hhile, htk, hdr⟩ :=
      hwinf lo hi rfl
    have hlen0 : b.pma.v.length = 2 ^ (b.height - 1) := hleaves.symm
    obtain ⟨t', hrun, htl', hsync'⟩ := populateChanges_correct b.pma.v
      p2.v b.tree (2 ^ (b.height - 1)) (b.height - 1) lo hi
      rfl hlen0 (by rw [hplen]; exact hlen0) htlen hts
      (slot_agree_of_take_drop p2.v b.pma.v lo hi htk hdr)
      (by omega) (by rw [← hlen0]; omega)
    refine ⟨⟨b.height, t', p2, b.size + 1⟩, ?_, ?_, hocc2, rfl⟩
    · simp only [BTM.insert]
      rw [hphys, hins]
      show (populateChanges b.tree p2.v (2 ^ (b.height - 1)) lo hi).map
        (fun t => ((none : Option V),
          (⟨b.height, t, p2, b.size + 1⟩ : BTM K V))) =
        some (none, ⟨b.height, t', p2, b.size + 1⟩)
      rw [hrun]
      rfl
    · refine ⟨hscal2, hsorted2, ?_, htl', ?_, ?_, hsync'⟩
      · show (2 : Nat) ^ (b.height - 1) = p2.v.length
        rw [hplen]
        exact hlen0.symm
      · rw [hcnt2, hsize]
      · exact hgap2
  | none =>
    have hlen2 : p2.v.length =
        2 ^ (p2.segment_size_log2 + (p2.height - 1)) := by
      rw [hscal2.2.2.1, hscal2.2.1, pow_add]
    obtain ⟨b3, hrun3, hh3, hpma3, hsz3, htl3, hsync3⟩ :=
      BTM_rebuild_correct ⟨b.height, b.tree, p2, b.size + 1⟩
        (p2.segment_size_log2 + (p2.height - 1)) hlen2
    have hnl3 : b3.numLeaves =
        2 ^ (p2.segment_size_log2 + (p2.height - 1)) := by
      rw [BTM.numLeaves, hh3, Nat.add_sub_cancel]
    refine ⟨b3, ?_, ?_, ?_, ?_⟩
    · simp only [BTM.insert]
      rw [hphys, hins]
      show ((⟨b.height, b.tree, p2, b.size + 1⟩ : BTM K V).rebuild).map
        (fun b2 => ((none : Option V), b2)) = some (none, b3)
      rw [hrun3]
      rfl
    · refine ⟨?_, ?_, ?_, ?_, ?_, ?_, ?_⟩
      · rw [hpma3]
        exact hscal2
      · rw [hpma3]
        exact hsorted2
      · rw [hnl3, hpma3]
        exact hlen2.symm
      · rw [htl3, hnl3]
      · rw [hsz3, hpma3]
        dsimp only
        rw [hcnt2, hsize]
      · rw [hpma3]
        exact hgap2
      · rw [hnl3, hpma3]
        exact hsync3
    · rw [hpma3]
      exact hocc2
    · rw [hsz3]

/-- `BTreeMap::insert` under the master invariant: it returns the previous
value of the key (`None` when absent), stores the new pair, preserves the
invariant, and grows the size exactly when the key was fresh. -/
theorem BTM_insert_spec {K V : Type} [LinearOrder K] (b : BTM K V)
    (key : K) (v : V) (hinv : b.Inv) :
    ∃ old b', b.insert key v = some (old, b') ∧ b'.Inv ∧
      (key, v) ∈ occ b'.pma.v ∧
      (∀ v1, (key, v1) ∈ occ b.pma.v → old = some v1) ∧
      (¬ key ∈ keysOf b.pma.v → old = none) ∧
      b'.size = (if old.isNone then b.size + 1 else b.size) := by
  by_cases hpres : ∃ v0, slotGet b.pma.v (b.findIndex key) = some (key, v0)
  · obtain ⟨v0, hS⟩ := hpres
    obtain ⟨b', heq, hinv', hslot', hmem', hsz', hlen'⟩ :=
      BTM_insert_replace b key v v0 hinv hS
    refine ⟨some v0, b', heq, hinv', hmem', ?_, ?_, ?_⟩
    · intro v1 hv1
      obtain ⟨_, hS1⟩ := present_at_findIndex b key hinv v1 hv1
      rw [hS] at hS1
      injection hS1 with h1
      injection h1 with _ h2
      rw [h2]
    · intro habs
      exact absurd
        (List.mem_map_of_mem Prod.fst (slot_mem_occ _ _ _ hS)) habs
    · rw [hsz']
      rfl
  · push_neg at hpres
    obtain ⟨b', heq, hinv', hocc', hsz'⟩ :=
      BTM_insert_phys b key v hinv hpres
    refine ⟨none, b', heq, hinv', ?_, ?_, ?_, ?_⟩
    · rw [hocc']
      exact List.mem_append_right _ (List.mem_cons_self _ _)
    · intro v1 hv1
      obtain ⟨_, hS1⟩ := present_at_findIndex b key hinv v1 hv1
      exact absurd hS1 (hpres v1)
    · intro _
      rfl
    · rw [hsz']
      rfl

/-- Under the invariant, the leaf read by `get`/`remove` holds exactly the
key of its PMA slot. -/
theorem BTM_leaf_key {K V : Type} [LinearOrder K] (b : BTM K V) (idx : Nat)
    (hinv : b.Inv) (hidx : idx < b.numLeaves) :
    b.tree.getD (b.numLeaves + idx - 1) none =
      (slotGet b.pma.v idx).map Prod.fst := by
  obtain ⟨hscal, hsorted, hleaves, htlen, hsize, hgap, hts⟩ := hinv
  have hlen : b.pma.v.length = b.numLeaves := hleaves.symm
  have hv : ValidNode b.numLeaves (b.numLeaves + idx) 0 := by
    refine ⟨by omega, ?_, ?_⟩ <;> rw [pow_zero, Nat.mul_one] <;> omega
  have hsync := (treeSync_iff b.pma.v b.numLeaves (b.height - 1) rfl hlen
    b.tree).mp hts
  have hs := hsync _ 0 hv
  rw [syncedN] at hs
  rw [hs, ckL_leaf b.pma.v b.numLeaves _ hlen hv]
  have e : b.numLeaves + idx - b.numLeaves = idx := by omega
  rw [e]

/-- `BTreeMap::remove` of an absent key returns `None` and the map itself,
completely unchanged. -/
theorem BTM_remove_absent {K V : Type} [LinearOrder K] (b : BTM K V)
    (key : K) (hinv : b.Inv) (habs : ¬ key ∈ keysOf b.pma.v) :
    b.remove key = some (none, b) := by
  simp only [BTM.remove]
  by_cases hc : b.numLeaves ≤ b.findIndex key
  · rw [if_pos hc]
  · rw [if_neg hc]
    push_neg at hc
    rw [BTM_leaf_key b (b.findIndex key) hinv hc]
    cases hS : slotGet b.pma.v (b.findIndex key) with
    | none => rfl
    | some kv =>
      have hne : ¬ kv.1 = key := by
        intro he
        refine habs ?_
        rw [← he]
        exact List.mem_map_of_mem Prod.fst (slot_mem_occ _ _ _ hS)
      dsimp only [Option.map]
      rw [if_pos hne]

/-- `BTreeMap::remove` of a stored key: the value is returned, the slot is
emptied, the invariant holds after the key refresh (or rebuild), and the
size shrinks by one. -/
theorem BTM_remove_present {K V : Type} [LinearOrder K] (b : BTM K V)
    (key : K) (v : V) (hinv : b.Inv) (hv : (key, v) ∈ occ b.pma.v) :
    ∃ b', b.remove key = some (some v, b') ∧ b'.Inv ∧
      occ b'.pma.v = occ (b.pma.v.take (b.findIndex key)) ++
        occ (b.pma.v.drop (b.findIndex key + 1)) ∧
      (¬ key ∈ keysOf b'.pma.v) ∧
      b'.size = b.size - 1 ∧ 1 ≤ b.size := by
  obtain ⟨hidxlt, hS⟩ := present_at_findIndex b key hinv v hv
  obtain ⟨hfle, hlo, hhi, hsl⟩ := findIndex_spec b key hinv
  have hleaf := BTM_leaf_key b (b.findIndex key) hinv hidxlt
  obtain ⟨hscal, hsorted, hleaves, htlen, hsize, hgap, hts⟩ := hinv
  have hidxlen : b.findIndex key < b.pma.v.length := slot_lt_length _ _ _ hS
  obtain ⟨⟨p2, rng⟩, hrem⟩ :=
    PMA_remove_total b.pma (b.findIndex key) hscal hidxlen
  obtain ⟨hocc2, hscal2, hwinf⟩ :=
    PMA_remove_effect b.pma (b.findIndex key) hscal hidxlen p2 rng hrem
  have hgap2 := PMA_remove_gap b.pma (b.findIndex key) hscal hidxlen hgap
    p2 rng hrem
  have hlform := slot_split b.pma.v (b.findIndex key) (key, v) hS
  have hco : countOcc b.pma.v = countOcc (b.pma.v.take (b.findIndex key))
      + 1 + countOcc (b.pma.v.drop (b.findIndex key + 1)) := by
    conv_lhs => rw [hlform]
    rw [countOcc_mid]
  have hcnt2 : countOcc p2.v + 1 = countOcc b.pma.v := by
    rw [countOcc, hocc2, List.length_append]
    simp only [countOcc] at hco ⊢
    omega
  have hk2 : keysOf p2.v = keysOf (b.pma.v.take (b.findIndex key)) ++
      keysOf (b.pma.v.drop (b.findIndex key + 1)) := by
    rw [keysOf, hocc2, List.map_append, keysOf, keysOf]
  have hkp : keysOf b.pma.v = keysOf (b.pma.v.take (b.findIndex key)) ++
      key :: keysOf (b.pma.v.drop (b.findIndex key + 1)) := by
    conv_lhs => rw [hlform]
    exact keysOf_mid _ _ (key, v)
  have hsorted2 : SortedSlots p2.v := by
    show (keysOf p2.v).Pairwise (· < ·)
    have hsub : (keysOf p2.v).Sublist (keysOf b.pma.v) := by
      rw [hk2, hkp]
      exact (List.sublist_cons_self _ _).append_left _
    exact hsorted.sublist hsub
  have habs2 : ¬ key ∈ keysOf p2.v := by
    rw [hk2]
    intro hmem
    rcases List.mem_append.mp hmem with hmem | hmem
    · exact lt_irrefl key (hlo key hmem)
    · exact lt_irrefl key (hhi key hmem)
  have hsz1 : 1 ≤ b.size := by
    rw [hsize]
    simp only [countOcc] at hco ⊢
    omega
  have hremM2 : b.pma.removeM (b.findIndex key) =
      (b.pma.remove (b.findIndex key)).map
        (fun pr => (some v, pr.1, pr.2)) := by
    rw [PackedMemoryArray.removeM, hS]
  cases rng with
  | some w =>
    obtain ⟨lo, hi⟩ := w
    obtain ⟨hh2, hss2, hssl2, hplen, hloi, hihi, hhile, htk, hdr⟩ :=
      hwinf lo hi rfl
    have hlen0 : b.pma.v.length = 2 ^ (b.height - 1) := hleaves.symm
    obtain ⟨t', hrun, htl', hsync'⟩ := populateChanges_correct b.pma.v
      p2.v b.tree (2 ^ (b.height - 1)) (b.height - 1) lo hi
      rfl hlen0 (by rw [hplen]; exact hlen0) htlen hts
      (slot_agree_of_take_drop p2.v b.pma.v lo hi htk hdr)
      (by omega) (by rw [← hlen0]; omega)
    refine ⟨⟨b.height, t', p2, b.size - 1⟩, ?_, ?_, hocc2, habs2, rfl,
      hsz1⟩
    · simp only [BTM.remove]
      rw [if_neg (not_le.mpr hidxlt), hleaf, hS]
      dsimp only [Option.map]
      rw [if_neg (not_not_intro rfl), hremM2, hrem]
      dsimp only [Option.map]
      rw [hrun]
    · refine ⟨hscal2, hsorted2, ?_, htl', ?_, ?_, hsync'⟩
      · show (2 : Nat) ^ (b.height - 1) = p2.v.length
        rw [hplen]
        exact hlen0.symm
      · show b.size - 1 = countOcc p2.v
        rw [hsize]
        omega
      · exact hgap2
  | none =>
    have hlen2 : p2.v.length =
        2 ^ (p2.segment_size_log2 + (p2.height - 1)) := by
      rw [hscal2.2.2.1, hscal2.2.1, pow_add]
    obtain ⟨b3, hrun3, hh3, hpma3, hsz3, htl3, hsync3⟩ :=
      BTM_rebuild_correct ⟨b.height, b.tree, p2, b.size - 1⟩
        (p2.segment_size_log2 + (p2.height - 1)) hlen2
    have hnl3 : b3.numLeaves =
        2 ^ (p2.segment_size_log2 + (p2.height - 1)) := by
      rw [BTM.numLeaves, hh3, Nat.add_sub_cancel]
    refine ⟨b3, ?_, ?_, ?_, ?_, ?_, hsz1⟩
    · simp only [BTM.remove]
      rw [if_neg (not_le.mpr hidxlt), hleaf, hS]
      dsimp only [Option.map]
      rw [if_neg (not_not_intro rfl), hremM2, hrem]
      dsimp only [Option.map]
      rw [hrun3]
    · refine ⟨?_, ?_, ?_, ?_, ?_, ?_, ?_⟩
      · rw [hpma3]
        exact hscal2
      · rw [hpma3]
        exact hsorted2
      · rw [hnl3, hpma3]
        exact hlen2.symm
      · rw [htl3, hnl3]
      · rw [hsz3, hpma3]
        show b.size - 1 = countOcc p2.v
        rw [hsize]
        omega
      · rw [hpma3]
        exact hgap2
      · rw [hnl3, hpma3]
        exact hsync3
    · rw [hpma3]
      exact hocc2
    · rw [hpma3]
      exact habs2
    · rw [hsz3]

/-- The fresh map satisfies the master invariant. -/
theorem Inv_new {K V : Type} [LinearOrder K] : (BTM.new : BTM K V).Inv := by
  refine ⟨⟨le_refl 1, rfl, rfl, Nat.le_refl 0, Nat.zero_le 1⟩, ?_, rfl,
    rfl, rfl, Nat.zero_lt_one, ?_⟩
  · show (keysOf (BTM.new : BTM K V).pma.v).Pairwise (· < ·)
    rw [show keysOf (BTM.new : BTM K V).pma.v = ([] : List K) from rfl]
    exact List.Pairwise.nil
  · intro n f h1 h2 h3
    cases f with
    | zero =>
      rw [pow_zero, Nat.mul_one] at h2 h3
      have hn : n = 1 := by
        have : (BTM.new : BTM K V).numLeaves = 1 := rfl
        omega
      rw [hn]
      rfl
    | succ g =>
      exfalso
      have h4 : 1 ≤ 2 ^ g := Nat.one_le_two_pow
      have h5 : 2 ^ (g + 1) ≤ n * 2 ^ (g + 1) :=
        Nat.le_mul_of_pos_left _ (by omega)
      have h6 : 2 ^ (g + 1) = 2 ^ g * 2 := pow_succ 2 g
      have h7 : (BTM.new : BTM K V).numLeaves = 1 := rfl
      omega

/-- Every reachable `BTreeMap` state satisfies the master invariant. -/
theorem Reach_Inv {K V : Type} [LinearOrder K] (b : BTM K V)
    (h : Reach b) : b.Inv := by
  induction h with
  | new => exact Inv_new
  | insert b0 key v old b1 hr heq ih =>
    obtain ⟨old2, b2, heq2, hinv2, _⟩ := BTM_insert_spec b0 key v ih
    rw [heq] at heq2
    injection heq2 with h1
    injection h1 with _ h2
    rw [h2]
    exact hinv2
  | remove b0 key old b1 hr heq ih =>
    by_cases hpres : key ∈ keysOf b0.pma.v
    · rw [keysOf, List.mem_map] at hpres
      obtain ⟨kv, hkv, hk1⟩ := hpres
      obtain ⟨b2, heq2, hinv2, _⟩ := BTM_remove_present b0 key kv.2 ih
        (by
          have : kv = (key, kv.2) := by
            rw [← hk1]
          rw [← this]
          exact hkv)
      rw [heq] at heq2
      injection heq2 with h1
      injection h1 with _ h2
      rw [h2]
      exact hinv2
    · have heq2 := BTM_remove_absent b0 key ih hpres
      rw [heq] at heq2
      injection heq2 with h1
      injection h1 with _ h2
      rw [h2]
      exact ih

/-! ## The claims about the `BTreeMap` operations -/

/-- C1: for every reachable container state and every key `k` and value
`v`: after `insert(k, v)`, `get(k)` returns `Some(v)`; a following
`remove(k)` returns `Some(v)`; and a `get(k)` after that returns
`None`. -/
theorem C1_insert_get_remove_roundtrip {K V : Type} [LinearOrder K]
    (b : BTM K V) (key : K) (v : V) (hr : Reach b) :
    ∃ old b1 b2, b.insert key v = some (old, b1) ∧
      b1.get key = some v ∧
      b1.remove key = some (some v, b2) ∧
      b2.get key = none := by
  have hinv := Reach_Inv b hr
  obtain ⟨old, b1, heq, hinv1, hmem1, _, _, _⟩ := BTM_insert_spec b key v
    hinv
  obtain ⟨b2, heq2, hinv2, _, habs2, _, _⟩ :=
    BTM_remove_present b1 key v hinv1 hmem1
  exact ⟨old, b1, b2, heq, (BTM_get_spec b1 key hinv1).1 v hmem1, heq2,
    (BTM_get_spec b2 key hinv2).2 habs2⟩

theorem C1_witness :
    ∃ old b1 b2, (BTM.new : BTM Nat Nat).insert 0 1 = some (old, b1) ∧
      b1.get 0 = some 1 ∧ b1.remove 0 = some (some 1, b2) ∧
      b2.get 0 = none :=
  C1_insert_get_remove_roundtrip BTM.new 0 1 Reach.new

/-- C2: on a reachable state where `k` is present with value `v1`,
`insert(k, v2)` returns `Some(v1)`, leaves `len()` unchanged, and a
subsequent `get(k)` returns `Some(v2)`; across two inserts of the same
fresh key the size is incremented exactly once in total. -/
theorem C2_insert_replace_semantics {K V : Type} [LinearOrder K]
    (b : BTM K V) (key : K) (v1 v2 : V) (hr : Reach b) :
    ((key, v1) ∈ occ b.pma.v →
      ∃ b', b.insert key v2 = some (some v1, b') ∧ b'.len = b.len ∧
        b'.get key = some v2) ∧
    (¬ key ∈ keysOf b.pma.v →
      ∃ b1 b2, b.insert key v1 = some (none, b1) ∧
        b1.len = b.len + 1 ∧
        b1.insert key v2 = some (some v1, b2) ∧ b2.len = b1.len) := by
  have hinv := Reach_Inv b hr
  constructor
  · intro hmem
    obtain ⟨old, b', heq, hinv', hmem', hold, _, hsz⟩ :=
      BTM_insert_spec b key v2 hinv
    have ho : old = some v1 := hold v1 hmem
    subst ho
    refine ⟨b', heq, ?_, (BTM_get_spec b' key hinv').1 v2 hmem'⟩
    show b'.size = b.size
    rw [hsz]
    rfl
  · intro habs
    obtain ⟨old1, b1, heq1, hinv1, hmem1, _, hold1, hsz1⟩ :=
      BTM_insert_spec b key v1 hinv
    have ho1 : old1 = none := hold1 habs
    subst ho1
    obtain ⟨old2, b2, heq2, hinv2, hmem2, hold2, _, hsz2⟩ :=
      BTM_insert_spec b1 key v2 hinv1
    have ho2 : old2 = some v1 := hold2 v1 hmem1
    subst ho2
    refine ⟨b1, b2, heq1, ?_, heq2, ?_⟩
    · show b1.size = b.size + 1
      rw [hsz1]
      rfl
    · show b2.size = b1.size
      rw [hsz2]
      rfl

theorem C2_witness :
    ((0, 1) ∈ occ (BTM.new : BTM Nat Nat).pma.v →
      ∃ b', (BTM.new : BTM Nat Nat).insert 0 2 = some (some 1, b') ∧
        b'.len = (BTM.new : BTM Nat Nat).len ∧ b'.get 0 = some 2) ∧
    (¬ (0 : Nat) ∈ keysOf (BTM.new : BTM Nat Nat).pma.v →
      ∃ b1 b2, (BTM.new : BTM Nat Nat).insert 0 1 = some (none, b1) ∧
        b1.len = (BTM.new : BTM Nat Nat).len + 1 ∧
        b1.insert 0 2 = some (some 1, b2) ∧ b2.len = b1.len) :=
  C2_insert_replace_semantics BTM.new 0 1 2 Reach.new

/-- C5: on every reachable state, `find_index` returns an index in
`[0, capacity]`; a stored equal key sits exactly at that index, every
occupied slot before the index holds a smaller key, and when the key is
absent every occupied slot at or after it holds a larger key. -/
theorem C5_find_index_position {K V : Type} [LinearOrder K] (b : BTM K V)
    (key : K) (hr : Reach b) :
    b.findIndex key ≤ b.numLeaves ∧
    (∀ j kv, slotGet b.pma.v j = some kv → j < b.findIndex key →
      kv.1 < key) ∧
    (∀ v, (key, v) ∈ occ b.pma.v →
      slotGet b.pma.v (b.findIndex key) = some (key, v)) ∧
    (¬ key ∈ keysOf b.pma.v → ∀ j kv, slotGet b.pma.v j = some kv →
      b.findIndex key ≤ j → key < kv.1) := by
  have hinv := Reach_Inv b hr
  obtain ⟨hfle, hlo, hhi, hsl⟩ := findIndex_spec b key hinv
  refine ⟨hfle, ?_, ?_, ?_⟩
  · intro j kv hj hlt
    exact hlo kv.1 (slot_mem_keys_take _ _ _ _ hlt hj)
  · intro v hv
    exact (present_at_findIndex b key hinv v hv).2
  · intro habs j kv hj hge
    rcases Nat.lt_or_ge j (b.findIndex key + 1) with hlt | hge2
    · have hj2 : j = b.findIndex key := by omega
      rw [hj2] at hj
      rcases lt_or_eq_of_le (hsl kv hj) with h | h
      · exact h
      · refine absurd ?_ habs
        rw [h]
        exact List.mem_map_of_mem Prod.fst (slot_mem_occ _ _ _ hj)
    · exact hhi kv.1 (slot_mem_keys_drop_le _ _ _ _ hge2 hj)

theorem C5_witness :
    (BTM.new : BTM Nat Nat).findIndex 0 ≤
      (BTM.new : BTM Nat Nat).numLeaves ∧
    (∀ j kv, slotGet (BTM.new : BTM Nat Nat).pma.v j = some kv →
      j < (BTM.new : BTM Nat Nat).findIndex 0 → kv.1 < 0) ∧
    (∀ v, ((0 : Nat), v) ∈ occ (BTM.new : BTM Nat Nat).pma.v →
      slotGet (BTM.new : BTM Nat Nat).pma.v
        ((BTM.new : BTM Nat Nat).findIndex 0) = some (0, v)) ∧
    (¬ (0 : Nat) ∈ keysOf (BTM.new : BTM Nat Nat).pma.v →
      ∀ j kv, slotGet (BTM.new : BTM Nat Nat).pma.v j = some kv →
        (BTM.new : BTM Nat Nat).findIndex 0 ≤ j → 0 < kv.1) :=
  C5_find_index_position BTM.new 0 Reach.new

/-- C9: on every reachable state, `remove` of an absent key returns `None`
and leaves the container exactly as it was — the same PMA slots, tree
keys, and length. -/
theorem C9_remove_absent_unchanged {K V : Type} [LinearOrder K]
    (b : BTM K V) (key : K) (hr : Reach b)
    (habs : ¬ key ∈ keysOf b.pma.v) :
    b.remove key = some (none, b) :=
  BTM_remove_absent b key (Reach_Inv b hr) habs

theorem C9_witness :
    ¬ (0 : Nat) ∈ keysOf (BTM.new : BTM Nat Nat).pma.v ∧
      (BTM.new : BTM Nat Nat).remove 0 = some (none, BTM.new) :=
  ⟨by decide, C9_remove_absent_unchanged BTM.new 0 Reach.new (by decide)⟩

/-- C4: on every reachable state (i.e. after every public mutating call,
including full rebuilds), each leaf holds exactly its slot key, and each
node with `f` levels below it holds the maximum key among the occupied
slots of its subtree window, `None` exactly when that window is empty. -/
theorem C4_tree_keys_subtree_max {K V : Type} [LinearOrder K]
    (b : BTM K V) (hr : Reach b) (n f : Nat)
    (hv : ValidNode b.numLeaves n f) :
    (f = 0 → b.tree.getD (n - 1) none =
      (slotGet b.pma.v (n - b.numLeaves)).map Prod.fst) ∧
    (∀ k, b.tree.getD (n - 1) none = some k →
      k ∈ keysOf (sliceL b.pma.v (n * 2 ^ f - b.numLeaves)
        (n * 2 ^ f - b.numLeaves + 2 ^ f)) ∧
      ∀ a ∈ keysOf (sliceL b.pma.v (n * 2 ^ f - b.numLeaves)
        (n * 2 ^ f - b.numLeaves + 2 ^ f)), a ≤ k) ∧
    (b.tree.getD (n - 1) none = none →
      keysOf (sliceL b.pma.v (n * 2 ^ f - b.numLeaves)
        (n * 2 ^ f - b.numLeaves + 2 ^ f)) = []) := by
  have hinv := Reach_Inv b hr
  obtain ⟨hscal, hsorted, hleaves, htlen, hsize, hgap, hts⟩ := hinv
  have hlen : b.pma.v.length = b.numLeaves := hleaves.symm
  have hsync := (treeSync_iff b.pma.v b.numLeaves (b.height - 1) rfl hlen
    b.tree).mp hts
  have hs := hsync n f hv
  rw [syncedN, ckL] at hs
  refine ⟨?_, ?_, ?_⟩
  · intro hf0
    subst hf0
    have hs0 := hsync n 0 hv
    rw [syncedN] at hs0
    rw [hs0, ckL_leaf _ _ _ hlen hv]
  · intro k hk
    rw [hs] at hk
    have hps := keysOf_sorted_of_sorted b.pma.v
      (n * 2 ^ f - b.numLeaves) (n * 2 ^ f - b.numLeaves + 2 ^ f) hsorted
    exact ⟨List.mem_of_mem_getLast? hk,
      fun a ha => sorted_getLast_max _ k hps hk a ha⟩
  · intro hk
    rw [hs] at hk
    rwa [List.getLast?_eq_none_iff] at hk

theorem C4_witness :
    ValidNode (BTM.new : BTM Nat Nat).numLeaves 1 0 ∧
    ((0 = 0 → (BTM.new : BTM Nat Nat).tree.getD (1 - 1) none =
      (slotGet (BTM.new : BTM Nat Nat).pma.v
        (1 - (BTM.new : BTM Nat Nat).numLeaves)).map Prod.fst) ∧
    (∀ k, (BTM.new : BTM Nat Nat).tree.getD (1 - 1) none = some k →
      k ∈ keysOf (sliceL (BTM.new : BTM Nat Nat).pma.v
        (1 * 2 ^ 0 - (BTM.new : BTM Nat Nat).numLeaves)
        (1 * 2 ^ 0 - (BTM.new : BTM Nat Nat).numLeaves + 2 ^ 0)) ∧
      ∀ a ∈ keysOf (sliceL (BTM.new : BTM Nat Nat).pma.v
        (1 * 2 ^ 0 - (BTM.new : BTM Nat Nat).numLeaves)
        (1 * 2 ^ 0 - (BTM.new : BTM Nat Nat).numLeaves + 2 ^ 0)), a ≤ k) ∧
    ((BTM.new : BTM Nat Nat).tree.getD (1 - 1) none = none →
      keysOf (sliceL (BTM.new : BTM Nat Nat).pma.v
        (1 * 2 ^ 0 - (BTM.new : BTM Nat Nat).numLeaves)
        (1 * 2 ^ 0 - (BTM.new : BTM Nat Nat).numLeaves + 2 ^ 0)) = [])) :=
  ⟨⟨by decide, by decide, by decide⟩,
    C4_tree_keys_subtree_max BTM.new Reach.new 1 0
      ⟨by decide, by decide, by decide⟩⟩

/-- Concrete reachable states exhibiting a `find_index` result equal to
the leaf count. -/
def C10b1 : BTM Nat Nat :=
  ⟨2, [some 0, none, some 0], ⟨[none, some (0, 0)], 2, 0, 1⟩, 1⟩

def C10b2 : BTM Nat Nat :=
  ⟨3, [some 1, some 0, some 1, none, some 0, none, some 1],
    ⟨[none, some (0, 0), none, some (1, 11)], 2, 1, 2⟩, 2⟩

def C10b3 : BTM Nat Nat :=
  ⟨3, [some 3, some 0, some 3, none, some 0, some 1, some 3],
    ⟨[none, some (0, 0), some (1, 11), some (3, 33)], 2, 1, 2⟩, 3⟩

/-- C10: on every reachable state, for a key strictly above all stored
keys (vacuously, also on the empty container) `find_index` stays within
`[0, leaves.len()]` and may reach exactly `leaves.len()` — witnessed by a
concrete reachable state — while `get` and `remove` detect the
out-of-range index through their guard and return `None` without touching
any slot. -/
theorem C10_oversized_key_guard {K V : Type} [LinearOrder K]
    (b : BTM K V) (key : K) (hr : Reach b)
    (hbig : ∀ a ∈ keysOf b.pma.v, a < key) :
    b.findIndex key ≤ b.numLeaves ∧ b.get key = none ∧
      b.remove key = some (none, b) ∧
      (∃ b0 : BTM Nat Nat, ∃ k0 : Nat, Reach b0 ∧
        b0.findIndex k0 = b0.numLeaves) := by
  have hinv := Reach_Inv b hr
  have habs : ¬ key ∈ keysOf b.pma.v := by
    intro hmem
    exact lt_irrefl key (hbig key hmem)
  refine ⟨(findIndex_spec b key hinv).1, (BTM_get_spec b key hinv).2 habs,
    BTM_remove_absent b key hinv habs, C10b3, 7, ?_, by decide⟩
  exact Reach.insert C10b2 3 33 none C10b3
    (Reach.insert C10b1 1 11 none C10b2
      (Reach.insert BTM.new 0 0 none C10b1 Reach.new (by decide))
      (by decide))
    (by decide)

theorem C10_witness :
    (∀ a ∈ keysOf (BTM.new : BTM Nat Nat).pma.v, a < 0) ∧
    ((BTM.new : BTM Nat Nat).findIndex 0 ≤
        (BTM.new : BTM Nat Nat).numLeaves ∧
      (BTM.new : BTM Nat Nat).get 0 = none ∧
      (BTM.new : BTM Nat Nat).remove 0 = some (none, BTM.new) ∧
      (∃ b0 : BTM Nat Nat, ∃ k0 : Nat, Reach b0 ∧
        b0.findIndex k0 = b0.numLeaves)) :=
  ⟨by decide, C10_oversized_key_guard BTM.new 0 Reach.new (by decide)⟩

end COBT
